import Mathlib

/-!
Verification of the claude-code-proxy-with-search gateway against its
specification.  The TypeScript sources are shallowly embedded: pure JS/TS
functions become Lean functions, in-place mutation becomes explicit state
passing, JS `Map` objects become insertion-ordered association lists, thrown
exceptions become `Except`, and the nondeterministic fresh-id generators
(`Date.now()` / `Math.random()`) are determinized by an explicit counter.
-/

set_option linter.unusedVariables false

namespace Spec2Proof

/-! ## Decimal printing of naturals

JS template literals such as `` `text_${index}` `` print the index in
decimal.  We embed decimal printing as `natToString` (same output as the
runtime) and prove it injective via a digit-value round trip, which the
stream-translator invariants need.
-/

/-- The decimal digit character for `d` (defined for `d < 10`). -/
def digitChar : Nat → Char
  | 0 => '0' | 1 => '1' | 2 => '2' | 3 => '3' | 4 => '4'
  | 5 => '5' | 6 => '6' | 7 => '7' | 8 => '8' | _ => '9'

/-- Numeric value of a decimal digit character. -/
def digitVal (c : Char) : Nat :=
  if c = '0' then 0 else if c = '1' then 1 else if c = '2' then 2
  else if c = '3' then 3 else if c = '4' then 4 else if c = '5' then 5
  else if c = '6' then 6 else if c = '7' then 7 else if c = '8' then 8
  else 9

/-- Decimal digits with explicit fuel (structural, so concrete values reduce
in the kernel); `fuel > n` always suffices. -/
def natDigitsAux : Nat → Nat → List Char
  | 0, _ => []
  | fuel + 1, n =>
    if n < 10 then [digitChar n]
    else natDigitsAux fuel (n / 10) ++ [digitChar (n % 10)]

/-- Decimal digits of `n`, most significant first. -/
def natDigits (n : Nat) : List Char := natDigitsAux (n + 1) n

/-- Decimal rendering of a natural number (the output of `${n}` in JS). -/
def natToString (n : Nat) : String := ⟨natDigits n⟩

theorem digitVal_digitChar {d : Nat} (h : d < 10) : digitVal (digitChar d) = d := by
  interval_cases d <;> rfl

/-- Value of a digit string read left to right. -/
def digitsVal (cs : List Char) : Nat :=
  cs.foldl (fun a c => a * 10 + digitVal c) 0

theorem digitsVal_go (cs : List Char) (a : Nat) :
    cs.foldl (fun a c => a * 10 + digitVal c) a =
      a * 10 ^ cs.length + digitsVal cs := by
  induction cs generalizing a with
  | nil => simp [digitsVal]
  | cons c cs ih =>
    simp only [List.foldl_cons, digitsVal, List.length_cons]
    rw [ih, ih (0 * 10 + digitVal c)]
    ring

theorem digitsVal_append_singleton (cs : List Char) (c : Char) :
    digitsVal (cs ++ [c]) = digitsVal cs * 10 + digitVal c := by
  simp [digitsVal, List.foldl_append]

theorem digitsVal_natDigitsAux :
    ∀ fuel n, n < fuel → digitsVal (natDigitsAux fuel n) = n := by
  intro fuel
  induction fuel with
  | zero => omega
  | succ fuel ih =>
    intro n hn
    by_cases h : n < 10
    · simp [natDigitsAux, h, digitsVal, digitVal_digitChar h]
    · rw [natDigitsAux, if_neg h, digitsVal_append_singleton,
        ih (n / 10) (by omega), digitVal_digitChar (Nat.mod_lt _ (by omega))]
      omega

theorem digitsVal_natDigits (n : Nat) : digitsVal (natDigits n) = n :=
  digitsVal_natDigitsAux (n + 1) n (Nat.lt_succ_self n)

theorem natDigits_injective : Function.Injective natDigits := by
  intro m n h
  have hm := digitsVal_natDigits m
  have hn := digitsVal_natDigits n
  rw [h] at hm
  omega

theorem natToString_injective : Function.Injective natToString := by
  intro m n h
  exact natDigits_injective (congrArg String.data h)

theorem natDigits_ne_nil (n : Nat) : natDigits n ≠ [] := by
  rw [natDigits, natDigitsAux]
  split <;> simp

/-! ## JSON values

JSON values as passed around by the gateway.  Object fields are an
insertion-ordered association list, mirroring JS object key order.  JSON
numbers are modelled as integers; no claim depends on fractional values.
-/

inductive Json where
  | null
  | bool (b : Bool)
  | num (n : Int)
  | str (s : String)
  | arr (elems : List Json)
  | obj (fields : List (String × Json))

mutual

/-- Structural equality of JSON values. -/
def jeq : Json → Json → Bool
  | .null, .null => true
  | .bool x, .bool y => x == y
  | .num x, .num y => x == y
  | .str x, .str y => x == y
  | .arr xs, .arr ys => jeqList xs ys
  | .obj fs, .obj gs => jeqFields fs gs
  | _, _ => false

def jeqList : List Json → List Json → Bool
  | [], [] => true
  | x :: xs, y :: ys => jeq x y && jeqList xs ys
  | _, _ => false

def jeqFields : List (String × Json) → List (String × Json) → Bool
  | [], [] => true
  | (k, v) :: fs, (k', v') :: gs => k == k' && jeq v v' && jeqFields fs gs
  | _, _ => false

end

mutual

theorem jeq_iff : ∀ a b, jeq a b = true ↔ a = b
  | .null, .null => by simp [jeq]
  | .bool x, .bool y => by simp [jeq]
  | .num x, .num y => by simp [jeq]
  | .str x, .str y => by simp [jeq]
  | .arr xs, .arr ys => by simp [jeq, jeqList_iff xs ys]
  | .obj fs, .obj gs => by simp [jeq, jeqFields_iff fs gs]
  | .null, .bool _ | .null, .num _ | .null, .str _ | .null, .arr _
  | .null, .obj _ | .bool _, .null | .bool _, .num _ | .bool _, .str _
  | .bool _, .arr _ | .bool _, .obj _ | .num _, .null | .num _, .bool _
  | .num _, .str _ | .num _, .arr _ | .num _, .obj _ | .str _, .null
  | .str _, .bool _ | .str _, .num _ | .str _, .arr _ | .str _, .obj _
  | .arr _, .null | .arr _, .bool _ | .arr _, .num _ | .arr _, .str _
  | .arr _, .obj _ | .obj _, .null | .obj _, .bool _ | .obj _, .num _
  | .obj _, .str _ | .obj _, .arr _ => by simp [jeq]

theorem jeqList_iff : ∀ xs ys, jeqList xs ys = true ↔ xs = ys
  | [], [] => by simp [jeqList]
  | x :: xs, y :: ys => by
      simp [jeqList, jeq_iff x y, jeqList_iff xs ys]
  | [], _ :: _ => by simp [jeqList]
  | _ :: _, [] => by simp [jeqList]

theorem jeqFields_iff : ∀ fs gs, jeqFields fs gs = true ↔ fs = gs
  | [], [] => by simp [jeqFields]
  | (k, v) :: fs, (k', v') :: gs => by
      simp [jeqFields, jeq_iff v v', jeqFields_iff fs gs, and_assoc]
  | [], _ :: _ => by simp [jeqFields]
  | _ :: _, [] => by simp [jeqFields]

end

instance : DecidableEq Json := fun a b =>
  decidable_of_iff (jeq a b = true) (jeq_iff a b)

/-- JS truthiness of a value (`if (x)`): `null`, `false`, `0` and `""` are
falsy, every object and array is truthy. -/
def jsTruthy : Json → Bool
  | .null => false
  | .bool b => b
  | .num n => n != 0
  | .str s => s != ""
  | .arr _ => true
  | .obj _ => true

/-- First binding of `k` in an association list (JS object keys are unique,
so this is the binding). -/
def lookupF (fs : List (String × Json)) (k : String) : Option Json :=
  match fs with
  | [] => none
  | (k', v') :: rest => if k' = k then some v' else lookupF rest k

/-- JS property assignment `o[k] = v`: replaces the value in place when the
key exists, otherwise appends the key at the end of the key order. -/
def setF (fs : List (String × Json)) (k : String) (v : Json) :
    List (String × Json) :=
  match fs with
  | [] => [(k, v)]
  | (k', v') :: rest =>
    if k' = k then (k', v) :: rest else (k', v') :: setF rest k v

/-- JS `delete o[k]`: removes the binding, preserving the order of the rest. -/
def deleteF (fs : List (String × Json)) (k : String) : List (String × Json) :=
  match fs with
  | [] => []
  | (k', v') :: rest =>
    if k' = k then rest else (k', v') :: deleteF rest k

/-- `typeof x === "object"` for a defined value: true for objects, arrays and
`null`. -/
def jsTypeofObject : Option Json → Bool
  | some .null => true
  | some (.obj _) => true
  | some (.arr _) => true
  | _ => false

/-- The `(key, value)` pairs visited by `Object.keys(x)` followed by `x[key]`.
`Object.keys(null)` throws a `TypeError`; primitives yield no own keys;
arrays yield their indices (in decimal) with the elements. -/
def jsOwnProps : Option Json → Except String (List (String × Json))
  | some .null => .error "TypeError: Cannot convert undefined or null to object"
  | some (.obj fs) => .ok fs
  | some (.arr xs) => .ok (xs.enum.map fun p => (natToString p.1, p.2))
  | _ => .ok []

/-- Insertion-order deduplication, the effect of `Array.from(new Set(xs))`
(object identity is approximated by structural equality). -/
def jsSetOfList (xs : List Json) : List Json :=
  xs.foldl (fun acc x => if x ∈ acc then acc else acc ++ [x]) []

mutual

/-- Size measure used for well-founded recursion over JSON trees. -/
def jsonSize : Json → Nat
  | .arr xs => 1 + jsonListSize xs
  | .obj fs => 1 + jsonFieldsSize fs
  | _ => 1

def jsonListSize : List Json → Nat
  | [] => 0
  | x :: xs => jsonSize x + jsonListSize xs + 1

def jsonFieldsSize : List (String × Json) → Nat
  | [] => 0
  | (_, v) :: fs => jsonSize v + jsonFieldsSize fs + 1

end

theorem jsonSize_pos (j : Json) : 0 < jsonSize j := by
  cases j <;> simp [jsonSize]

theorem jsonFieldsSize_lookup {fs : List (String × Json)} {k : String}
    {v : Json} (h : lookupF fs k = some v) :
    jsonSize v ≤ jsonFieldsSize fs := by
  induction fs with
  | nil => simp [lookupF] at h
  | cons p rest ih =>
    obtain ⟨k', v'⟩ := p
    simp only [lookupF] at h
    split at h
    · injection h with h
      subst h
      simp [jsonFieldsSize]
      omega
    · have := ih h
      simp [jsonFieldsSize]
      omega

theorem lookupF_size {fs : List (String × Json)} {k : String} {v : Json}
    (h : lookupF fs k = some v) : jsonSize v < jsonSize (.obj fs) := by
  have := jsonFieldsSize_lookup h
  simp [jsonSize]
  omega

theorem jsonFieldsSize_enumFrom (xs : List Json) (n : Nat) :
    jsonFieldsSize ((xs.enumFrom n).map fun p => (natToString p.1, p.2)) =
      jsonListSize xs := by
  induction xs generalizing n with
  | nil => simp [jsonFieldsSize, jsonListSize]
  | cons x xs ih => simp [List.enumFrom, jsonFieldsSize, jsonListSize, ih]

theorem jsOwnProps_size {p : Json} {kvs : List (String × Json)}
    (h : jsOwnProps (some p) = .ok kvs) : jsonFieldsSize kvs < jsonSize p := by
  cases p with
  | null => simp [jsOwnProps] at h
  | obj fs =>
    simp only [jsOwnProps, Except.ok.injEq] at h
    subst h
    simp [jsonSize]
  | arr xs =>
    simp only [jsOwnProps, List.enum, Except.ok.injEq] at h
    subst h
    rw [jsonFieldsSize_enumFrom]
    simp [jsonSize]
  | bool b =>
    simp only [jsOwnProps, Except.ok.injEq] at h
    subst h
    simp [jsonFieldsSize, jsonSize]
  | num n =>
    simp only [jsOwnProps, Except.ok.injEq] at h
    subst h
    simp [jsonFieldsSize, jsonSize]
  | str s =>
    simp only [jsOwnProps, Except.ok.injEq] at h
    subst h
    simp [jsonFieldsSize, jsonSize]

/-- The message of the `TypeError` thrown by a property access on `null`. -/
def typeErrorMsg : String := "TypeError: Cannot read properties of null"

/-- Rebuild the container whose own properties were visited: objects get the
transformed field list back, arrays get the transformed elements back. -/
def rebuildOwnProps : Json → List (String × Json) → Json
  | .obj _, kvs => .obj kvs
  | .arr _, kvs => .arr (kvs.map (·.2))
  | j, _ => j

/-! ## Schema normalizer (`normalizeJSONSchemaForOpenAI` and helpers)

Embedding of `ensureRequiredRec`, `removeUnsupportedFormats` and
`ensureAdditionalPropertiesFalseRec`.  In-place mutation of the cloned
schema becomes value threading; the `TypeError` raised by JS when a `null`
is dereferenced becomes `Except.error`.
-/

mutual

def ensureRequiredRec (j : Json) : Except String Json :=
  match j with
  | .null => .error typeErrorMsg
  | .obj fs => do
    let fs1 ←
      if lookupF fs "type" = some (.str "object") ∧
          jsTypeofObject (lookupF fs "properties") = true then do
        let kvs ← jsOwnProps (lookupF fs "properties")
        let existing : List Json :=
          match lookupF fs "required" with
          | some (.arr xs) => xs
          | _ => []
        pure (setF fs "required"
          (.arr (jsSetOfList (existing ++ kvs.map fun p => Json.str p.1))))
      else pure fs
    let fs2 ←
      match hit : lookupF fs "items" with
      | some it =>
        if lookupF fs "type" = some (.str "array") ∧ jsTruthy it = true then do
          let it' ← ensureRequiredRec it
          pure (setF fs1 "items" it')
        else pure fs1
      | none => pure fs1
    match hp : lookupF fs "properties" with
    | some p =>
      if jsTypeofObject (some p) = true then
        match hkv : jsOwnProps (some p) with
        | .error e => .error e
        | .ok kvs => do
          let kvs' ← ensureRequiredChildren kvs
          pure (.obj (setF fs2 "properties" (rebuildOwnProps p kvs')))
      else pure (.obj fs2)
    | none => pure (.obj fs2)
  | j => pure j
termination_by jsonSize j
decreasing_by
  all_goals first
    | exact lookupF_size hit
    | exact lt_trans (jsOwnProps_size hkv) (lookupF_size hp)

def ensureRequiredChildren (kvs : List (String × Json)) :
    Except String (List (String × Json)) :=
  match kvs with
  | [] => .ok []
  | (k, v) :: rest => do
    let v' ← ensureRequiredRec v
    let rest' ← ensureRequiredChildren rest
    .ok ((k, v') :: rest')
termination_by jsonFieldsSize kvs
decreasing_by
  all_goals simp [jsonFieldsSize]
  all_goals omega

end

mutual

def removeUnsupportedFormats (j : Json) : Except String Json :=
  match j with
  | .null => .error typeErrorMsg
  | .obj fs => do
    let fs1 :=
      if lookupF fs "format" = some (.str "uri") then deleteF fs "format"
      else fs
    let fs2 ←
      match hp : lookupF fs "properties" with
      | some p =>
        if jsTruthy p = true then
          match hkv : jsOwnProps (some p) with
          | .error e => .error e
          | .ok kvs => do
            let kvs' ← removeFormatsChildren kvs
            pure (setF fs1 "properties" (rebuildOwnProps p kvs'))
        else pure fs1
      | none => pure fs1
    match hit : lookupF fs "items" with
    | some it =>
      if jsTruthy it = true then do
        let it' ← removeUnsupportedFormats it
        pure (.obj (setF fs2 "items" it'))
      else pure (.obj fs2)
    | none => pure (.obj fs2)
  | j => pure j
termination_by jsonSize j
decreasing_by
  all_goals first
    | exact lookupF_size hit
    | exact lt_trans (jsOwnProps_size hkv) (lookupF_size hp)

def removeFormatsChildren (kvs : List (String × Json)) :
    Except String (List (String × Json)) :=
  match kvs with
  | [] => .ok []
  | (k, v) :: rest => do
    let v' ← removeUnsupportedFormats v
    let rest' ← removeFormatsChildren rest
    .ok ((k, v') :: rest')
termination_by jsonFieldsSize kvs
decreasing_by
  all_goals simp [jsonFieldsSize]
  all_goals omega

end

mutual

def ensureAdditionalPropertiesFalseRec (j : Json) : Except String Json :=
  match j with
  | .null => .error typeErrorMsg
  | .obj fs => do
    let fs1 :=
      if lookupF fs "type" = some (.str "object") then
        setF fs "additionalProperties" (.bool false)
      else fs
    let fs2 ←
      match hit : lookupF fs "items" with
      | some it =>
        if jsTruthy it = true then do
          let it' ← ensureAdditionalPropertiesFalseRec it
          pure (setF fs1 "items" it')
        else pure fs1
      | none => pure fs1
    match hp : lookupF fs "properties" with
    | some p =>
      if jsTruthy p = true then
        match hkv : jsOwnProps (some p) with
        | .error e => .error e
        | .ok kvs => do
          let kvs' ← ensureAdditionalChildren kvs
          pure (.obj (setF fs2 "properties" (rebuildOwnProps p kvs')))
      else pure (.obj fs2)
    | none => pure (.obj fs2)
  | j => pure j
termination_by jsonSize j
decreasing_by
  all_goals first
    | exact lookupF_size hit
    | exact lt_trans (jsOwnProps_size hkv) (lookupF_size hp)

def ensureAdditionalChildren (kvs : List (String × Json)) :
    Except String (List (String × Json)) :=
  match kvs with
  | [] => .ok []
  | (k, v) :: rest => do
    let v' ← ensureAdditionalPropertiesFalseRec v
    let rest' ← ensureAdditionalChildren rest
    .ok ((k, v') :: rest')
termination_by jsonFieldsSize kvs
decreasing_by
  all_goals simp [jsonFieldsSize]
  all_goals omega

end

/-- `normalizeJSONSchemaForOpenAI`: deep-clones the input (pure values make
the clone the identity, so the argument is never mutated) and applies the
three rewrites in order. -/
def normalizeJSONSchemaForOpenAI (inputSchema : Json) : Except String Json := do
  let schema := inputSchema
  let s1 ← ensureRequiredRec schema
  let s2 ← removeUnsupportedFormats s1
  let s3 ← ensureAdditionalPropertiesFalseRec s2
  pure s3

/-! ## `JSON.parse`

A recursive-descent JSON parser embedding the runtime's `JSON.parse`:
`none` models a thrown `SyntaxError`.  String escapes are mapped to their
characters (`\uXXXX` is accepted and decoded); fractional and exponent parts
of numbers are accepted syntactically but truncated to the integer part,
which no claim depends on.
-/

def openBraceChar : Char := Char.ofNat 123

def closeBraceChar : Char := Char.ofNat 125

def isWsChar (c : Char) : Bool :=
  c = ' ' || c = '\t' || c = '\n' || c = '\r'

def skipWs (cs : List Char) : List Char :=
  match cs with
  | c :: rest => if isWsChar c then skipWs rest else cs
  | [] => []

def isDigitCh (c : Char) : Bool := '0' ≤ c ∧ c ≤ '9'

def hexVal (c : Char) : Option Nat :=
  if '0' ≤ c ∧ c ≤ '9' then some (c.toNat - 48)
  else if 'a' ≤ c ∧ c ≤ 'f' then some (c.toNat - 87)
  else if 'A' ≤ c ∧ c ≤ 'F' then some (c.toNat - 55)
  else none

def parseStringBody (fuel : Nat) (cs : List Char) :
    Option (String × List Char) :=
  match fuel, cs with
  | 0, _ => none
  | _, [] => none
  | fuel + 1, c :: rest =>
    if c = '"' then some ("", rest)
    else if c = '\\' then
      match rest with
      | [] => none
      | e :: rest' =>
        let dec : Option (Char × List Char) :=
          if e = 'n' then some ('\n', rest')
          else if e = 't' then some ('\t', rest')
          else if e = 'r' then some ('\r', rest')
          else if e = 'b' then some (Char.ofNat 8, rest')
          else if e = 'f' then some (Char.ofNat 12, rest')
          else if e = 'u' then
            match rest' with
            | h1 :: h2 :: h3 :: h4 :: rest'' =>
              match hexVal h1, hexVal h2, hexVal h3, hexVal h4 with
              | some a, some b, some c', some d =>
                some (Char.ofNat (((a * 16 + b) * 16 + c') * 16 + d), rest'')
              | _, _, _, _ => none
            | _ => none
          else if e = '"' ∨ e = '\\' ∨ e = '/' then some (e, rest')
          else none
        match dec with
        | some (ch, rest'') =>
          match parseStringBody fuel rest'' with
          | some (s, rem) => some (⟨ch :: s.data⟩, rem)
          | none => none
        | none => none
    else
      match parseStringBody fuel rest with
      | some (s, rem) => some (⟨c :: s.data⟩, rem)
      | none => none

def parseDigits : List Char → Nat → (Nat × List Char)
  | c :: rest, acc =>
    if isDigitCh c then parseDigits rest (acc * 10 + (c.toNat - 48))
    else (acc, c :: rest)
  | [], acc => (acc, [])

def dropDigits : List Char → List Char
  | c :: rest => if isDigitCh c then dropDigits rest else c :: rest
  | [] => []

/-- Parse a JSON number after an optional leading minus (fraction and
exponent accepted, value truncated). -/
def parseNumber (cs : List Char) : Option (Json × List Char) :=
  match cs with
  | c :: _ =>
    if isDigitCh c then
      let (n, rest) := parseDigits cs 0
      let rest1 :=
        match rest with
        | '.' :: d :: rest' =>
          if isDigitCh d then dropDigits (d :: rest') else '.' :: d :: rest'
        | _ => rest
      let rest2 :=
        match rest1 with
        | e :: rest' =>
          if e = 'e' ∨ e = 'E' then
            match rest' with
            | s :: d :: rest'' =>
              if (s = '+' ∨ s = '-') ∧ isDigitCh d then dropDigits (d :: rest'')
              else if isDigitCh s then dropDigits (s :: d :: rest'')
              else e :: rest'
            | [d] => if isDigitCh d then [] else e :: rest'
            | [] => e :: rest'
          else rest1
        | [] => rest1
      some (.num (Int.ofNat n), rest2)
    else none
  | [] => none

mutual

def parseVal (fuel : Nat) (cs : List Char) : Option (Json × List Char) :=
  match fuel with
  | 0 => none
  | fuel + 1 =>
    match skipWs cs with
    | 'n' :: 'u' :: 'l' :: 'l' :: rest => some (.null, rest)
    | 't' :: 'r' :: 'u' :: 'e' :: rest => some (.bool true, rest)
    | 'f' :: 'a' :: 'l' :: 's' :: 'e' :: rest => some (.bool false, rest)
    | '"' :: rest =>
      match parseStringBody (rest.length + 1) rest with
      | some (s, rem) => some (.str s, rem)
      | none => none
    | '-' :: rest =>
      match parseNumber rest with
      | some (.num n, rem) => some (.num (-n), rem)
      | _ => none
    | '[' :: rest =>
      (match skipWs rest with
       | ']' :: rem => some (.arr [], rem)
       | _ =>
         match parseElems fuel rest with
         | some (xs, rem) => some (.arr xs, rem)
         | none => none)
    | c :: rest =>
      if c = openBraceChar then
        match skipWs rest with
        | c' :: rem =>
          if c' = closeBraceChar then some (.obj [], rem)
          else
            (match parseMembers fuel (c' :: rem) with
             | some (fs, rem') => some (.obj fs, rem')
             | none => none)
        | [] => none
      else parseNumber (c :: rest)
    | [] => none

def parseElems (fuel : Nat) (cs : List Char) : Option (List Json × List Char) :=
  match fuel with
  | 0 => none
  | fuel + 1 =>
    match parseVal fuel cs with
    | some (v, rest) =>
      match skipWs rest with
      | ',' :: rest' =>
        (match parseElems fuel rest' with
         | some (xs, rem) => some (v :: xs, rem)
         | none => none)
      | ']' :: rem => some ([v], rem)
      | _ => none
    | none => none

def parseMembers (fuel : Nat) (cs : List Char) :
    Option (List (String × Json) × List Char) :=
  match fuel with
  | 0 => none
  | fuel + 1 =>
    match skipWs cs with
    | '"' :: rest =>
      match parseStringBody (rest.length + 1) rest with
      | some (k, rest') =>
        (match skipWs rest' with
         | ':' :: rest'' =>
           match parseVal fuel rest'' with
           | some (v, rest3) =>
             (match skipWs rest3 with
              | ',' :: rest4 =>
                (match parseMembers fuel rest4 with
                 | some (fs, rem) => some ((k, v) :: fs, rem)
                 | none => none)
              | c :: rem =>
                if c = closeBraceChar then some ([(k, v)], rem) else none
              | [] => none)
           | none => none
         | _ => none)
      | none => none
    | _ => none

end

/-- `JSON.parse`: `none` is a thrown `SyntaxError`. -/
def parseJson (s : String) : Option Json :=
  match parseVal (s.length + 2) s.data with
  | some (v, rest) => if skipWs rest = [] then some v else none
  | none => none

/-! ## Generic JS `Map` / object-as-map operations -/

/-- `Map.set` / keyed assignment: replace in place or append. -/
def jsMapSet {α : Type} (m : List (String × α)) (k : String) (v : α) :
    List (String × α) :=
  match m with
  | [] => [(k, v)]
  | (k', v') :: rest =>
    if k' = k then (k', v) :: rest else (k', v') :: jsMapSet rest k v

/-- `Map.get` (first binding; keys are unique in a JS `Map`). -/
def jsMapGet {α : Type} (m : List (String × α)) (k : String) : Option α :=
  match m with
  | [] => none
  | (k', v') :: rest => if k' = k then some v' else jsMapGet rest k

/-! ## Non-streaming response translator (`convertOpenAIResponseToClaude`)

Embedding of `converters/message-converter/openai-to-claude/response.ts`.
The minted `toolu_<timestamp>_<random>` downstream ids are determinized to
`toolu_<counter>`.  The uncaught `SyntaxError` of
`JSON.parse(output.arguments || "{}")` becomes `Except.error`.
-/

inductive ContentPart where
  | outputText (text : String)
  | otherContent

inductive OutputItem where
  | message (content : List ContentPart)
  | functionCall (id callId name arguments : String)
  | otherItem

/-- A complete upstream response (the fields the translator reads). -/
structure OAIResponse where
  output : List OutputItem
  status : String
  incompleteReason : Option String
  usageInput : Nat
  usageOutput : Nat

inductive ClaudeStopReason where
  | endTurn
  | maxTokens
  | toolUse
deriving DecidableEq

inductive ClaudeBlock where
  | text (text : String)
  | toolUse (id name : String) (input : Json)
deriving DecidableEq

structure ClaudeMessageOut where
  content : List ClaudeBlock
  stopReason : ClaudeStopReason
  usageInput : Nat
  usageOutput : Nat
deriving DecidableEq

/-- `JSON.parse(arguments || "\x7b\x7d")`: empty/missing arguments parse the
literal empty-object text; anything else goes to `JSON.parse` and throws on
invalid JSON. -/
def jsonParseArgs (arguments : String) : Except String Json :=
  if arguments = "" then .ok (.obj [])
  else
    match parseJson arguments with
    | some v => .ok v
    | none => .error "SyntaxError: Unexpected token in JSON"

/-- The output-item loop of `convertOpenAIResponseToClaude`: accumulates text
parts, `tool_use` blocks and `call_id -> tool_use_id` bindings. -/
def convertOutputLoop (items : List OutputItem) (mint : Nat)
    (texts : List String) (tools : List ClaudeBlock)
    (mapping : List (String × String)) :
    Except String (List String × List ClaudeBlock × List (String × String)) :=
  match items with
  | [] => .ok (texts, tools, mapping)
  | .message parts :: rest =>
    convertOutputLoop rest mint
      (texts ++ parts.filterMap fun p =>
        match p with
        | .outputText t => some t
        | .otherContent => none)
      tools mapping
  | .functionCall id callId name arguments :: rest =>
    if id ≠ "" then
      match jsonParseArgs arguments with
      | .error e => .error e
      | .ok input =>
        let toolUseId := "toolu_" ++ natToString mint
        let mapping' :=
          if callId ≠ "" then jsMapSet mapping callId toolUseId
          else jsMapSet mapping id toolUseId
        convertOutputLoop rest (mint + 1) texts
          (tools ++ [.toolUse toolUseId name input]) mapping'
    else convertOutputLoop rest mint texts tools mapping
  | .otherItem :: rest => convertOutputLoop rest mint texts tools mapping

def convertOpenAIResponseToClaude (resp : OAIResponse) (mintBase : Nat) :
    Except String (ClaudeMessageOut × List (String × String)) :=
  match convertOutputLoop resp.output mintBase [] [] [] with
  | .error e => .error e
  | .ok (texts, tools, mapping) =>
    let content :=
      (if texts.length > 0 then [ClaudeBlock.text (String.join texts)] else [])
        ++ tools
    let stopReason : ClaudeStopReason :=
      if resp.status = "incomplete" then
        if resp.incompleteReason = some "max_output_tokens" then .maxTokens
        else .endTurn
      else if tools.length > 0 then .toolUse
      else .endTurn
    .ok (⟨content, stopReason, resp.usageInput, resp.usageOutput⟩, mapping)

/-! ## Request translator post-filter

Embedding of the unmatched-`function_call` filter at the end of
`claudeToResponses` (message-converter/claude-to-openai variant): collect the
`call_id`s of all `function_call_output` items, then drop every
`function_call` whose truthy `call_id` is not among them.  Every
`function_call` the converter emits carries a non-empty `call_id` (looked up
from the store or minted as `call_<timestamp>_<random>`), which the claim
theorem takes as a hypothesis.
-/

inductive InputItem where
  | inputMessage (role content : String)
  | functionCall (callId name arguments : String)
  | functionCallOutput (callId output : String)
  | otherItem
deriving DecidableEq

def dropUnmatchedFunctionCalls (input : List InputItem) : List InputItem :=
  let outputIds : List String :=
    input.filterMap fun item =>
      match item with
      | .functionCallOutput callId _ => if callId ≠ "" then some callId else none
      | _ => none
  input.filter fun item =>
    match item with
    | .functionCall callId _ _ =>
      if callId ≠ "" then outputIds.contains callId else true
    | _ => true

/-! ## Content block manager (`ContentBlockManager`)

Blocks live in an append-only array; streaming metadata lives in a JS `Map`
keyed by block id (`text_<index>` for text blocks, the upstream item id for
tool blocks).  `Map.set` on an existing key overwrites the entry in place,
which is what makes colliding ids observable.
-/

/-- Synthetic id of the text block allocated at `index`. -/
def textKey (index : Nat) : String := "text_" ++ natToString index

inductive CBlock where
  | text (content : String)
  | toolUse (id name : String)
deriving DecidableEq

structure BMeta where
  id : String
  index : Nat
  started : Bool
  completed : Bool
  argsBuffer : String
  callId : Option String
deriving DecidableEq

structure CBM where
  blocks : List CBlock
  metadata : List (String × BMeta)
deriving DecidableEq

def CBM.empty : CBM := ⟨[], []⟩

def CBM.addTextBlock (m : CBM) : CBM × BMeta :=
  let index := m.blocks.length
  let id := textKey index
  let meta : BMeta := ⟨id, index, false, false, "", none⟩
  (⟨m.blocks ++ [.text ""], jsMapSet m.metadata id meta⟩, meta)

def CBM.addToolBlock (m : CBM) (toolId name : String) (callId : Option String) :
    CBM × BMeta :=
  match jsMapGet m.metadata toolId with
  | some meta => (m, meta)
  | none =>
    let index := m.blocks.length
    let meta : BMeta := ⟨toolId, index, false, false, "", callId⟩
    (⟨m.blocks ++ [.toolUse toolId name], jsMapSet m.metadata toolId meta⟩, meta)

def CBM.getBlock (m : CBM) (id : String) : Option (CBlock × BMeta) :=
  match jsMapGet m.metadata id with
  | none => none
  | some md =>
    match m.blocks.get? md.index with
    | some block => some (block, md)
    | none => none

def CBM.getToolBlock (m : CBM) (id : String) : Option (CBlock × BMeta) :=
  match m.getBlock id with
  | some (.toolUse tid name, meta) => some (.toolUse tid name, meta)
  | _ => none

/-- Last (in insertion order) uncompleted entry whose block is a text block. -/
def CBM.getCurrentTextBlock (m : CBM) : Option (CBlock × BMeta) :=
  m.metadata.reverse.findSome? fun p =>
    if p.2.completed then none
    else
      match m.blocks.get? p.2.index with
      | some (.text c) => some (.text c, p.2)
      | _ => none

/-- In-place update of the metadata entry with the given id (JS mutates the
object held in the `Map`). -/
def updEntry (id : String) (f : BMeta → BMeta)
    (md : List (String × BMeta)) : List (String × BMeta) :=
  md.map fun p => (p.1, if p.1 = id then f p.2 else p.2)

def CBM.markStarted (m : CBM) (id : String) : CBM :=
  ⟨m.blocks, updEntry id (fun b => { b with started := true }) m.metadata⟩

def CBM.markCompleted (m : CBM) (id : String) : CBM :=
  ⟨m.blocks, updEntry id (fun b => { b with completed := true }) m.metadata⟩

/-- `metadata.argsBuffer = (metadata.argsBuffer || "") + delta` on the entry
reached through `getToolBlock`. -/
def CBM.appendArgs (m : CBM) (id : String) (delta : String) : CBM :=
  ⟨m.blocks,
    updEntry id (fun b => { b with argsBuffer := b.argsBuffer ++ delta })
      m.metadata⟩

def CBM.hasActiveTools (m : CBM) : Bool :=
  m.metadata.any fun p =>
    !p.2.completed &&
      match m.blocks.get? p.2.index with
      | some (.toolUse _ _) => true
      | _ => false

/-- Snapshot of the uncompleted entries, in metadata insertion order. -/
def CBM.getUncompletedBlocks (m : CBM) : List (CBlock × BMeta) :=
  m.metadata.filterMap fun p =>
    if p.2.completed then none
    else
      match m.blocks.get? p.2.index with
      | some block => some (block, p.2)
      | none => none

def CBM.updateTextContent (m : CBM) (id : String) (t : String) : CBM :=
  match jsMapGet m.metadata id with
  | none => m
  | some md =>
    match m.blocks.get? md.index with
    | some (.text c) => ⟨m.blocks.set md.index (.text (c ++ t)), m.metadata⟩
    | _ => m

/-! ## Stream translator (`StreamState.handleEvent`)

Upstream events carry only the fields the handler reads.  `item.id` of
`output_item` events is `Option String` because `isItemIdString` guards on
`typeof`; other id fields are `String` with `""` playing the role of a falsy
value.  Emissions through the SSE writer become a list of `DownEvent`s.
-/

inductive PartPayload where
  | outputTextPart (text : String)
  | otherPart
deriving DecidableEq

inductive UpEvent where
  | responseCreated (responseId : String)
  | outputTextDelta (delta : String)
  | outputTextDone
  | outputItemAddedFunctionCall (itemId : Option String) (name callId : String)
  | outputItemAddedOther
  | functionCallArgumentsDelta (itemId delta : String)
  | functionCallArgumentsDone (itemId : String)
  | outputItemDoneFunctionCall (itemId : Option String)
  | outputItemDoneOther
  | contentPartAdded (itemId : String) (part : PartPayload)
  | contentPartDone (part : PartPayload)
  | responseCompleted (status : String) (incompleteReason : Option String)
  | responseFailed
  | responseIncomplete
  | errorEvent
  | responseInProgress
  | webSearchInProgress (itemId : String)
  | webSearchSearching (itemId : String) (sequenceNumber : Nat)
  | webSearchCompleted (itemId : String)
  | unknownEvent
deriving DecidableEq

inductive DownEvent where
  | messageStart (messageId : String)
  | ping
  | contentBlockStartText (index : Nat)
  | contentBlockStartTool (index : Nat) (id name : String)
      (withStatusInput : Bool)
  | contentBlockDeltaText (index : Nat) (text : String)
  | contentBlockDeltaInputJson (index : Nat) (partialJson : String)
  | contentBlockStop (index : Nat)
  | messageDelta (stopReason : ClaudeStopReason) (inputTokens outputTokens : Nat)
  | messageStop
  | errorFrame (errType message : String)
deriving DecidableEq

structure SState where
  usageInput : Nat
  usageOutput : Nat
  cbm : CBM
  messageId : String
  messageStarted : Bool
  responseId : Option String
  streamCompleted : Bool
  currentTextBlockId : Option String
  callIdMapping : List (String × String)
deriving DecidableEq

def initialState : SState :=
  ⟨0, 0, CBM.empty, "msg", false, none, false, none, []⟩

/-- `StreamState.greeting`: `message_start` plus one `ping`, once. -/
def SState.greeting (s : SState) : SState × List DownEvent :=
  if s.messageStarted then (s, [])
  else ({ s with messageStarted := true },
    [.messageStart s.messageId, .ping])

/-- The `response.completed` sweep: emit the matching stop for every
uncompleted block and mark them all completed. -/
def completedSweep (m : CBM) : CBM × List DownEvent :=
  let uncompleted := m.getUncompletedBlocks
  (uncompleted.foldl (fun acc p => acc.markCompleted p.2.id) m,
    uncompleted.map fun p => .contentBlockStop p.2.index)

def SState.handleEvent (s : SState) (ev : UpEvent) : SState × List DownEvent :=
  if s.streamCompleted then (s, [])
  else
    match ev with
    | .responseCreated responseId =>
      let s :=
        if responseId ≠ "" then { s with responseId := some responseId } else s
      let (cbm, textMeta) := s.cbm.addTextBlock
      let cbm := cbm.markStarted textMeta.id
      ({ s with cbm := cbm, currentTextBlockId := some textMeta.id },
        [.contentBlockStartText textMeta.index])
    | .outputTextDelta delta =>
      let result :=
        match s.currentTextBlockId with
        | some id => s.cbm.getBlock id
        | none => s.cbm.getCurrentTextBlock
      match result with
      | some (_, md) =>
        ({ s with cbm := s.cbm.updateTextContent md.id delta },
          [.contentBlockDeltaText md.index delta])
      | none => (s, [])
    | .outputTextDone =>
      let result :=
        match s.currentTextBlockId with
        | some id => s.cbm.getBlock id
        | none => s.cbm.getCurrentTextBlock
      match result with
      | some (_, md) =>
        ({ s with
            cbm := s.cbm.markCompleted md.id
            currentTextBlockId := none },
          [.contentBlockStop md.index])
      | none => ({ s with currentTextBlockId := none }, [])
    | .outputItemAddedFunctionCall itemId name callId =>
      match itemId with
      | some id =>
        let (cbm, toolMeta) := s.cbm.addToolBlock id name (some callId)
        let mapping :=
          if callId ≠ "" then jsMapSet s.callIdMapping callId id
          else s.callIdMapping
        if !toolMeta.started then
          ({ s with
              cbm := cbm.markStarted toolMeta.id
              callIdMapping := mapping },
            [.contentBlockStartTool toolMeta.index id name false])
        else ({ s with cbm := cbm, callIdMapping := mapping }, [])
      | none => (s, [])
    | .functionCallArgumentsDelta itemId delta =>
      match s.cbm.getToolBlock itemId with
      | some (_, md) =>
        if !md.completed then
          ({ s with cbm := s.cbm.appendArgs md.id delta },
            [.contentBlockDeltaInputJson md.index delta])
        else (s, [])
      | none => (s, [])
    | .functionCallArgumentsDone itemId => (s, [])
    | .outputItemDoneFunctionCall itemId =>
      match itemId with
      | some id =>
        match s.cbm.getToolBlock id with
        | some (_, md) =>
          if !md.completed then
            ({ s with cbm := s.cbm.markCompleted md.id },
              [.contentBlockStop md.index])
          else (s, [])
        | none => (s, [])
      | none => (s, [])
    | .outputItemAddedOther => (s, [])
    | .outputItemDoneOther => (s, [])
    | .contentPartAdded itemId part =>
      let s :=
        if itemId ≠ "" then { s with responseId := some itemId } else s
      let (cbm, textMeta) := s.cbm.addTextBlock
      let cbm := cbm.markStarted textMeta.id
      match part with
      | .outputTextPart t =>
        ({ s with
            cbm := cbm.updateTextContent textMeta.id t
            currentTextBlockId := some textMeta.id },
          [.contentBlockStartText textMeta.index,
            .contentBlockDeltaText textMeta.index t])
      | .otherPart =>
        ({ s with cbm := cbm, currentTextBlockId := some textMeta.id },
          [.contentBlockStartText textMeta.index])
    | .contentPartDone part =>
      let result :=
        match s.currentTextBlockId with
        | some id => s.cbm.getBlock id
        | none => s.cbm.getCurrentTextBlock
      match result with
      | some (_, md) =>
        match part with
        | .outputTextPart t =>
          ({ s with
              cbm := (s.cbm.updateTextContent md.id t).markCompleted md.id
              currentTextBlockId := none },
            [.contentBlockDeltaText md.index t,
              .contentBlockStop md.index])
        | .otherPart =>
          ({ s with
              cbm := s.cbm.markCompleted md.id
              currentTextBlockId := none },
            [.contentBlockStop md.index])
      | none => ({ s with currentTextBlockId := none }, [])
    | .responseCompleted status incompleteReason =>
      let (cbm, stops) := completedSweep s.cbm
      let hasActiveTool := cbm.hasActiveTools
      let stopReason : ClaudeStopReason :=
        if status = "incomplete" ∧ incompleteReason = some "max_output_tokens"
        then .maxTokens
        else if hasActiveTool then .toolUse
        else .endTurn
      ({ s with cbm := cbm, streamCompleted := true },
        stops ++
          [.messageDelta stopReason s.usageInput s.usageOutput, .messageStop])
    | .responseFailed => (s, [.errorFrame "response.failed" "Stream error"])
    | .responseIncomplete =>
      (s, [.errorFrame "response.incomplete" "Stream error"])
    | .errorEvent => (s, [.errorFrame "error" "Stream error"])
    | .responseInProgress => (s, [.ping])
    | .webSearchInProgress itemId =>
      let (cbm, toolMeta) := s.cbm.addToolBlock itemId "web_search" none
      if !toolMeta.started then
        ({ s with cbm := cbm.markStarted toolMeta.id },
          [.contentBlockStartTool toolMeta.index itemId "web_search" true])
      else ({ s with cbm := cbm }, [])
    | .webSearchSearching itemId sequenceNumber =>
      match s.cbm.getToolBlock itemId with
      | some (_, md) =>
        if !md.completed then
          let searchingData :=
            "\x7b\"status\":\"searching\",\"sequence\":" ++
              natToString sequenceNumber ++ "\x7d"
          ({ s with cbm := s.cbm.appendArgs md.id searchingData },
            [.contentBlockDeltaInputJson md.index searchingData])
        else (s, [])
      | none => (s, [])
    | .webSearchCompleted itemId =>
      match s.cbm.getToolBlock itemId with
      | some (_, md) =>
        if !md.completed then
          ({ s with cbm := s.cbm.markCompleted md.id },
            [.contentBlockStop md.index])
        else (s, [])
      | none => (s, [])
    | .unknownEvent => (s, [])

/-- Feed a list of upstream events through the handler, collecting all
emissions. -/
def processEvents (s : SState) (evs : List UpEvent) : SState × List DownEvent :=
  match evs with
  | [] => (s, [])
  | e :: rest =>
    let (s1, out1) := s.handleEvent e
    let (s2, out2) := processEvents s1 rest
    (s2, out1 ++ out2)

/-! ## Conversation store and streaming coordinator

`ConversationStore.update` is `Object.assign(context, updates)`: each field
present in `updates` replaces the stored field wholesale.  The coordinator's
streaming path (`app.post("/v1/messages")`) reads events until
`response.completed` or a closed transport, then persists the captured
response id and the session's `call_id` bindings.
-/

structure ConvCtx where
  lastResponseId : Option String
  callIdMapping : Option (List (String × String))
deriving DecidableEq

def ConvCtx.empty : ConvCtx := ⟨none, none⟩

/-- The `updates` object built by the coordinator; `none` = key absent. -/
structure ConvUpdates where
  lastResponseId : Option String
  callIdMapping : Option (List (String × String))
deriving DecidableEq

def ConvUpdates.empty : ConvUpdates := ⟨none, none⟩

/-- `Object.assign(context, updates)`. -/
def objectAssign (ctx : ConvCtx) (u : ConvUpdates) : ConvCtx :=
  ⟨match u.lastResponseId with
    | some v => some v
    | none => ctx.lastResponseId,
   match u.callIdMapping with
    | some v => some v
    | none => ctx.callIdMapping⟩

abbrev ConversationStore := List (String × ConvCtx)

def ConversationStore.getOrCreate (store : ConversationStore)
    (convId : String) : ConvCtx × ConversationStore :=
  match jsMapGet store convId with
  | some ctx => (ctx, store)
  | none => (ConvCtx.empty, jsMapSet store convId ConvCtx.empty)

def ConversationStore.update (store : ConversationStore) (convId : String)
    (u : ConvUpdates) : ConversationStore :=
  let (ctx, store1) := store.getOrCreate convId
  jsMapSet store1 convId (objectAssign ctx u)

def storeLastResponseId (store : ConversationStore) (convId : String) :
    Option String :=
  (jsMapGet store convId).bind (·.lastResponseId)

def storeBindings (store : ConversationStore) (convId : String) :
    Option (List (String × String)) :=
  (jsMapGet store convId).bind (·.callIdMapping)

/-- Stored downstream id bound to an upstream `call_id`, if any. -/
def storeBindingFor (store : ConversationStore) (convId callId : String) :
    Option String :=
  (storeBindings store convId).bind fun m => jsMapGet m callId

def isResponseCompletedEvent : UpEvent → Bool
  | .responseCompleted _ _ => true
  | _ => false

/-- Whether `stream.closed` reads true once `k` events have been delivered
(the transport closes after `closedAfter` events; `none` = never). -/
def transportClosed (closedAfter : Option Nat) (k : Nat) : Bool :=
  match closedAfter with
  | some n => n ≤ k
  | none => false

/-- The coordinator's `for await` loop: handle each event, break after
`response.completed`, break when the transport reports closed. -/
def runStreamingLoop (s : SState) (evs : List UpEvent)
    (closedAfter : Option Nat) (k : Nat) : SState × List DownEvent :=
  match evs with
  | [] => (s, [])
  | e :: rest =>
    let (s1, o1) := s.handleEvent e
    if isResponseCompletedEvent e then (s1, o1)
    else if transportClosed closedAfter (k + 1) then (s1, o1)
    else
      let (s2, o2) := runStreamingLoop s1 rest closedAfter (k + 1)
      (s2, o1 ++ o2)

/-- The post-loop persistence step: build `updates` from the captured
response id and the bindings minted this turn, and call the store's
`update` when nonempty. -/
def coordinatorFinishStreaming (store : ConversationStore) (convId : String)
    (s : SState) : ConversationStore :=
  let u0 := ConvUpdates.empty
  let u1 :=
    match s.responseId with
    | some rid =>
      if rid ≠ "" then { u0 with lastResponseId := some rid } else u0
    | none => u0
  let u2 :=
    if s.callIdMapping.length > 0 then
      { u1 with callIdMapping := some s.callIdMapping }
    else u1
  if u2 ≠ ConvUpdates.empty then store.update convId u2 else store

/-- One full streaming request: resolve the conversation, greet, run the
event loop until completion or transport close, persist. -/
def runStreamingRequest (store : ConversationStore) (convId : String)
    (evs : List UpEvent) (closedAfter : Option Nat) :
    ConversationStore × List DownEvent :=
  let (_, store1) := store.getOrCreate convId
  let (sG, outG) := initialState.greeting
  let (sEnd, outLoop) := runStreamingLoop sG evs closedAfter 0
  (coordinatorFinishStreaming store1 convId sEnd, outG ++ outLoop)

/-! ## Association-list lemmas -/

theorem jsMapGet_set_self {α : Type} (m : List (String × α)) (k : String)
    (v : α) : jsMapGet (jsMapSet m k v) k = some v := by
  induction m with
  | nil => simp [jsMapSet, jsMapGet]
  | cons p rest ih =>
    obtain ⟨k', v'⟩ := p
    by_cases h : k' = k
    · simp [jsMapSet, h, jsMapGet]
    · simp only [jsMapSet, if_neg h]
      simpa [jsMapGet, if_neg h] using ih

theorem jsMapGet_set_ne {α : Type} (m : List (String × α)) (k k' : String)
    (v : α) (h : k' ≠ k) : jsMapGet (jsMapSet m k v) k' = jsMapGet m k' := by
  induction m with
  | nil => simp [jsMapSet, jsMapGet, Ne.symm h]
  | cons p rest ih =>
    obtain ⟨k'', v''⟩ := p
    by_cases hk : k'' = k
    · subst hk
      simp [jsMapSet, jsMapGet, Ne.symm h]
    · simp only [jsMapSet, if_neg hk]
      by_cases hk' : k'' = k'
      · simp [jsMapGet, hk']
      · simpa [jsMapGet, if_neg hk'] using ih

theorem getOrCreate_get_self (store : ConversationStore) (convId : String) :
    jsMapGet (store.getOrCreate convId).2 convId =
      some (store.getOrCreate convId).1 := by
  unfold ConversationStore.getOrCreate
  cases h : jsMapGet store convId with
  | some ctx => simpa using h
  | none => simp [jsMapGet_set_self]

theorem getOrCreate_lastResponseId (store : ConversationStore)
    (convId : String) :
    storeLastResponseId (store.getOrCreate convId).2 convId =
      storeLastResponseId store convId := by
  unfold ConversationStore.getOrCreate storeLastResponseId
  cases h : jsMapGet store convId with
  | some ctx => simp [h]
  | none => simp [jsMapGet_set_self, h, ConvCtx.empty]

theorem getOrCreate_bindings (store : ConversationStore) (convId : String) :
    storeBindings (store.getOrCreate convId).2 convId =
      storeBindings store convId := by
  unfold ConversationStore.getOrCreate storeBindings
  cases h : jsMapGet store convId with
  | some ctx => simp [h]
  | none => simp [jsMapGet_set_self, h, ConvCtx.empty]

theorem finish_lastResponseId (store1 : ConversationStore) (convId : String)
    (ctx0 : ConvCtx) (s : SState)
    (hget : jsMapGet store1 convId = some ctx0) :
    storeLastResponseId (coordinatorFinishStreaming store1 convId s) convId =
      (match s.responseId with
       | some rid => if rid ≠ "" then some rid else ctx0.lastResponseId
       | none => ctx0.lastResponseId) := by
  have hgoc : store1.getOrCreate convId = (ctx0, store1) := by
    unfold ConversationStore.getOrCreate
    rw [hget]
  unfold coordinatorFinishStreaming
  cases hr : s.responseId with
  | none =>
    by_cases hm : s.callIdMapping.length > 0
    · simp [hr, hm, ConvUpdates.empty, ConversationStore.update, hgoc,
        objectAssign, storeLastResponseId, jsMapGet_set_self, hget]
    · simp [hr, hm, ConvUpdates.empty, storeLastResponseId, hget]
  | some rid =>
    by_cases hrid : rid ≠ ""
    · by_cases hm : s.callIdMapping.length > 0 <;>
        simp [hr, hrid, hm, ConvUpdates.empty, ConversationStore.update, hgoc,
          objectAssign, storeLastResponseId, jsMapGet_set_self, hget]
    · by_cases hm : s.callIdMapping.length > 0
      · simp [hr, hrid, hm, ConvUpdates.empty, ConversationStore.update, hgoc,
          objectAssign, storeLastResponseId, jsMapGet_set_self, hget]
      · simp [hr, hrid, hm, ConvUpdates.empty, storeLastResponseId, hget]

theorem finish_bindings (store1 : ConversationStore) (convId : String)
    (ctx0 : ConvCtx) (s : SState)
    (hget : jsMapGet store1 convId = some ctx0) :
    storeBindings (coordinatorFinishStreaming store1 convId s) convId =
      (if s.callIdMapping.length > 0 then some s.callIdMapping
       else ctx0.callIdMapping) := by
  have hgoc : store1.getOrCreate convId = (ctx0, store1) := by
    unfold ConversationStore.getOrCreate
    rw [hget]
  unfold coordinatorFinishStreaming
  by_cases hm : s.callIdMapping.length > 0
  · cases hr : s.responseId with
    | none =>
      simp [hr, hm, ConvUpdates.empty, ConversationStore.update, hgoc,
        objectAssign, storeBindings, jsMapGet_set_self, hget]
    | some rid =>
      by_cases hrid : rid ≠ "" <;>
        simp [hr, hrid, hm, ConvUpdates.empty, ConversationStore.update, hgoc,
          objectAssign, storeBindings, jsMapGet_set_self, hget]
  · cases hr : s.responseId with
    | none => simp [hr, hm, ConvUpdates.empty, storeBindings, hget]
    | some rid =>
      by_cases hrid : rid ≠ ""
      · simp [hr, hrid, hm, ConvUpdates.empty, ConversationStore.update, hgoc,
          objectAssign, storeBindings, jsMapGet_set_self, hget]
      · simp [hr, hrid, hm, ConvUpdates.empty, storeBindings, hget]

/-! ## Metadata-map lemmas -/

theorem jsMapGet_mem {α : Type} {m : List (String × α)} {k : String} {v : α}
    (h : jsMapGet m k = some v) : (k, v) ∈ m := by
  induction m with
  | nil => simp [jsMapGet] at h
  | cons p rest ih =>
    obtain ⟨k', v'⟩ := p
    simp only [jsMapGet] at h
    split at h
    · injection h with h
      subst h
      simp_all
    · simp [ih h]

theorem mem_jsMapSet {α : Type} {m : List (String × α)} {k : String} {v : α}
    {p : String × α} (h : p ∈ jsMapSet m k v) : p ∈ m ∨ p = (k, v) := by
  induction m with
  | nil =>
    simp [jsMapSet] at h
    simp [h]
  | cons q rest ih =>
    obtain ⟨k', v'⟩ := q
    simp only [jsMapSet] at h
    split at h
    · rcases List.mem_cons.1 h with heq | hmem
      · rename_i hk
        subst hk
        right
        exact heq
      · exact Or.inl (List.mem_cons_of_mem _ hmem)
    · rcases List.mem_cons.1 h with heq | hmem
      · subst heq
        exact Or.inl (List.mem_cons_self _ _)
      · rcases ih hmem with hm | heq
        · exact Or.inl (List.mem_cons_of_mem _ hm)
        · exact Or.inr heq

theorem jsMapGet_updEntry {md : List (String × BMeta)} (id : String)
    (f : BMeta → BMeta) (k : String) :
    jsMapGet (updEntry id f md) k =
      (jsMapGet md k).map fun b => if k = id then f b else b := by
  induction md with
  | nil => simp [updEntry, jsMapGet]
  | cons p rest ih =>
    obtain ⟨k', v'⟩ := p
    by_cases hk : k' = id <;> by_cases hkk : k' = k
    · subst hk
      subst hkk
      simp [updEntry, jsMapGet]
    · subst hk
      simpa [updEntry, jsMapGet, hkk] using ih
    · subst hkk
      simp [updEntry, jsMapGet, hk]
    · simpa [updEntry, jsMapGet, hk, hkk] using ih

theorem mem_updEntry {md : List (String × BMeta)} {id : String}
    {f : BMeta → BMeta} {p : String × BMeta} (h : p ∈ updEntry id f md) :
    ∃ q ∈ md, p = (q.1, if q.1 = id then f q.2 else q.2) := by
  simpa [updEntry, eq_comm] using h

/-! ## Session invariants shared by the stream-translator claims -/

/-- At event boundaries every metadata entry is started (blocks are marked
started in the same event that allocates them). -/
def allStarted (m : CBM) : Prop := ∀ p ∈ m.metadata, p.2.started = true

def countToolStarts (tid : String) (out : List DownEvent) : Nat :=
  out.countP fun e =>
    match e with
    | .contentBlockStartTool _ id _ _ => id == tid
    | _ => false

theorem countToolStarts_append (tid : String) (o1 o2 : List DownEvent) :
    countToolStarts tid (o1 ++ o2) =
      countToolStarts tid o1 + countToolStarts tid o2 := by
  simp [countToolStarts, List.countP_append]

def allStartedMd (md : List (String × BMeta)) : Prop :=
  ∀ p ∈ md, p.2.started = true

theorem allStartedMd_updEntry {md : List (String × BMeta)} {id : String}
    {f : BMeta → BMeta} (hall : allStartedMd md)
    (hf : ∀ b, b.started = true → (f b).started = true) :
    allStartedMd (updEntry id f md) := by
  intro p hp
  obtain ⟨q, hq, rfl⟩ := mem_updEntry hp
  by_cases h : q.1 = id
  · simp [h, hf _ (hall q hq)]
  · simp [h, hall q hq]

theorem allStartedMd_updEntry_set {md : List (String × BMeta)} {k : String}
    {v : BMeta} {f : BMeta → BMeta} (hall : allStartedMd md)
    (hf : ∀ b, b.started = true → (f b).started = true)
    (hv : (f v).started = true) :
    allStartedMd (updEntry k f (jsMapSet md k v)) := by
  intro p hp
  obtain ⟨q, hq, rfl⟩ := mem_updEntry hp
  rcases mem_jsMapSet hq with hm | rfl
  · by_cases h : q.1 = k
    · simp [h, hf _ (hall q hm)]
    · simp [h, hall q hm]
  · simp [hv]

theorem jsMapGet_set {α : Type} (m : List (String × α)) (k tid : String)
    (v : α) :
    jsMapGet (jsMapSet m k v) tid =
      if tid = k then some v else jsMapGet m tid := by
  by_cases h : tid = k
  · subst h
    simp [jsMapGet_set_self]
  · simp [h, jsMapGet_set_ne m k tid v h]

theorem isSome_jsMapGet_updEntry (md : List (String × BMeta)) (id : String)
    (f : BMeta → BMeta) (k : String) :
    (jsMapGet (updEntry id f md) k).isSome = (jsMapGet md k).isSome := by
  rw [jsMapGet_updEntry]
  cases jsMapGet md k <;> simp

theorem updateTextContent_metadata (m : CBM) (id t : String) :
    (m.updateTextContent id t).metadata = m.metadata := by
  unfold CBM.updateTextContent
  split
  · rfl
  · split <;> rfl

theorem foldl_markCompleted_metadata_allStarted
    (l : List (CBlock × BMeta)) (m : CBM) (hall : allStartedMd m.metadata) :
    allStartedMd ((l.foldl (fun acc p => acc.markCompleted p.2.id) m).metadata) := by
  induction l generalizing m with
  | nil => exact hall
  | cons p rest ih =>
    simp only [List.foldl_cons]
    refine ih _ ?_
    simp only [CBM.markCompleted]
    exact allStartedMd_updEntry hall (by intro b h; simpa using h)

theorem foldl_markCompleted_get_isSome
    (l : List (CBlock × BMeta)) (m : CBM) (tid : String) :
    (jsMapGet ((l.foldl (fun acc p => acc.markCompleted p.2.id) m).metadata)
        tid).isSome = (jsMapGet m.metadata tid).isSome := by
  induction l generalizing m with
  | nil => rfl
  | cons p rest ih =>
    simp only [List.foldl_cons]
    rw [ih]
    simp only [CBM.markCompleted]
    exact isSome_jsMapGet_updEntry _ _ _ _

theorem foldl_markCompleted_blocks
    (l : List (CBlock × BMeta)) (m : CBM) :
    ((l.foldl (fun acc p => acc.markCompleted p.2.id) m).blocks) = m.blocks := by
  induction l generalizing m with
  | nil => rfl
  | cons p rest ih =>
    simp only [List.foldl_cons]
    rw [ih]
    rfl

/-- The per-step property behind the at-most-one-`content_block_start`
argument: started entries stay started, registered ids stay registered, and
a tool start for `tid` is emitted at most once and only while `tid` is
unregistered, registering it. -/
def StepOk (tid : String) (md md' : List (String × BMeta))
    (out : List DownEvent) : Prop :=
  allStartedMd md' ∧
  ((jsMapGet md tid).isSome = true →
    (jsMapGet md' tid).isSome = true ∧ countToolStarts tid out = 0) ∧
  countToolStarts tid out ≤ 1 ∧
  ((jsMapGet md' tid).isSome = false → countToolStarts tid out = 0)

theorem countToolStarts_no_tool_start (tid : String) (out : List DownEvent)
    (h : ∀ i id n w, DownEvent.contentBlockStartTool i id n w ∉ out) :
    countToolStarts tid out = 0 := by
  simp only [countToolStarts, List.countP_eq_zero]
  intro e he
  cases e
  case contentBlockStartTool i id n w => exact absurd he (h i id n w)
  all_goals simp

theorem stepOk_unchanged (tid : String) (md : List (String × BMeta))
    (out : List DownEvent) (hall : allStartedMd md)
    (hout : countToolStarts tid out = 0) : StepOk tid md md out := by
  exact ⟨hall, fun h => ⟨h, hout⟩, by omega, fun _ => hout⟩

theorem stepOk_upd (tid : String) (md : List (String × BMeta)) (id : String)
    (f : BMeta → BMeta) (out : List DownEvent) (hall : allStartedMd md)
    (hf : ∀ b, b.started = true → (f b).started = true)
    (hout : countToolStarts tid out = 0) :
    StepOk tid md (updEntry id f md) out := by
  refine ⟨allStartedMd_updEntry hall hf, ?_, by omega, fun _ => hout⟩
  intro h
  rw [isSome_jsMapGet_updEntry]
  exact ⟨h, hout⟩

theorem stepOk_add (tid : String) (md : List (String × BMeta))
    (k : String) (meta0 : BMeta) (f : BMeta → BMeta)
    (out : List DownEvent) (hall : allStartedMd md)
    (hf : ∀ b, b.started = true → (f b).started = true)
    (hv : (f meta0).started = true)
    (hout : countToolStarts tid out = 0) :
    StepOk tid md (updEntry k f (jsMapSet md k meta0)) out := by
  refine ⟨allStartedMd_updEntry_set hall hf hv, ?_, by omega, fun _ => hout⟩
  intro h
  rw [isSome_jsMapGet_updEntry, jsMapGet_set]
  refine ⟨?_, hout⟩
  split <;> simp [h]

theorem stepOk_add_tool (tid : String) (md : List (String × BMeta))
    (id : String) (meta0 : BMeta) (f : BMeta → BMeta)
    (i : Nat) (n : String) (w : Bool) (hall : allStartedMd md)
    (hf : ∀ b, b.started = true → (f b).started = true)
    (hv : (f meta0).started = true)
    (hfresh : jsMapGet md id = none) :
    StepOk tid md (updEntry id f (jsMapSet md id meta0))
      [.contentBlockStartTool i id n w] := by
  have hcount : countToolStarts tid [DownEvent.contentBlockStartTool i id n w] =
      if id = tid then 1 else 0 := by
    simp only [countToolStarts, List.countP_cons, List.countP_nil]
    split <;> simp_all
  refine ⟨allStartedMd_updEntry_set hall hf hv, ?_, ?_, ?_⟩
  · intro h
    have hne : ¬(id = tid) := by
      intro heq
      subst heq
      simp [hfresh] at h
    constructor
    · rw [isSome_jsMapGet_updEntry, jsMapGet_set]
      rw [if_neg (fun heq => hne heq.symm)]
      exact h
    · rw [hcount, if_neg hne]
  · rw [hcount]
    split <;> omega
  · intro h
    rw [isSome_jsMapGet_updEntry, jsMapGet_set] at h
    by_cases heq : tid = id
    · rw [if_pos heq] at h
      simp at h
    · rw [hcount, if_neg (fun k => heq k.symm)]

/-- One handler step satisfies `StepOk`. -/
theorem handleEvent_stepOk (s : SState) (e : UpEvent) (tid : String)
    (hall : allStartedMd s.cbm.metadata) :
    StepOk tid s.cbm.metadata (s.handleEvent e).1.cbm.metadata
      (s.handleEvent e).2 := by
  by_cases hdone : s.streamCompleted
  · simp only [SState.handleEvent, hdone, if_true]
    refine stepOk_unchanged _ _ _ hall ?_
    rfl
  · rw [Bool.not_eq_true] at hdone
    cases e with
    | responseCreated responseId =>
      simp only [SState.handleEvent, hdone, Bool.false_eq_true, if_false,
        CBM.addTextBlock, CBM.markStarted]
      split
      all_goals
        refine stepOk_add _ _ _ _ _ _ hall ?_ ?_ ?_
        · exact fun b h => rfl
        · rfl
        · rfl
    | outputTextDelta delta =>
      simp only [SState.handleEvent, hdone, Bool.false_eq_true, if_false]
      rcases hres : (match s.currentTextBlockId with
        | some id => s.cbm.getBlock id
        | none => s.cbm.getCurrentTextBlock) with _ | ⟨b, md⟩ <;>
        simp only [hres]
      · refine stepOk_unchanged _ _ _ hall ?_
        rfl
      · simp only [updateTextContent_metadata]
        refine stepOk_unchanged _ _ _ hall ?_
        rfl
    | outputTextDone =>
      simp only [SState.handleEvent, hdone, Bool.false_eq_true, if_false]
      rcases hres : (match s.currentTextBlockId with
        | some id => s.cbm.getBlock id
        | none => s.cbm.getCurrentTextBlock) with _ | ⟨b, md⟩ <;>
        simp only [hres]
      · refine stepOk_unchanged _ _ _ hall ?_
        rfl
      · simp only [CBM.markCompleted, CBM.appendArgs]
        refine stepOk_upd _ _ _ _ _ hall ?_ ?_
        · exact fun b h => h
        · rfl
    | outputItemAddedFunctionCall itemId name callId =>
      cases itemId with
      | none =>
        simp only [SState.handleEvent, hdone, Bool.false_eq_true, if_false]
        refine stepOk_unchanged _ _ _ hall ?_
        rfl
      | some id =>
        simp only [SState.handleEvent, hdone, Bool.false_eq_true, if_false,
          CBM.addToolBlock]
        rcases hget : jsMapGet s.cbm.metadata id with _ | md <;>
          simp only [hget]
        · simp only [CBM.markStarted]
          split
          · dsimp only
            refine stepOk_add_tool _ _ _ _ _ _ _ _ hall ?_ ?_ hget
            · exact fun b h => rfl
            · rfl
          · rename_i hfalse
            simp at hfalse
        · have hstarted : md.started = true := hall _ (jsMapGet_mem hget)
          simp only [hstarted, Bool.not_true, Bool.false_eq_true, if_false]
          refine stepOk_unchanged _ _ _ hall ?_
          rfl
    | functionCallArgumentsDelta itemId delta =>
      simp only [SState.handleEvent, hdone, Bool.false_eq_true, if_false]
      rcases hres : s.cbm.getToolBlock itemId with _ | ⟨b, md⟩ <;>
        simp only [hres]
      · refine stepOk_unchanged _ _ _ hall ?_
        rfl
      · split
        · simp only [CBM.markCompleted, CBM.appendArgs]
          refine stepOk_upd _ _ _ _ _ hall ?_ ?_
          · exact fun b h => h
          · rfl
        · refine stepOk_unchanged _ _ _ hall ?_
          rfl
    | functionCallArgumentsDone itemId =>
      simp only [SState.handleEvent, hdone, Bool.false_eq_true, if_false]
      refine stepOk_unchanged _ _ _ hall ?_
      rfl
    | outputItemDoneFunctionCall itemId =>
      cases itemId with
      | none =>
        simp only [SState.handleEvent, hdone, Bool.false_eq_true, if_false]
        refine stepOk_unchanged _ _ _ hall ?_
        rfl
      | some id =>
        simp only [SState.handleEvent, hdone, Bool.false_eq_true, if_false]
        rcases hres : s.cbm.getToolBlock id with _ | ⟨b, md⟩ <;>
          simp only [hres]
        · refine stepOk_unchanged _ _ _ hall ?_
          rfl
        · split
          · simp only [CBM.markCompleted, CBM.appendArgs]
            refine stepOk_upd _ _ _ _ _ hall ?_ ?_
            · exact fun b h => h
            · rfl
          · refine stepOk_unchanged _ _ _ hall ?_
            rfl
    | outputItemAddedOther =>
      simp only [SState.handleEvent, hdone, Bool.false_eq_true, if_false]
      refine stepOk_unchanged _ _ _ hall ?_
      rfl
    | outputItemDoneOther =>
      simp only [SState.handleEvent, hdone, Bool.false_eq_true, if_false]
      refine stepOk_unchanged _ _ _ hall ?_
      rfl
    | contentPartAdded itemId part =>
      cases part with
      | outputTextPart t =>
        simp only [SState.handleEvent, hdone, Bool.false_eq_true, if_false,
          CBM.addTextBlock, CBM.markStarted]
        split
        all_goals
          simp only [updateTextContent_metadata]
          refine stepOk_add _ _ _ _ _ _ hall ?_ ?_ ?_
          · exact fun b h => rfl
          · rfl
          · rfl
      | otherPart =>
        simp only [SState.handleEvent, hdone, Bool.false_eq_true, if_false,
          CBM.addTextBlock, CBM.markStarted]
        split
        all_goals
          refine stepOk_add _ _ _ _ _ _ hall ?_ ?_ ?_
          · exact fun b h => rfl
          · rfl
          · rfl
    | contentPartDone part =>
      simp only [SState.handleEvent, hdone, Bool.false_eq_true, if_false]
      rcases hres : (match s.currentTextBlockId with
        | some id => s.cbm.getBlock id
        | none => s.cbm.getCurrentTextBlock) with _ | ⟨b, md⟩ <;>
        simp only [hres]
      · cases part
        all_goals
          refine stepOk_unchanged _ _ _ hall ?_
          rfl
      · cases part with
        | outputTextPart t =>
          have hm : ((s.cbm.updateTextContent md.id t).markCompleted
              md.id).metadata =
              updEntry md.id (fun b => { b with completed := true })
                s.cbm.metadata := by
            simp only [CBM.markCompleted, updateTextContent_metadata]
          simp only [hm]
          refine stepOk_upd _ _ _ _ _ hall ?_ ?_
          · exact fun b h => h
          · rfl
        | otherPart =>
          dsimp only
          simp only [CBM.markCompleted]
          refine stepOk_upd _ _ _ _ _ hall ?_ ?_
          · exact fun b h => h
          · rfl
    | responseCompleted status incompleteReason =>
      simp only [SState.handleEvent, hdone, Bool.false_eq_true, if_false,
        completedSweep]
      refine ⟨foldl_markCompleted_metadata_allStarted _ _ hall, ?_, ?_, ?_⟩
      · intro h
        rw [foldl_markCompleted_get_isSome]
        refine ⟨h, ?_⟩
        apply countToolStarts_no_tool_start
        intro i id n w hmem
        rcases List.mem_append.1 hmem with hm | hm
        · simp [List.mem_map] at hm
        · simp at hm
      · have h0 : countToolStarts tid (s.handleEvent
            (.responseCompleted status incompleteReason)).2 = 0 := by
          apply countToolStarts_no_tool_start
          intro i id n w hmem
          simp only [SState.handleEvent, hdone, Bool.false_eq_true, if_false,
            completedSweep] at hmem
          rcases List.mem_append.1 hmem with hm | hm
          · simp [List.mem_map] at hm
          · simp at hm
        simp only [SState.handleEvent, hdone, Bool.false_eq_true, if_false,
          completedSweep] at h0
        rw [h0]
        exact Nat.zero_le 1
      · intro h
        apply countToolStarts_no_tool_start
        intro i id n w hmem
        rcases List.mem_append.1 hmem with hm | hm
        · simp [List.mem_map] at hm
        · simp at hm
    | responseFailed =>
      simp only [SState.handleEvent, hdone, Bool.false_eq_true, if_false]
      refine stepOk_unchanged _ _ _ hall ?_
      rfl
    | responseIncomplete =>
      simp only [SState.handleEvent, hdone, Bool.false_eq_true, if_false]
      refine stepOk_unchanged _ _ _ hall ?_
      rfl
    | errorEvent =>
      simp only [SState.handleEvent, hdone, Bool.false_eq_true, if_false]
      refine stepOk_unchanged _ _ _ hall ?_
      rfl
    | responseInProgress =>
      simp only [SState.handleEvent, hdone, Bool.false_eq_true, if_false]
      refine stepOk_unchanged _ _ _ hall ?_
      rfl
    | webSearchInProgress itemId =>
      simp only [SState.handleEvent, hdone, Bool.false_eq_true, if_false,
        CBM.addToolBlock]
      rcases hget : jsMapGet s.cbm.metadata itemId with _ | md <;>
        simp only [hget]
      · simp only [CBM.markStarted]
        split
        · dsimp only
          refine stepOk_add_tool _ _ _ _ _ _ _ _ hall ?_ ?_ hget
          · exact fun b h => rfl
          · rfl
        · rename_i hfalse
          simp at hfalse
      · have hstarted : md.started = true := hall _ (jsMapGet_mem hget)
        simp only [hstarted, Bool.not_true, Bool.false_eq_true, if_false]
        refine stepOk_unchanged _ _ _ hall ?_
        rfl
    | webSearchSearching itemId sequenceNumber =>
      simp only [SState.handleEvent, hdone, Bool.false_eq_true, if_false]
      rcases hres : s.cbm.getToolBlock itemId with _ | ⟨b, md⟩ <;>
        simp only [hres]
      · refine stepOk_unchanged _ _ _ hall ?_
        rfl
      · split
        · simp only [CBM.markCompleted, CBM.appendArgs]
          refine stepOk_upd _ _ _ _ _ hall ?_ ?_
          · exact fun b h => h
          · rfl
        · refine stepOk_unchanged _ _ _ hall ?_
          rfl
    | webSearchCompleted itemId =>
      simp only [SState.handleEvent, hdone, Bool.false_eq_true, if_false]
      rcases hres : s.cbm.getToolBlock itemId with _ | ⟨b, md⟩ <;>
        simp only [hres]
      · refine stepOk_unchanged _ _ _ hall ?_
        rfl
      · split
        · simp only [CBM.markCompleted, CBM.appendArgs]
          refine stepOk_upd _ _ _ _ _ hall ?_ ?_
          · exact fun b h => h
          · rfl
        · refine stepOk_unchanged _ _ _ hall ?_
          rfl
    | unknownEvent =>
      simp only [SState.handleEvent, hdone, Bool.false_eq_true, if_false]
      refine stepOk_unchanged _ _ _ hall ?_
      rfl

/-- Folding the handler over any event list preserves the every-entry-started
invariant, opens each tool id at most once, and never re-opens an id that was
already registered at the start. -/
theorem processEvents_toolStarts (evs : List UpEvent) (s : SState)
    (tid : String) (hall : allStartedMd s.cbm.metadata) :
    allStartedMd (processEvents s evs).1.cbm.metadata ∧
      countToolStarts tid (processEvents s evs).2 ≤ 1 ∧
      ((jsMapGet s.cbm.metadata tid).isSome = true →
        countToolStarts tid (processEvents s evs).2 = 0) := by
  induction evs generalizing s with
  | nil =>
    refine ⟨hall, ?_, fun _ => ?_⟩ <;>
      simp [processEvents, countToolStarts]
  | cons e rest ih =>
    obtain ⟨hall1, hpre, hle1, hnone⟩ := handleEvent_stepOk s e tid hall
    obtain ⟨hall2, hle2, hpre2⟩ := ih (s.handleEvent e).1 hall1
    have hsplit : processEvents s (e :: rest) =
        ((processEvents (s.handleEvent e).1 rest).1,
          (s.handleEvent e).2 ++ (processEvents (s.handleEvent e).1 rest).2) :=
      rfl
    rw [hsplit]
    refine ⟨hall2, ?_, ?_⟩
    · rw [countToolStarts_append]
      cases h1 : (jsMapGet (s.handleEvent e).1.cbm.metadata tid).isSome with
      | false =>
        have hc1 := hnone h1
        omega
      | true =>
        have hc2 := hpre2 h1
        omega
    · intro hs
      obtain ⟨h1, hc1⟩ := hpre hs
      have hc2 := hpre2 h1
      rw [countToolStarts_append, hc1, hc2]

/-! ## Null-freedom: the normalizer on null-free inputs

`Except` bind/pure reduction helpers and a recursive no-`null` predicate;
the three rewrite stages succeed on every value with no `null` at any
position, which settles when `normalizeJSONSchemaForOpenAI` can throw.
-/

theorem ebind_ok {α β : Type} (a : α) (f : α → Except String β) :
    (Except.ok a >>= f) = f a := rfl

theorem epure {α : Type} (a : α) : (pure a : Except String α) = .ok a := rfl

theorem ebind_err {α β : Type} (e : String) (f : α → Except String β) :
    ((Except.error e : Except String α) >>= f) = .error e := rfl

mutual

def jsonNoNull : Json → Bool
  | .null => false
  | .arr xs => jsonListNoNull xs
  | .obj fs => jsonFieldsNoNull fs
  | _ => true

def jsonListNoNull : List Json → Bool
  | [] => true
  | x :: xs => jsonNoNull x && jsonListNoNull xs

def jsonFieldsNoNull : List (String × Json) → Bool
  | [] => true
  | (_, v) :: fs => jsonNoNull v && jsonFieldsNoNull fs

end

theorem jsonFieldsNoNull_iff (fs : List (String × Json)) :
    jsonFieldsNoNull fs = true ↔ ∀ p ∈ fs, jsonNoNull p.2 = true := by
  induction fs with
  | nil => simp [jsonFieldsNoNull]
  | cons p rest ih =>
    obtain ⟨k, v⟩ := p
    simp only [jsonFieldsNoNull, Bool.and_eq_true, ih, List.mem_cons]
    constructor
    · rintro ⟨h1, h2⟩ q hq
      rcases hq with rfl | hq
      · exact h1
      · exact h2 q hq
    · intro h
      exact ⟨h (k, v) (Or.inl rfl), fun q hq => h q (Or.inr hq)⟩

theorem jsonListNoNull_iff (xs : List Json) :
    jsonListNoNull xs = true ↔ ∀ x ∈ xs, jsonNoNull x = true := by
  induction xs with
  | nil => simp [jsonListNoNull]
  | cons x rest ih =>
    simp only [jsonListNoNull, Bool.and_eq_true, ih, List.mem_cons]
    constructor
    · rintro ⟨h1, h2⟩ q hq
      rcases hq with rfl | hq
      · exact h1
      · exact h2 q hq
    · intro h
      exact ⟨h x (Or.inl rfl), fun q hq => h q (Or.inr hq)⟩

theorem lookupF_mem {fs : List (String × Json)} {k : String} {v : Json}
    (h : lookupF fs k = some v) : (k, v) ∈ fs := by
  induction fs with
  | nil => simp [lookupF] at h
  | cons p rest ih =>
    obtain ⟨k', v'⟩ := p
    simp only [lookupF] at h
    split at h
    · rename_i heq
      injection h with h
      subst heq
      subst h
      exact List.mem_cons_self _ _
    · exact List.mem_cons_of_mem _ (ih h)

theorem mem_setF {fs : List (String × Json)} {k : String} {v : Json}
    {p : String × Json} (h : p ∈ setF fs k v) : p ∈ fs ∨ p = (k, v) := by
  induction fs with
  | nil =>
    simp [setF] at h
    exact Or.inr h
  | cons q rest ih =>
    obtain ⟨k', v'⟩ := q
    simp only [setF] at h
    split at h
    · rename_i heq
      rcases List.mem_cons.1 h with rfl | h
      · exact Or.inr (by rw [heq])
      · exact Or.inl (List.mem_cons_of_mem _ h)
    · rcases List.mem_cons.1 h with rfl | h
      · exact Or.inl (List.mem_cons_self _ _)
      · rcases ih h with h | h
        · exact Or.inl (List.mem_cons_of_mem _ h)
        · exact Or.inr h

theorem mem_deleteF {fs : List (String × Json)} {k : String}
    {p : String × Json} (h : p ∈ deleteF fs k) : p ∈ fs := by
  induction fs with
  | nil => simp [deleteF] at h
  | cons q rest ih =>
    obtain ⟨k', v'⟩ := q
    simp only [deleteF] at h
    split at h
    · exact List.mem_cons_of_mem _ h
    · rcases List.mem_cons.1 h with rfl | h
      · exact List.mem_cons_self _ _
      · exact List.mem_cons_of_mem _ (ih h)

theorem jsonFieldsNoNull_setF {fs : List (String × Json)} {k : String}
    {v : Json} (hf : jsonFieldsNoNull fs = true) (hv : jsonNoNull v = true) :
    jsonFieldsNoNull (setF fs k v) = true := by
  rw [jsonFieldsNoNull_iff] at hf ⊢
  intro p hp
  rcases mem_setF hp with h | h
  · exact hf p h
  · rw [h]
    exact hv

theorem jsonFieldsNoNull_deleteF {fs : List (String × Json)} {k : String}
    (hf : jsonFieldsNoNull fs = true) :
    jsonFieldsNoNull (deleteF fs k) = true := by
  rw [jsonFieldsNoNull_iff] at hf ⊢
  exact fun p hp => hf p (mem_deleteF hp)

theorem mem_foldl_dedup {x : Json} :
    ∀ (xs : List Json) (acc : List Json),
      x ∈ xs.foldl (fun acc x => if x ∈ acc then acc else acc ++ [x]) acc →
      x ∈ acc ∨ x ∈ xs
  | [], acc, h => Or.inl h
  | y :: ys, acc, h => by
    simp only [List.foldl_cons] at h
    rcases mem_foldl_dedup ys _ h with h | h
    · by_cases hy : y ∈ acc
      · rw [if_pos hy] at h
        exact Or.inl h
      · rw [if_neg hy] at h
        rcases List.mem_append.1 h with h | h
        · exact Or.inl h
        · simp only [List.mem_singleton] at h
          subst h
          exact Or.inr (List.mem_cons_self _ _)
    · exact Or.inr (List.mem_cons_of_mem _ h)

theorem mem_jsSetOfList {xs : List Json} {x : Json} (h : x ∈ jsSetOfList xs) :
    x ∈ xs := by
  rcases mem_foldl_dedup xs [] h with h | h
  · simp at h
  · exact h

theorem jsonFieldsNoNull_enumFrom (xs : List Json) (n : Nat) :
    jsonFieldsNoNull ((xs.enumFrom n).map fun p => (natToString p.1, p.2)) =
      jsonListNoNull xs := by
  induction xs generalizing n with
  | nil => simp [jsonFieldsNoNull, jsonListNoNull]
  | cons x xs ih => simp [List.enumFrom, jsonFieldsNoNull, jsonListNoNull, ih]

theorem jsOwnProps_ok_noNull {p : Json} (hp : jsonNoNull p = true) :
    ∃ kvs, jsOwnProps (some p) = .ok kvs ∧ jsonFieldsNoNull kvs = true := by
  cases p with
  | null => simp [jsonNoNull] at hp
  | obj fs => exact ⟨fs, rfl, hp⟩
  | arr xs =>
    refine ⟨_, rfl, ?_⟩
    simp only [List.enum]
    rw [jsonFieldsNoNull_enumFrom]
    exact hp
  | bool b => exact ⟨[], rfl, rfl⟩
  | num i => exact ⟨[], rfl, rfl⟩
  | str s => exact ⟨[], rfl, rfl⟩

theorem rebuildOwnProps_noNull {p : Json} {kvs : List (String × Json)}
    (hp : jsonNoNull p = true) (hkvs : jsonFieldsNoNull kvs = true) :
    jsonNoNull (rebuildOwnProps p kvs) = true := by
  cases p with
  | obj fs => exact hkvs
  | arr xs =>
    show jsonListNoNull (kvs.map (·.2)) = true
    rw [jsonListNoNull_iff]
    intro x hx
    rw [List.mem_map] at hx
    obtain ⟨q, hq, hxq⟩ := hx
    rw [← hxq]
    exact (jsonFieldsNoNull_iff kvs).1 hkvs q hq
  | null => exact hp
  | bool b => exact hp
  | num i => exact hp
  | str s => exact hp

theorem requiredArr_noNull {E : List Json} (hE : jsonListNoNull E = true)
    (kvs : List (String × Json)) :
    jsonNoNull (.arr (jsSetOfList (E ++ kvs.map fun p => Json.str p.1))) =
      true := by
  show jsonListNoNull _ = true
  rw [jsonListNoNull_iff]
  intro x hx
  have hx' := mem_jsSetOfList hx
  rcases List.mem_append.1 hx' with h | h
  · exact (jsonListNoNull_iff E).1 hE x h
  · rw [List.mem_map] at h
    obtain ⟨q, hq, hxq⟩ := h
    rw [← hxq]
    rfl

theorem ensureRequiredRec_ok : ∀ (j : Json), jsonNoNull j = true →
    ∃ r, ensureRequiredRec j = .ok r ∧ jsonNoNull r = true := by
  refine ensureRequiredRec.induct
    (fun j => jsonNoNull j = true →
      ∃ r, ensureRequiredRec j = .ok r ∧ jsonNoNull r = true)
    (fun kvs => jsonFieldsNoNull kvs = true →
      ∃ kvs', ensureRequiredChildren kvs = .ok kvs' ∧
        jsonFieldsNoNull kvs' = true)
    ?_ ?_ ?_ ?_ ?_ ?_
  · intro hnn
    simp [jsonNoNull] at hnn
  · intro fs hcond ihkvs ihit hnn
    have hfields : jsonFieldsNoNull fs = true := hnn
    obtain ⟨htype, htobj⟩ := hcond
    rcases hlp : lookupF fs "properties" with _ | p
    · rw [hlp] at htobj
      simp [jsTypeofObject] at htobj
    rw [hlp] at htobj
    have hpnn : jsonNoNull p = true := by
      have := lookupF_mem hlp
      exact (jsonFieldsNoNull_iff fs).1 hfields _ this
    obtain ⟨kvs, hkvs, hkvsnn⟩ := jsOwnProps_ok_noNull hpnn
    obtain ⟨kvs', hch, hchnn⟩ := ihkvs p hlp kvs hkvs hkvsnn
    have hM : jsonListNoNull (match lookupF fs "required" with
        | some (Json.arr xs) => xs
        | _ => []) = true := by
      rcases hreq : lookupF fs "required" with _ | v
      · rfl
      · rcases v with _ | b | n | s | xs | gs
        · rfl
        · rfl
        · rfl
        · rfl
        · exact (jsonFieldsNoNull_iff fs).1 hfields _ (lookupF_mem hreq)
        · rfl
    have hfs1 : jsonFieldsNoNull (setF fs "required"
        (.arr (jsSetOfList ((match lookupF fs "required" with
          | some (Json.arr xs) => xs
          | _ => []) ++ kvs.map fun p => Json.str p.1)))) = true :=
      jsonFieldsNoNull_setF hfields (requiredArr_noNull hM kvs)
    simp only [ensureRequiredRec]
    rw [hlp]
    rw [if_pos ⟨htype, htobj⟩]
    rw [hkvs]
    simp only [ebind_ok, epure]
    split
    · rename_i it hit
      rw [if_neg (by
        rintro ⟨hc, -⟩
        rw [htype] at hc
        simp at hc)]
      rw [if_pos htobj]
      split
      · rename_i e hkv
        rw [hkvs] at hkv
        simp at hkv
      · rename_i kvs1 hkv
        rw [hkvs] at hkv
        injection hkv with hkv
        subst hkv
        rw [hch]
        simp only [ebind_ok, epure]
        refine ⟨_, rfl, ?_⟩
        show jsonFieldsNoNull _ = true
        exact jsonFieldsNoNull_setF hfs1 (rebuildOwnProps_noNull hpnn hchnn)
    · rw [if_pos htobj]
      split
      · rename_i e hkv
        rw [hkvs] at hkv
        simp at hkv
      · rename_i kvs1 hkv
        rw [hkvs] at hkv
        injection hkv with hkv
        subst hkv
        rw [hch]
        simp only [ebind_ok, epure]
        refine ⟨_, rfl, ?_⟩
        show jsonFieldsNoNull _ = true
        exact jsonFieldsNoNull_setF hfs1 (rebuildOwnProps_noNull hpnn hchnn)
  · intro fs hcond ihkvs ihit hnn
    have hfields : jsonFieldsNoNull fs = true := hnn
    simp only [ensureRequiredRec]
    rw [if_neg hcond]
    simp only [ebind_ok, epure]
    split
    · rename_i it hit
      by_cases hc2 : lookupF fs "type" = some (Json.str "array") ∧
          jsTruthy it = true
      · rw [if_pos hc2]
        have hitnn : jsonNoNull it = true :=
          (jsonFieldsNoNull_iff fs).1 hfields _ (lookupF_mem hit)
        obtain ⟨it', hit', hit'nn⟩ := ihit it hit hitnn
        rw [hit']
        simp only [ebind_ok, epure]
        have hfs2 : jsonFieldsNoNull (setF fs "items" it') = true :=
          jsonFieldsNoNull_setF hfields hit'nn
        split
        · rename_i p hlp
          have hpnn : jsonNoNull p = true :=
            (jsonFieldsNoNull_iff fs).1 hfields _ (lookupF_mem hlp)
          by_cases htp : jsTypeofObject (some p) = true
          · rw [if_pos htp]
            obtain ⟨kvs, hkvs, hkvsnn⟩ := jsOwnProps_ok_noNull hpnn
            obtain ⟨kvs', hch, hchnn⟩ := ihkvs p hlp kvs hkvs hkvsnn
            split
            · rename_i e hkv
              rw [hkvs] at hkv
              simp at hkv
            · rename_i kvs1 hkv
              rw [hkvs] at hkv
              injection hkv with hkv
              subst hkv
              rw [hch]
              simp only [ebind_ok, epure]
              refine ⟨_, rfl, ?_⟩
              show jsonFieldsNoNull _ = true
              exact jsonFieldsNoNull_setF hfs2 (rebuildOwnProps_noNull hpnn hchnn)
          · rw [if_neg htp]
            exact ⟨_, rfl, hfs2⟩
        · exact ⟨_, rfl, hfs2⟩
      · rw [if_neg hc2]
        split
        · rename_i p hlp
          have hpnn : jsonNoNull p = true :=
            (jsonFieldsNoNull_iff fs).1 hfields _ (lookupF_mem hlp)
          by_cases htp : jsTypeofObject (some p) = true
          · rw [if_pos htp]
            obtain ⟨kvs, hkvs, hkvsnn⟩ := jsOwnProps_ok_noNull hpnn
            obtain ⟨kvs', hch, hchnn⟩ := ihkvs p hlp kvs hkvs hkvsnn
            split
            · rename_i e hkv
              rw [hkvs] at hkv
              simp at hkv
            · rename_i kvs1 hkv
              rw [hkvs] at hkv
              injection hkv with hkv
              subst hkv
              rw [hch]
              simp only [ebind_ok, epure]
              refine ⟨_, rfl, ?_⟩
              show jsonFieldsNoNull _ = true
              exact jsonFieldsNoNull_setF hfields (rebuildOwnProps_noNull hpnn hchnn)
          · rw [if_neg htp]
            exact ⟨_, rfl, hfields⟩
        · exact ⟨_, rfl, hfields⟩
    · split
      · rename_i p hlp
        have hpnn : jsonNoNull p = true :=
          (jsonFieldsNoNull_iff fs).1 hfields _ (lookupF_mem hlp)
        by_cases htp : jsTypeofObject (some p) = true
        · rw [if_pos htp]
          obtain ⟨kvs, hkvs, hkvsnn⟩ := jsOwnProps_ok_noNull hpnn
          obtain ⟨kvs', hch, hchnn⟩ := ihkvs p hlp kvs hkvs hkvsnn
          split
          · rename_i e hkv
            rw [hkvs] at hkv
            simp at hkv
          · rename_i kvs1 hkv
            rw [hkvs] at hkv
            injection hkv with hkv
            subst hkv
            rw [hch]
            simp only [ebind_ok, epure]
            refine ⟨_, rfl, ?_⟩
            show jsonFieldsNoNull _ = true
            exact jsonFieldsNoNull_setF hfields (rebuildOwnProps_noNull hpnn hchnn)
        · rw [if_neg htp]
          exact ⟨_, rfl, hfields⟩
      · exact ⟨_, rfl, hfields⟩
  · intro j h1 h2 hnn
    rcases j with _ | b | n | s | xs | gs
    · exact absurd rfl (fun h => h1 h)
    · exact ⟨.bool b, by simp [ensureRequiredRec, epure], hnn⟩
    · exact ⟨.num n, by simp [ensureRequiredRec, epure], hnn⟩
    · exact ⟨.str s, by simp [ensureRequiredRec, epure], hnn⟩
    · exact ⟨.arr xs, by simp [ensureRequiredRec, epure], hnn⟩
    · exact absurd rfl (fun h => h2 gs h)
  · intro h
    exact ⟨[], by simp [ensureRequiredChildren], rfl⟩
  · intro k v rest ihv ihrest hnn
    have hnn' : (jsonNoNull v && jsonFieldsNoNull rest) = true := hnn
    rw [Bool.and_eq_true] at hnn'
    obtain ⟨hv, hrest⟩ := hnn'
    obtain ⟨v', hv', hv'nn⟩ := ihv hv
    obtain ⟨rest', hrest', hrest'nn⟩ := ihrest hrest
    refine ⟨(k, v') :: rest', ?_, ?_⟩
    · simp only [ensureRequiredChildren, hv', hrest', ebind_ok, epure]
    · show (jsonNoNull v' && jsonFieldsNoNull rest') = true
      rw [hv'nn, hrest'nn]
      rfl

theorem removeUnsupportedFormats_ok : ∀ (j : Json), jsonNoNull j = true →
    ∃ r, removeUnsupportedFormats j = .ok r ∧ jsonNoNull r = true := by
  refine removeUnsupportedFormats.induct
    (fun j => jsonNoNull j = true →
      ∃ r, removeUnsupportedFormats j = .ok r ∧ jsonNoNull r = true)
    (fun kvs => jsonFieldsNoNull kvs = true →
      ∃ kvs', removeFormatsChildren kvs = .ok kvs' ∧
        jsonFieldsNoNull kvs' = true)
    ?_ ?_ ?_ ?_ ?_ ?_ ?_ ?_
  · intro hnn
    simp [jsonNoNull] at hnn
  · -- properties present, truthy, jsOwnProps errors: impossible without null
    intro fs p hlp htr e hkv ihit hnn
    have hfields : jsonFieldsNoNull fs = true := hnn
    have hpnn : jsonNoNull p = true :=
      (jsonFieldsNoNull_iff fs).1 hfields _ (lookupF_mem hlp)
    obtain ⟨kvs, hkvs, -⟩ := jsOwnProps_ok_noNull hpnn
    rw [hkvs] at hkv
    simp at hkv
  · -- properties present, truthy, jsOwnProps ok
    intro fs p hlp htr kvs hkvs ihit ihkvs hnn
    have hfields : jsonFieldsNoNull fs = true := hnn
    have hpnn : jsonNoNull p = true :=
      (jsonFieldsNoNull_iff fs).1 hfields _ (lookupF_mem hlp)
    have hkvsnn : jsonFieldsNoNull kvs = true := by
      obtain ⟨kvs0, hkvs0, hnn0⟩ := jsOwnProps_ok_noNull hpnn
      rw [hkvs0] at hkvs
      injection hkvs with hkvs
      rw [← hkvs]
      exact hnn0
    obtain ⟨kvs', hch, hchnn⟩ := ihkvs hkvsnn
    have hfs1 : jsonFieldsNoNull
        (if lookupF fs "format" = some (Json.str "uri") then
          deleteF fs "format" else fs) = true := by
      split
      · exact jsonFieldsNoNull_deleteF hfields
      · exact hfields
    have hfs2 : jsonFieldsNoNull (setF
        (if lookupF fs "format" = some (Json.str "uri") then
          deleteF fs "format" else fs) "properties"
        (rebuildOwnProps p kvs')) = true :=
      jsonFieldsNoNull_setF hfs1 (rebuildOwnProps_noNull hpnn hchnn)
    simp only [removeUnsupportedFormats]
    split
    · rename_i p1 heq
      rw [hlp] at heq
      injection heq with heq
      subst heq
      rw [if_pos htr]
      split
      · rename_i e hkv
        rw [hkvs] at hkv
        simp at hkv
      · rename_i kvs1 hkv
        rw [hkvs] at hkv
        injection hkv with hkv
        subst hkv
        rw [hch]
        simp only [ebind_ok, epure]
        split
        · rename_i it hit
          by_cases htri : jsTruthy it = true
          · rw [if_pos htri]
            have hitnn : jsonNoNull it = true :=
              (jsonFieldsNoNull_iff fs).1 hfields _ (lookupF_mem hit)
            obtain ⟨it', hit', hit'nn⟩ := ihit it hit hitnn
            rw [hit']
            simp only [ebind_ok, epure]
            refine ⟨_, rfl, ?_⟩
            show jsonFieldsNoNull _ = true
            exact jsonFieldsNoNull_setF hfs2 hit'nn
          · rw [if_neg htri]
            exact ⟨_, rfl, hfs2⟩
        · exact ⟨_, rfl, hfs2⟩
    · rename_i heq
      rw [hlp] at heq
      cases heq
  · -- properties present, not truthy
    intro fs p hlp htr ihit hnn
    have hfields : jsonFieldsNoNull fs = true := hnn
    have hfs1 : jsonFieldsNoNull
        (if lookupF fs "format" = some (Json.str "uri") then
          deleteF fs "format" else fs) = true := by
      split
      · exact jsonFieldsNoNull_deleteF hfields
      · exact hfields
    simp only [removeUnsupportedFormats]
    split
    · rename_i p1 heq
      rw [hlp] at heq
      injection heq with heq
      subst heq
      rw [if_neg htr]
      simp only [ebind_ok, epure]
      split
      · rename_i it hit
        by_cases htri : jsTruthy it = true
        · rw [if_pos htri]
          have hitnn : jsonNoNull it = true :=
            (jsonFieldsNoNull_iff fs).1 hfields _ (lookupF_mem hit)
          obtain ⟨it', hit', hit'nn⟩ := ihit it hit hitnn
          rw [hit']
          simp only [ebind_ok, epure]
          refine ⟨_, rfl, ?_⟩
          show jsonFieldsNoNull _ = true
          exact jsonFieldsNoNull_setF hfs1 hit'nn
        · rw [if_neg htri]
          exact ⟨_, rfl, hfs1⟩
      · exact ⟨_, rfl, hfs1⟩
    · rename_i heq
      rw [hlp] at heq
      cases heq
  · -- no properties
    intro fs hlp ihit hnn
    have hfields : jsonFieldsNoNull fs = true := hnn
    have hfs1 : jsonFieldsNoNull
        (if lookupF fs "format" = some (Json.str "uri") then
          deleteF fs "format" else fs) = true := by
      split
      · exact jsonFieldsNoNull_deleteF hfields
      · exact hfields
    simp only [removeUnsupportedFormats]
    split
    · rename_i p1 heq
      rw [hlp] at heq
      cases heq
    · simp only [ebind_ok, epure]
      split
      · rename_i it hit
        by_cases htri : jsTruthy it = true
        · rw [if_pos htri]
          have hitnn : jsonNoNull it = true :=
            (jsonFieldsNoNull_iff fs).1 hfields _ (lookupF_mem hit)
          obtain ⟨it', hit', hit'nn⟩ := ihit it hit hitnn
          rw [hit']
          simp only [ebind_ok, epure]
          refine ⟨_, rfl, ?_⟩
          show jsonFieldsNoNull _ = true
          exact jsonFieldsNoNull_setF hfs1 hit'nn
        · rw [if_neg htri]
          exact ⟨_, rfl, hfs1⟩
      · exact ⟨_, rfl, hfs1⟩
  · intro j h1 h2 hnn
    rcases j with _ | b | n | s | xs | gs
    · exact absurd rfl (fun h => h1 h)
    · exact ⟨.bool b, by simp [removeUnsupportedFormats, epure], hnn⟩
    · exact ⟨.num n, by simp [removeUnsupportedFormats, epure], hnn⟩
    · exact ⟨.str s, by simp [removeUnsupportedFormats, epure], hnn⟩
    · exact ⟨.arr xs, by simp [removeUnsupportedFormats, epure], hnn⟩
    · exact absurd rfl (fun h => h2 gs h)
  · intro h
    exact ⟨[], by simp [removeFormatsChildren], rfl⟩
  · intro k v rest ihv ihrest hnn
    have hnn' : (jsonNoNull v && jsonFieldsNoNull rest) = true := hnn
    rw [Bool.and_eq_true] at hnn'
    obtain ⟨hv, hrest⟩ := hnn'
    obtain ⟨v', hv', hv'nn⟩ := ihv hv
    obtain ⟨rest', hrest', hrest'nn⟩ := ihrest hrest
    refine ⟨(k, v') :: rest', ?_, ?_⟩
    · simp only [removeFormatsChildren, hv', hrest', ebind_ok, epure]
    · show (jsonNoNull v' && jsonFieldsNoNull rest') = true
      rw [hv'nn, hrest'nn]
      rfl

theorem ensureAdditionalPropertiesFalseRec_ok : ∀ (j : Json),
    jsonNoNull j = true →
    ∃ r, ensureAdditionalPropertiesFalseRec j = .ok r ∧
      jsonNoNull r = true := by
  refine ensureAdditionalPropertiesFalseRec.induct
    (fun j => jsonNoNull j = true →
      ∃ r, ensureAdditionalPropertiesFalseRec j = .ok r ∧
        jsonNoNull r = true)
    (fun kvs => jsonFieldsNoNull kvs = true →
      ∃ kvs', ensureAdditionalChildren kvs = .ok kvs' ∧
        jsonFieldsNoNull kvs' = true)
    ?_ ?_ ?_ ?_ ?_ ?_ ?_
  · intro hnn
    simp [jsonNoNull] at hnn
  · -- items present and truthy
    intro fs it hit htri ihkvs ihit1 hnn
    have hfields : jsonFieldsNoNull fs = true := hnn
    have hfs1 : jsonFieldsNoNull
        (if lookupF fs "type" = some (Json.str "object") then
          setF fs "additionalProperties" (Json.bool false) else fs) = true := by
      split
      · exact jsonFieldsNoNull_setF hfields rfl
      · exact hfields
    have hitnn : jsonNoNull it = true :=
      (jsonFieldsNoNull_iff fs).1 hfields _ (lookupF_mem hit)
    obtain ⟨it', hit', hit'nn⟩ := ihit1 hitnn
    have hfs2 : jsonFieldsNoNull (setF
        (if lookupF fs "type" = some (Json.str "object") then
          setF fs "additionalProperties" (Json.bool false) else fs)
        "items" it') = true :=
      jsonFieldsNoNull_setF hfs1 hit'nn
    simp only [ensureAdditionalPropertiesFalseRec]
    split
    · rename_i it1 heq
      rw [hit] at heq
      injection heq with heq
      subst heq
      rw [if_pos htri]
      rw [hit']
      simp only [ebind_ok, epure]
      split
      · rename_i p hlp
        by_cases htp : jsTruthy p = true
        · rw [if_pos htp]
          have hpnn : jsonNoNull p = true :=
            (jsonFieldsNoNull_iff fs).1 hfields _ (lookupF_mem hlp)
          obtain ⟨kvs, hkvs, hkvsnn⟩ := jsOwnProps_ok_noNull hpnn
          obtain ⟨kvs', hch, hchnn⟩ := ihkvs p hlp kvs hkvs hkvsnn
          split
          · rename_i e hkv
            rw [hkvs] at hkv
            simp at hkv
          · rename_i kvs1 hkv
            rw [hkvs] at hkv
            injection hkv with hkv
            subst hkv
            rw [hch]
            simp only [ebind_ok, epure]
            refine ⟨_, rfl, ?_⟩
            show jsonFieldsNoNull _ = true
            exact jsonFieldsNoNull_setF hfs2 (rebuildOwnProps_noNull hpnn hchnn)
        · rw [if_neg htp]
          exact ⟨_, rfl, hfs2⟩
      · exact ⟨_, rfl, hfs2⟩
    · rename_i heq
      rw [hit] at heq
      cases heq
  · -- items present, not truthy
    intro fs it hit htri ihkvs hnn
    have hfields : jsonFieldsNoNull fs = true := hnn
    have hfs1 : jsonFieldsNoNull
        (if lookupF fs "type" = some (Json.str "object") then
          setF fs "additionalProperties" (Json.bool false) else fs) = true := by
      split
      · exact jsonFieldsNoNull_setF hfields rfl
      · exact hfields
    simp only [ensureAdditionalPropertiesFalseRec]
    split
    · rename_i it1 heq
      rw [hit] at heq
      injection heq with heq
      subst heq
      rw [if_neg htri]
      simp only [ebind_ok, epure]
      split
      · rename_i p hlp
        by_cases htp : jsTruthy p = true
        · rw [if_pos htp]
          have hpnn : jsonNoNull p = true :=
            (jsonFieldsNoNull_iff fs).1 hfields _ (lookupF_mem hlp)
          obtain ⟨kvs, hkvs, hkvsnn⟩ := jsOwnProps_ok_noNull hpnn
          obtain ⟨kvs', hch, hchnn⟩ := ihkvs p hlp kvs hkvs hkvsnn
          split
          · rename_i e hkv
            rw [hkvs] at hkv
            simp at hkv
          · rename_i kvs1 hkv
            rw [hkvs] at hkv
            injection hkv with hkv
            subst hkv
            rw [hch]
            simp only [ebind_ok, epure]
            refine ⟨_, rfl, ?_⟩
            show jsonFieldsNoNull _ = true
            exact jsonFieldsNoNull_setF hfs1 (rebuildOwnProps_noNull hpnn hchnn)
        · rw [if_neg htp]
          exact ⟨_, rfl, hfs1⟩
      · exact ⟨_, rfl, hfs1⟩
    · rename_i heq
      rw [hit] at heq
      cases heq
  · -- no items
    intro fs hit ihkvs hnn
    have hfields : jsonFieldsNoNull fs = true := hnn
    have hfs1 : jsonFieldsNoNull
        (if lookupF fs "type" = some (Json.str "object") then
          setF fs "additionalProperties" (Json.bool false) else fs) = true := by
      split
      · exact jsonFieldsNoNull_setF hfields rfl
      · exact hfields
    simp only [ensureAdditionalPropertiesFalseRec]
    split
    · rename_i it1 heq
      rw [hit] at heq
      cases heq
    · simp only [ebind_ok, epure]
      split
      · rename_i p hlp
        by_cases htp : jsTruthy p = true
        · rw [if_pos htp]
          have hpnn : jsonNoNull p = true :=
            (jsonFieldsNoNull_iff fs).1 hfields _ (lookupF_mem hlp)
          obtain ⟨kvs, hkvs, hkvsnn⟩ := jsOwnProps_ok_noNull hpnn
          obtain ⟨kvs', hch, hchnn⟩ := ihkvs p hlp kvs hkvs hkvsnn
          split
          · rename_i e hkv
            rw [hkvs] at hkv
            simp at hkv
          · rename_i kvs1 hkv
            rw [hkvs] at hkv
            injection hkv with hkv
            subst hkv
            rw [hch]
            simp only [ebind_ok, epure]
            refine ⟨_, rfl, ?_⟩
            show jsonFieldsNoNull _ = true
            exact jsonFieldsNoNull_setF hfs1 (rebuildOwnProps_noNull hpnn hchnn)
        · rw [if_neg htp]
          exact ⟨_, rfl, hfs1⟩
      · exact ⟨_, rfl, hfs1⟩
  · intro j h1 h2 hnn
    rcases j with _ | b | n | s | xs | gs
    · exact absurd rfl (fun h => h1 h)
    · exact ⟨.bool b, by simp [ensureAdditionalPropertiesFalseRec, epure], hnn⟩
    · exact ⟨.num n, by simp [ensureAdditionalPropertiesFalseRec, epure], hnn⟩
    · exact ⟨.str s, by simp [ensureAdditionalPropertiesFalseRec, epure], hnn⟩
    · exact ⟨.arr xs, by simp [ensureAdditionalPropertiesFalseRec, epure], hnn⟩
    · exact absurd rfl (fun h => h2 gs h)
  · intro h
    exact ⟨[], by simp [ensureAdditionalChildren], rfl⟩
  · intro k v rest ihv ihrest hnn
    have hnn' : (jsonNoNull v && jsonFieldsNoNull rest) = true := hnn
    rw [Bool.and_eq_true] at hnn'
    obtain ⟨hv, hrest⟩ := hnn'
    obtain ⟨v', hv', hv'nn⟩ := ihv hv
    obtain ⟨rest', hrest', hrest'nn⟩ := ihrest hrest
    refine ⟨(k, v') :: rest', ?_, ?_⟩
    · simp only [ensureAdditionalChildren, hv', hrest', ebind_ok, epure]
    · show (jsonNoNull v' && jsonFieldsNoNull rest') = true
      rw [hv'nn, hrest'nn]
      rfl

theorem normalize_ok (j : Json) (h : jsonNoNull j = true) :
    ∃ r, normalizeJSONSchemaForOpenAI j = .ok r ∧ jsonNoNull r = true := by
  obtain ⟨r1, h1, h1nn⟩ := ensureRequiredRec_ok j h
  obtain ⟨r2, h2, h2nn⟩ := removeUnsupportedFormats_ok r1 h1nn
  obtain ⟨r3, h3, h3nn⟩ := ensureAdditionalPropertiesFalseRec_ok r2 h2nn
  refine ⟨r3, ?_, h3nn⟩
  simp only [normalizeJSONSchemaForOpenAI, h1, h2, h3, ebind_ok, epure]

/-! ## Claims -/

/-- C1: the claim says a `response.completed` after any `function_call` item
yields `stop_reason = "tool_use"`.  The code marks every block completed in
the `response.completed` sweep before calling `hasActiveTools` (which only
counts uncompleted tool blocks), so the `tool_use` branch is unreachable:
this session opens a `function_call` tool block and still ends with
`message_delta` carrying `end_turn`. -/
theorem c1_completed_after_tool_yields_end_turn :
    (processEvents initialState
      [.responseCreated "r1",
       .outputItemAddedFunctionCall (some "f1") "calc" "c1",
       .outputItemDoneFunctionCall (some "f1"),
       .responseCompleted "completed" none]).2 =
      [.contentBlockStartText 0,
       .contentBlockStartTool 1 "f1" "calc" false,
       .contentBlockStop 1, .contentBlockStop 0,
       .messageDelta .endTurn 0 0, .messageStop] := by rfl

/-- C6 counterexample: `response.failed` emits the error frame but does not
latch `completed`; a following `response.in_progress` is still processed and
emits a `ping` instead of being dropped. -/
theorem c6_counterexample :
    (processEvents initialState [.responseFailed]).1.streamCompleted = false ∧
    (processEvents initialState [.responseFailed, .responseInProgress]).2 =
      [.errorFrame "response.failed" "Stream error", .ping] := ⟨rfl, rfl⟩

/-- C6 amended: on `response.failed`, `response.incomplete` or `error` the
stream translator emits an error frame but leaves the session state (and in
particular the `completed` latch) unchanged, so later events are handled
normally; only `response.completed` latches the session. -/
theorem c6_amended (s : SState) (h : s.streamCompleted = false) :
    s.handleEvent .responseFailed =
      (s, [.errorFrame "response.failed" "Stream error"]) ∧
    s.handleEvent .responseIncomplete =
      (s, [.errorFrame "response.incomplete" "Stream error"]) ∧
    s.handleEvent .errorEvent =
      (s, [.errorFrame "error" "Stream error"]) := by
  refine ⟨?_, ?_, ?_⟩ <;> simp [SState.handleEvent, h]

/-- C6 witness: the amended statement evaluated at the initial session
state. -/
theorem c6_amended_witness :
    initialState.streamCompleted = false ∧
    initialState.handleEvent .responseFailed =
      (initialState, [.errorFrame "response.failed" "Stream error"]) :=
  ⟨rfl, (c6_amended initialState rfl).1⟩

/-- C5 counterexample: a session that sees `response.created` (id `resp_1`)
and two text deltas and whose transport closes after those three events —
before any `response.completed` — still updates the conversation's
`last_response_id` from `none` to `resp_1`, because the coordinator persists
the id captured at `response.created`. -/
theorem c5_counterexample :
    storeLastResponseId
      (runStreamingRequest [] "conv"
        [.responseCreated "resp_1", .outputTextDelta "Hi",
         .outputTextDelta " there"]
        (some 3)).1 "conv" = some "resp_1" ∧
    storeLastResponseId [] "conv" = none ∧
    ([UpEvent.responseCreated "resp_1", .outputTextDelta "Hi",
      .outputTextDelta " there"].any isResponseCompletedEvent) = false :=
  ⟨rfl, rfl, rfl⟩

/-- C5 amended: after a streaming session the stored `last_response_id`
equals the response id captured by the session (from `response.created` /
`content_part.added`) when one was captured, and is otherwise unchanged —
regardless of whether `response.completed` was observed before the transport
closed. -/
theorem c5_amended (store : ConversationStore) (convId : String)
    (evs : List UpEvent) (closedAfter : Option Nat) :
    storeLastResponseId (runStreamingRequest store convId evs closedAfter).1
        convId =
      (match (runStreamingLoop (initialState.greeting).1 evs closedAfter
          0).1.responseId with
       | some rid => if rid ≠ "" then some rid
           else storeLastResponseId store convId
       | none => storeLastResponseId store convId) := by
  unfold runStreamingRequest
  have h1 := getOrCreate_get_self store convId
  have h2 := finish_lastResponseId (store.getOrCreate convId).2 convId
    (store.getOrCreate convId).1
    (runStreamingLoop (initialState.greeting).1 evs closedAfter 0).1 h1
  simp only at h2 ⊢
  rw [h2]
  have h3 : ((store.getOrCreate convId).1).lastResponseId =
      storeLastResponseId store convId := by
    have := getOrCreate_lastResponseId store convId
    rw [← this]
    unfold storeLastResponseId
    rw [h1]
    rfl
  rw [h3]

/-- C4 counterexample: a conversation holding the binding `c1 -> t1` runs a
streaming turn that mints only `c2 -> f2`; after the coordinator update, the
stored bindings are replaced wholesale (`Object.assign`), so the earlier
binding `c1 -> t1` is lost rather than merged. -/
theorem c4_counterexample :
    storeBindingFor
      (runStreamingRequest [("conv", ⟨some "r0", some [("c1", "t1")]⟩)] "conv"
        [.responseCreated "r1",
         .outputItemAddedFunctionCall (some "f2") "calc" "c2",
         .outputItemDoneFunctionCall (some "f2"),
         .responseCompleted "completed" none]
        none).1 "conv" "c1" = none ∧
    storeBindingFor [("conv", ⟨some "r0", some [("c1", "t1")]⟩)] "conv" "c1" =
      some "t1" :=
  ⟨rfl, rfl⟩

/-- C4 amended: when a streaming turn mints at least one binding the
coordinator stores exactly this turn's bindings, replacing (not merging)
whatever the conversation held before; when the turn mints none, the stored
bindings are left untouched. -/
theorem c4_amended (store : ConversationStore) (convId : String)
    (evs : List UpEvent) (closedAfter : Option Nat) :
    storeBindings (runStreamingRequest store convId evs closedAfter).1
        convId =
      (if (runStreamingLoop (initialState.greeting).1 evs closedAfter
            0).1.callIdMapping.length > 0 then
        some (runStreamingLoop (initialState.greeting).1 evs closedAfter
            0).1.callIdMapping
       else storeBindings store convId) := by
  unfold runStreamingRequest
  have h1 := getOrCreate_get_self store convId
  have h2 := finish_bindings (store.getOrCreate convId).2 convId
    (store.getOrCreate convId).1
    (runStreamingLoop (initialState.greeting).1 evs closedAfter 0).1 h1
  simp only at h2 ⊢
  rw [h2]
  have h3 : ((store.getOrCreate convId).1).callIdMapping =
      storeBindings store convId := by
    have := getOrCreate_bindings store convId
    rw [← this]
    unfold storeBindings
    rw [h1]
    rfl
  rw [h3]

/-- C2: in the input-item list returned by the request translator, no
`function_call` is unmatched: since every `function_call` the converter
produces carries a non-empty `call_id` (hypothesis), the post-filter drops
each one lacking a `function_call_output` with the same `call_id`, keeps each
one that has a match, and never drops a `function_call_output`. -/
theorem c2_post_filter (input : List InputItem)
    (h : ∀ callId name arguments,
      InputItem.functionCall callId name arguments ∈ input → callId ≠ "") :
    (∀ callId name arguments,
      InputItem.functionCall callId name arguments ∈
          dropUnmatchedFunctionCalls input →
        ∃ output, InputItem.functionCallOutput callId output ∈
          dropUnmatchedFunctionCalls input) ∧
    (∀ callId name arguments output,
      InputItem.functionCall callId name arguments ∈ input →
      InputItem.functionCallOutput callId output ∈ input →
        InputItem.functionCall callId name arguments ∈
          dropUnmatchedFunctionCalls input) ∧
    (∀ callId output,
      InputItem.functionCallOutput callId output ∈ input →
        InputItem.functionCallOutput callId output ∈
          dropUnmatchedFunctionCalls input) := by
  have houtKept : ∀ callId output,
      InputItem.functionCallOutput callId output ∈ input →
        InputItem.functionCallOutput callId output ∈
          dropUnmatchedFunctionCalls input := by
    intro callId output hmem
    simp only [dropUnmatchedFunctionCalls, List.mem_filter]
    exact ⟨hmem, by simp⟩
  refine ⟨?_, ?_, houtKept⟩
  · intro callId name arguments hmem
    simp only [dropUnmatchedFunctionCalls, List.mem_filter] at hmem
    obtain ⟨hin, hkeep⟩ := hmem
    have hne := h _ _ _ hin
    simp only [ne_eq, hne, not_false_eq_true, if_true,
      List.contains_iff_exists_mem_beq, List.mem_filterMap] at hkeep
    obtain ⟨c, ⟨item, hitem, hsome⟩, hbeq⟩ := hkeep
    have hc : callId = c := by simpa using hbeq
    subst hc
    match item, hsome with
    | .functionCallOutput c' o, hsome =>
      by_cases hne' : c' = ""
      · simp [hne'] at hsome
      · simp only [ne_eq, hne', not_false_eq_true, if_true,
          Option.some.injEq] at hsome
        subst hsome
        exact ⟨o, houtKept _ _ hitem⟩
  · intro callId name arguments output hfc hfco
    simp only [dropUnmatchedFunctionCalls, List.mem_filter]
    refine ⟨hfc, ?_⟩
    have hne := h _ _ _ hfc
    simp only [ne_eq, hne, not_false_eq_true, if_true,
      List.contains_iff_exists_mem_beq, List.mem_filterMap]
    exact ⟨callId, ⟨.functionCallOutput callId output, hfco,
      by simp [hne]⟩, by simp⟩

/-- C2 witness: the post-filter theorem applied to the concrete list holding
a matched pair `function_call{c1}` / `function_call_output{c1}`. -/
theorem c2_post_filter_witness :
    (∀ callId name arguments,
      InputItem.functionCall callId name arguments ∈
          ([.functionCall "c1" "calc" "1", .functionCallOutput "c1" "3"] :
            List InputItem) → callId ≠ "") ∧
    (∀ callId name arguments,
      InputItem.functionCall callId name arguments ∈
          dropUnmatchedFunctionCalls
            [.functionCall "c1" "calc" "1", .functionCallOutput "c1" "3"] →
        ∃ output, InputItem.functionCallOutput callId output ∈
          dropUnmatchedFunctionCalls
            [.functionCall "c1" "calc" "1", .functionCallOutput "c1" "3"]) := by
  have h : ∀ callId name arguments,
      InputItem.functionCall callId name arguments ∈
        ([.functionCall "c1" "calc" "1", .functionCallOutput "c1" "3"] :
          List InputItem) → callId ≠ "" := by
    intro callId name arguments hmem
    simp only [List.mem_cons, List.mem_singleton] at hmem
    rcases hmem with heq | heq | heq
    · injection heq with h1 h2 h3
      subst h1
      decide
    · exact absurd heq (by simp)
    · exact absurd heq (by simp)
  exact ⟨h, (c2_post_filter _ h).1⟩

/-- C10: `addToolBlock` is idempotent in its tool id — called with an id that
is already registered it returns the manager unchanged together with the
existing metadata entry (same index, same flags), appending no block and
allocating no index; consequently a whole streaming session (any event list
fed to the handler from the initial state, duplicated
`response.output_item.added` events included) emits at most one
`content_block_start` for any given tool item id. -/
theorem c10_addToolBlock_idempotent (m : CBM) (tid name : String)
    (callId : Option String) (meta : BMeta) (evs : List UpEvent)
    (hreg : jsMapGet m.metadata tid = some meta) :
    m.addToolBlock tid name callId = (m, meta) ∧
      countToolStarts tid (processEvents initialState evs).2 ≤ 1 := by
  constructor
  · simp only [CBM.addToolBlock, hreg]
  · refine (processEvents_toolStarts evs initialState tid ?_).2.1
    intro p hp
    simp [initialState, CBM.empty] at hp

/-- C10 witness: a manager holding a registered tool entry `t1`, and the
duplicated-added session `[added t1, added t1, completed]`, which emits
exactly one `content_block_start` for `t1`. -/
theorem c10_addToolBlock_idempotent_witness :
    jsMapGet (⟨[.toolUse "t1" "calc"],
        [("t1", ⟨"t1", 0, true, false, "", some "c1"⟩)]⟩ : CBM).metadata
        "t1" = some ⟨"t1", 0, true, false, "", some "c1"⟩ ∧
    (CBM.addToolBlock ⟨[.toolUse "t1" "calc"],
        [("t1", ⟨"t1", 0, true, false, "", some "c1"⟩)]⟩ "t1" "calc"
        (some "c1") =
      (⟨[.toolUse "t1" "calc"],
        [("t1", ⟨"t1", 0, true, false, "", some "c1"⟩)]⟩,
        ⟨"t1", 0, true, false, "", some "c1"⟩) ∧
      countToolStarts "t1" (processEvents initialState
        [.outputItemAddedFunctionCall (some "t1") "calc" "c1",
         .outputItemAddedFunctionCall (some "t1") "calc" "c1",
         .responseCompleted "completed" none]).2 ≤ 1) :=
  ⟨by decide,
    c10_addToolBlock_idempotent _ "t1" "calc" (some "c1") _
      [.outputItemAddedFunctionCall (some "t1") "calc" "c1",
       .outputItemAddedFunctionCall (some "t1") "calc" "c1",
       .responseCompleted "completed" none] (by decide)⟩

/-- When every `function_call` item's arguments string parses, the output
loop succeeds, keeps every already-accumulated tool block, and emits a
`tool_use` block holding the parsed arguments for each `function_call` with
a truthy id. -/
theorem convertOutputLoop_ok (items : List OutputItem) (mint : Nat)
    (texts : List String) (tools : List ClaudeBlock)
    (mapping : List (String × String))
    (h : ∀ id callId name args,
      OutputItem.functionCall id callId name args ∈ items →
      ∃ v, jsonParseArgs args = .ok v) :
    ∃ texts2 tools2 mapping2,
      convertOutputLoop items mint texts tools mapping =
        .ok (texts2, tools2, mapping2) ∧
      (∀ b ∈ tools, b ∈ tools2) ∧
      ∀ id callId name args v,
        OutputItem.functionCall id callId name args ∈ items → id ≠ "" →
        jsonParseArgs args = .ok v →
        ∃ tu, ClaudeBlock.toolUse tu name v ∈ tools2 := by
  induction items generalizing mint texts tools mapping with
  | nil =>
    refine ⟨texts, tools, mapping, rfl, fun b hb => hb, ?_⟩
    intro id callId name args v hmem
    exact absurd hmem (by simp)
  | cons item rest ih =>
    match item with
    | .message parts =>
      obtain ⟨t2, tl2, m2, heq, hsub, hmem⟩ :=
        ih (mint) (texts ++ parts.filterMap fun p =>
            match p with
            | .outputText t => some t
            | .otherContent => none) tools mapping
          (fun i c n a hm => h i c n a (List.mem_cons_of_mem _ hm))
      refine ⟨t2, tl2, m2, heq, hsub, ?_⟩
      intro id callId name args v hm hid hv
      rcases List.mem_cons.1 hm with hm | hm
      · exact absurd hm (by simp)
      · exact hmem id callId name args v hm hid hv
    | .otherItem =>
      obtain ⟨t2, tl2, m2, heq, hsub, hmem⟩ :=
        ih mint texts tools mapping
          (fun i c n a hm => h i c n a (List.mem_cons_of_mem _ hm))
      refine ⟨t2, tl2, m2, heq, hsub, ?_⟩
      intro id callId name args v hm hid hv
      rcases List.mem_cons.1 hm with hm | hm
      · exact absurd hm (by simp)
      · exact hmem id callId name args v hm hid hv
    | .functionCall id0 callId0 name0 args0 =>
      by_cases hid0 : id0 ≠ ""
      · obtain ⟨v0, hv0⟩ := h id0 callId0 name0 args0 (List.mem_cons_self _ _)
        obtain ⟨t2, tl2, m2, heq, hsub, hmem⟩ :=
          ih (mint + 1) texts
            (tools ++ [.toolUse ("toolu_" ++ natToString mint) name0 v0])
            (if callId0 ≠ "" then
              jsMapSet mapping callId0 ("toolu_" ++ natToString mint)
             else jsMapSet mapping id0 ("toolu_" ++ natToString mint))
            (fun i c n a hm => h i c n a (List.mem_cons_of_mem _ hm))
        refine ⟨t2, tl2, m2, ?_,
          fun b hb => hsub b (List.mem_append_left _ hb), ?_⟩
        · simp only [convertOutputLoop, hv0]
          rw [if_pos hid0]
          exact heq
        · intro id callId name args v hm hid hv
          rcases List.mem_cons.1 hm with hm | hm
          · injection hm with h1 h2 h3 h4
            subst h1; subst h3; subst h4
            rw [hv0] at hv
            injection hv with hveq
            subst hveq
            exact ⟨"toolu_" ++ natToString mint,
              hsub _ (List.mem_append_right _ (by simp))⟩
          · exact hmem id callId name args v hm hid hv
      · obtain ⟨t2, tl2, m2, heq, hsub, hmem⟩ :=
          ih mint texts tools mapping
            (fun i c n a hm => h i c n a (List.mem_cons_of_mem _ hm))
        refine ⟨t2, tl2, m2, ?_, hsub, ?_⟩
        · simp only [convertOutputLoop, hid0, if_false]
          exact heq
        · intro id callId name args v hm hid hv
          rcases List.mem_cons.1 hm with hm | hm
          · injection hm with h1 h2 h3 h4
            subst h1
            exact absurd hid hid0
          · exact hmem id callId name args v hm hid hv

/-- C7 counterexample: a `function_call` item whose `arguments` string is the
single character `\x7b` is not valid JSON and not empty, so
`JSON.parse(output.arguments || "\x7b\x7d")` throws; nothing catches it, and
the translation errors instead of substituting the empty object. -/
theorem c7_counterexample :
    convertOpenAIResponseToClaude
      ⟨[.functionCall "fc_1" "call_1" "calc" "\x7b"], "completed", none, 1, 2⟩
      0 = .error "SyntaxError: Unexpected token in JSON" := by rfl

/-- C7 (amended): when every `function_call` item's arguments string is empty
or parses as JSON, the non-streaming translation succeeds and every
`function_call` with a truthy id yields a downstream `tool_use` block whose
input is the JSON parse of the arguments (the empty object for empty
arguments); a non-empty invalid arguments string instead propagates the
uncaught `JSON.parse` exception. -/
theorem c7_amended (resp : OAIResponse) (mintBase : Nat)
    (h : ∀ id callId name args,
      OutputItem.functionCall id callId name args ∈ resp.output →
      ∃ v, jsonParseArgs args = .ok v) :
    ∃ out mapping,
      convertOpenAIResponseToClaude resp mintBase = .ok (out, mapping) ∧
      ∀ id callId name args v,
        OutputItem.functionCall id callId name args ∈ resp.output → id ≠ "" →
        jsonParseArgs args = .ok v →
        ∃ tu, ClaudeBlock.toolUse tu name v ∈ out.content := by
  obtain ⟨t2, tl2, m2, heq, hsub, hmem⟩ :=
    convertOutputLoop_ok resp.output mintBase [] [] [] h
  refine ⟨⟨(if t2.length > 0 then [ClaudeBlock.text (String.join t2)]
        else []) ++ tl2,
      (if resp.status = "incomplete" then
        if resp.incompleteReason = some "max_output_tokens" then .maxTokens
        else .endTurn
       else if tl2.length > 0 then .toolUse else .endTurn),
      resp.usageInput, resp.usageOutput⟩, m2, ?_, ?_⟩
  · simp only [convertOpenAIResponseToClaude, heq]
  · intro id callId name args v hm hid hv
    obtain ⟨tu, htu⟩ := hmem id callId name args v hm hid hv
    exact ⟨tu, List.mem_append_right _ htu⟩

/-- C7 witness: the amended theorem applied to a one-item response whose
`function_call` carries empty arguments, which parse to the empty object. -/
theorem c7_amended_witness :
    (∀ id callId name args,
      OutputItem.functionCall id callId name args ∈
        ([OutputItem.functionCall "fc1" "call1" "calc" ""] :
          List OutputItem) →
      ∃ v, jsonParseArgs args = .ok v) ∧
    ∃ out mapping,
      convertOpenAIResponseToClaude
        ⟨[.functionCall "fc1" "call1" "calc" ""], "completed", none, 1, 2⟩ 0 =
        .ok (out, mapping) ∧
      ∀ id callId name args v,
        OutputItem.functionCall id callId name args ∈
          ([OutputItem.functionCall "fc1" "call1" "calc" ""] :
            List OutputItem) → id ≠ "" →
        jsonParseArgs args = .ok v →
        ∃ tu, ClaudeBlock.toolUse tu name v ∈ out.content := by
  have h : ∀ id callId name args,
      OutputItem.functionCall id callId name args ∈
        ([OutputItem.functionCall "fc1" "call1" "calc" ""] :
          List OutputItem) →
      ∃ v, jsonParseArgs args = .ok v := by
    intro id callId name args hmem
    simp only [List.mem_singleton] at hmem
    injection hmem with h1 h2 h3 h4
    subst h4
    exact ⟨.obj [], rfl⟩
  exact ⟨h,
    c7_amended ⟨[.functionCall "fc1" "call1" "calc" ""], "completed", none,
      1, 2⟩ 0 h⟩

/-- C9 counterexample: the normalizer dereferences its argument before any
shape check, so the legal JSON value `null` makes the first rewrite stage
throw the `TypeError` instead of returning a result. -/
theorem c9_counterexample :
    normalizeJSONSchemaForOpenAI .null = .error typeErrorMsg := by
  simp [normalizeJSONSchemaForOpenAI, ensureRequiredRec, ebind_err]

/-- C9 (amended): for every JSON input containing no `null` at any position
the schema normalizer returns a result without raising an error (the source
deep-clones with `structuredClone` first, so the caller's value is never
mutated); an input that is `null`, or holds a `null` in a position the
normalizer dereferences, instead raises an uncaught `TypeError`. -/
theorem c9_amended (j : Json) (h : jsonNoNull j = true) :
    ∃ r, normalizeJSONSchemaForOpenAI j = .ok r := by
  obtain ⟨r, hr, -⟩ := normalize_ok j h
  exact ⟨r, hr⟩

/-- C9 witness: the amended theorem applied to a small null-free schema. -/
theorem c9_amended_witness :
    jsonNoNull (.obj [("type", .str "object")]) = true ∧
    ∃ r, normalizeJSONSchemaForOpenAI (.obj [("type", .str "object")]) =
      .ok r :=
  ⟨rfl, c9_amended _ rfl⟩

/-! ## C8: what the normalizer reaches

A checker transcribed from the spec sentence "every `object`-typed node, at
any nesting depth, has `additionalProperties` set to `false`" (descending
into every field and array element, schema combinators included); the code
recurses only along `properties` values and `items`.
-/

mutual

def specAdditionalPropsFalse : Json → Bool
  | .obj fs =>
    (if lookupF fs "type" = some (Json.str "object") then
      decide (lookupF fs "additionalProperties" = some (Json.bool false))
     else true) && specAdditionalPropsFalseFields fs
  | .arr xs => specAdditionalPropsFalseList xs
  | _ => true

def specAdditionalPropsFalseList : List Json → Bool
  | [] => true
  | x :: xs => specAdditionalPropsFalse x && specAdditionalPropsFalseList xs

def specAdditionalPropsFalseFields : List (String × Json) → Bool
  | [] => true
  | (_, v) :: fs =>
    specAdditionalPropsFalse v && specAdditionalPropsFalseFields fs

end

/-- Scenario F input: `\x7b"type":"object","properties":\x7b"q":\x7b"type":"string","format":"uri"\x7d\x7d\x7d`. -/
def scenarioFInput : Json :=
  .obj [("type", .str "object"),
    ("properties", .obj [("q", .obj [("type", .str "string"),
      ("format", .str "uri")])])]

/-- Scenario F output: `required:["q"]` and `additionalProperties:false`
added, the `uri` format dropped. -/
def scenarioFOutput : Json :=
  .obj [("type", .str "object"),
    ("properties", .obj [("q", .obj [("type", .str "string")])]),
    ("required", .arr [.str "q"]),
    ("additionalProperties", .bool false)]

/-- A schema whose object-typed node sits inside the combinator `anyOf`. -/
def combinatorSchema : Json :=
  .obj [("anyOf", .arr [.obj [("type", .str "object"),
    ("properties", .obj [("a", .obj [("type", .str "string"),
      ("format", .str "uri")])])]])]

/-- C8 counterexample: the normalizer returns the `anyOf` schema unchanged —
the object-typed node inside the combinator gets no `additionalProperties:
false` (nor required-union or format removal), violating the claimed
at-any-depth property. -/
theorem c8_counterexample :
    normalizeJSONSchemaForOpenAI combinatorSchema = .ok combinatorSchema ∧
    specAdditionalPropsFalse combinatorSchema = false := by
  constructor
  · simp [normalizeJSONSchemaForOpenAI, ensureRequiredRec,
      ensureRequiredChildren, removeUnsupportedFormats, removeFormatsChildren,
      ensureAdditionalPropertiesFalseRec, ensureAdditionalChildren,
      combinatorSchema, lookupF, setF, deleteF, jsOwnProps, jsTypeofObject,
      jsTruthy, jsSetOfList, rebuildOwnProps, ebind_ok, epure]
  · rfl

/-- C8 (amended): the normalizer rewrites only along `properties` values and
`items`; an object none of whose keys is `properties`, `items`, a
`format:"uri"` binding or `type:"object"` — in particular one holding only
schema combinators such as `anyOf` — is returned unchanged, no matter what
object-typed nodes sit below those keys; and the scenario-F input maps
exactly to its stated output. -/
theorem c8_amended (fs : List (String × Json))
    (hprops : lookupF fs "properties" = none)
    (hitems : lookupF fs "items" = none)
    (hfmt : lookupF fs "format" ≠ some (.str "uri"))
    (hty : lookupF fs "type" ≠ some (.str "object")) :
    normalizeJSONSchemaForOpenAI (.obj fs) = .ok (.obj fs) ∧
    normalizeJSONSchemaForOpenAI scenarioFInput = .ok scenarioFOutput := by
  have h1 : ensureRequiredRec (.obj fs) = .ok (.obj fs) := by
    simp only [ensureRequiredRec]
    rw [if_neg (by
      rintro ⟨-, hc⟩
      rw [hprops] at hc
      simp [jsTypeofObject] at hc)]
    simp only [ebind_ok, epure]
    split
    · rename_i it hit
      rw [hitems] at hit
      cases hit
    · split
      · rename_i p hlp
        rw [hprops] at hlp
        cases hlp
      · rfl
  have h2 : removeUnsupportedFormats (.obj fs) = .ok (.obj fs) := by
    simp only [removeUnsupportedFormats]
    split
    · rename_i p hlp
      rw [hprops] at hlp
      cases hlp
    · split
      · rename_i hfmt2
        exact absurd hfmt2 hfmt
      · simp only [ebind_ok, epure]
        split
        · rename_i it hit
          rw [hitems] at hit
          cases hit
        · rfl
  have h3 : ensureAdditionalPropertiesFalseRec (.obj fs) = .ok (.obj fs) := by
    simp only [ensureAdditionalPropertiesFalseRec]
    split
    · rename_i it hit
      rw [hitems] at hit
      cases hit
    · split
      · rename_i hty2
        exact absurd hty2 hty
      · simp only [ebind_ok, epure]
        split
        · rename_i p hlp
          rw [hprops] at hlp
          cases hlp
        · rfl
  refine ⟨?_, ?_⟩
  · simp only [normalizeJSONSchemaForOpenAI, h1, h2, h3, ebind_ok, epure]
  · simp [normalizeJSONSchemaForOpenAI, ensureRequiredRec,
      ensureRequiredChildren, removeUnsupportedFormats, removeFormatsChildren,
      ensureAdditionalPropertiesFalseRec, ensureAdditionalChildren,
      scenarioFInput, scenarioFOutput, lookupF, setF, deleteF, jsOwnProps,
      jsTypeofObject, jsTruthy, jsSetOfList, rebuildOwnProps, ebind_ok, epure]

/-- C8 witness: the amended theorem applied to the `anyOf`-only field list,
whose keys avoid `properties`, `items`, `format:"uri"` and
`type:"object"`. -/
theorem c8_amended_witness :
    (lookupF [("anyOf", Json.arr [Json.obj [("type", Json.str "object"),
        ("properties", Json.obj [("a", Json.obj [("type", Json.str "string"),
          ("format", Json.str "uri")])])]])] "properties" = none ∧
      lookupF [("anyOf", Json.arr [Json.obj [("type", Json.str "object"),
        ("properties", Json.obj [("a", Json.obj [("type", Json.str "string"),
          ("format", Json.str "uri")])])]])] "items" = none) ∧
    normalizeJSONSchemaForOpenAI (.obj [("anyOf", Json.arr [Json.obj
        [("type", Json.str "object"),
          ("properties", Json.obj [("a", Json.obj [("type", Json.str "string"),
            ("format", Json.str "uri")])])]])]) =
      .ok (.obj [("anyOf", Json.arr [Json.obj [("type", Json.str "object"),
        ("properties", Json.obj [("a", Json.obj [("type", Json.str "string"),
          ("format", Json.str "uri")])])]])]) ∧
    normalizeJSONSchemaForOpenAI scenarioFInput = .ok scenarioFOutput :=
  ⟨⟨by rfl, by rfl⟩,
    c8_amended [("anyOf", Json.arr [Json.obj [("type", Json.str "object"),
        ("properties", Json.obj [("a", Json.obj [("type", Json.str "string"),
          ("format", Json.str "uri")])])]])]
      (by rfl) (by rfl) (by decide) (by decide)⟩

/-! ## C3: block accounting of a full streaming session -/

/-! Counting helpers for the C3 session invariant. -/

def startIndices (out : List DownEvent) : List Nat :=
  out.filterMap fun e =>
    match e with
    | .contentBlockStartText i => some i
    | .contentBlockStartTool i _ _ _ => some i
    | _ => none

def stopCount (out : List DownEvent) (i : Nat) : Nat :=
  out.countP fun e =>
    match e with
    | .contentBlockStop j => j == i
    | _ => false

def msgStopCount (out : List DownEvent) : Nat :=
  out.countP fun e =>
    match e with
    | .messageStop => true
    | _ => false

/-- The block-accounting half of C3: starts are dense in order, each started
index is stopped exactly once, and the single `message_stop` is last (hence
follows every stop). -/
def sessionBalanced (out : List DownEvent) : Prop :=
  startIndices out = List.range (startIndices out).length ∧
  (∀ i ∈ startIndices out, stopCount out i = 1) ∧
  msgStopCount out = 1 ∧
  out.getLast? = some .messageStop

instance (out : List DownEvent) : Decidable (sessionBalanced out) := by
  unfold sessionBalanced; infer_instance

/-- Upstream tool item ids that cannot collide with the synthetic
`text_<n>` metadata keys. -/
def evOk : UpEvent → Prop
  | .outputItemAddedFunctionCall (some id) _ _ => ∀ n, id ≠ textKey n
  | .webSearchInProgress id => ∀ n, id ≠ textKey n
  | _ => True

theorem startIndices_append (o1 o2 : List DownEvent) :
    startIndices (o1 ++ o2) = startIndices o1 ++ startIndices o2 := by
  simp [startIndices]

theorem stopCount_append (o1 o2 : List DownEvent) (i : Nat) :
    stopCount (o1 ++ o2) i = stopCount o1 i + stopCount o2 i := by
  simp [stopCount, List.countP_append]

theorem msgStopCount_append (o1 o2 : List DownEvent) :
    msgStopCount (o1 ++ o2) = msgStopCount o1 + msgStopCount o2 := by
  simp [msgStopCount, List.countP_append]

theorem textKey_inj {a b : Nat} (h : textKey a = textKey b) : a = b := by
  have hd := congrArg String.data h
  simp only [textKey, String.data_append] at hd
  have h2 : (natToString a).data = (natToString b).data :=
    List.append_cancel_left hd
  exact natToString_injective (congrArg String.mk h2)

theorem shortId_ne_textKey {id : String} (h : id.data.length < 6) :
    ∀ n, id ≠ textKey n := by
  intro n heq
  have hd := congrArg String.data heq
  simp only [textKey, String.data_append] at hd
  have hlen := congrArg List.length hd
  simp only [List.length_append] at hlen
  have h5 : (['t', 'e', 'x', 't', '_'] : List Char).length = 5 := rfl
  have hne := natDigits_ne_nil n
  have hpos : 0 < (natToString n).data.length := by
    show 0 < (natDigits n).length
    cases hnd : natDigits n with
    | nil => exact absurd hnd hne
    | cons c cs => simp
  omega

/-- Session invariant for a not-yet-completed stream translator state. -/
structure SInv (s : SState) (out : List DownEvent) : Prop where
  idx : s.cbm.metadata.map (fun p => p.2.index) =
    List.range s.cbm.blocks.length
  keys : ∀ p ∈ s.cbm.metadata, p.1 = p.2.id
  ids : ∀ p ∈ s.cbm.metadata,
    p.2.id = textKey p.2.index ∨ ∀ n, p.2.id ≠ textKey n
  nodup : (s.cbm.metadata.map (fun p => p.1)).Nodup
  allstart : allStartedMd s.cbm.metadata
  starts : startIndices out = List.range s.cbm.blocks.length
  stops : ∀ p ∈ s.cbm.metadata,
    stopCount out p.2.index = if p.2.completed then 1 else 0
  hi : ∀ i, s.cbm.blocks.length ≤ i → stopCount out i = 0
  nostop : msgStopCount out = 0
  cur : ∀ id, s.currentTextBlockId = some id →
    ∀ m, jsMapGet s.cbm.metadata id = some m →
      m.completed = false ∧ m.id = textKey m.index
  curkey : ∀ id, s.currentTextBlockId = some id → ∃ n, id = textKey n
  btype : ∀ p ∈ s.cbm.metadata, p.2.id = textKey p.2.index →
    ∃ c, s.cbm.blocks.get? p.2.index = some (CBlock.text c)
  notdone : s.streamCompleted = false

theorem SInv_initial : SInv initialState [] := by
  refine ⟨?_, ?_, ?_, ?_, ?_, ?_, ?_, ?_, ?_, ?_, ?_, ?_, rfl⟩ <;>
    simp [initialState, CBM.empty, startIndices, stopCount, msgStopCount,
      allStartedMd]

/-- Entries of the invariant's metadata are position-unique: equal indexes
force equal entries. -/
theorem index_inj {s : SState} {out : List DownEvent} (hinv : SInv s out)
    {p q : String × BMeta} (hp : p ∈ s.cbm.metadata)
    (hq : q ∈ s.cbm.metadata) (h : p.2.index = q.2.index) : p = q := by
  have hnd : (s.cbm.metadata.map (fun p => p.2.index)).Nodup := by
    rw [hinv.idx]
    exact List.nodup_range _
  exact List.inj_on_of_nodup_map hnd hp hq h

/-- Keys are unique, so entries with the same key coincide. -/
theorem key_inj {s : SState} {out : List DownEvent} (hinv : SInv s out)
    {p q : String × BMeta} (hp : p ∈ s.cbm.metadata)
    (hq : q ∈ s.cbm.metadata) (h : p.1 = q.1) : p = q :=
  List.inj_on_of_nodup_map hinv.nodup hp hq h

theorem index_lt {s : SState} {out : List DownEvent} (hinv : SInv s out)
    {p : String × BMeta} (hp : p ∈ s.cbm.metadata) :
    p.2.index < s.cbm.blocks.length := by
  have : p.2.index ∈ s.cbm.metadata.map (fun p => p.2.index) :=
    List.mem_map_of_mem _ hp
  rw [hinv.idx] at this
  exact List.mem_range.1 this

/-- A key that is not a text key of any index and not an existing tool key
is absent. -/
theorem fresh_textKey {s : SState} {out : List DownEvent} (hinv : SInv s out) :
    jsMapGet s.cbm.metadata (textKey s.cbm.blocks.length) = none := by
  cases hget : jsMapGet s.cbm.metadata (textKey s.cbm.blocks.length) with
  | none => rfl
  | some m =>
    exfalso
    have hmem := jsMapGet_mem hget
    have hkey : textKey s.cbm.blocks.length = m.id := hinv.keys _ hmem
    have hlt : m.index < s.cbm.blocks.length := index_lt hinv hmem
    rcases hinv.ids _ hmem with hid | hid
    · have heq : textKey s.cbm.blocks.length = textKey m.index := by
        rw [hkey]
        exact hid
      have := textKey_inj heq
      omega
    · exact hid s.cbm.blocks.length hkey.symm

theorem jsMapSet_append {α : Type} {m : List (String × α)} {k : String}
    (v : α) (h : jsMapGet m k = none) : jsMapSet m k v = m ++ [(k, v)] := by
  induction m with
  | nil => rfl
  | cons p rest ih =>
    obtain ⟨k', v'⟩ := p
    simp only [jsMapGet] at h
    split at h
    · cases h
    · rename_i hk
      simp only [jsMapSet, if_neg hk]
      rw [List.cons_append, ih h]

theorem map_updEntry {β : Type} (g : String × BMeta → β) (id : String)
    (f : BMeta → BMeta) (md : List (String × BMeta))
    (h : ∀ k b, g (k, f b) = g (k, b)) :
    (updEntry id f md).map g = md.map g := by
  induction md with
  | nil => rfl
  | cons p rest ih =>
    obtain ⟨k, b⟩ := p
    simp only [updEntry, List.map_cons] at ih ⊢
    rw [ih]
    by_cases hp : k = id
    · rw [if_pos hp, h k b]
    · rw [if_neg hp]

/-- Transition that emits no start, stop or `message_stop` and leaves the
metadata and block count unchanged. -/
theorem SInv_emit {s s' : SState} {out es : List DownEvent}
    (hinv : SInv s out)
    (hmd : s'.cbm.metadata = s.cbm.metadata)
    (hbll : s'.cbm.blocks.length = s.cbm.blocks.length)
    (hbtext : ∀ i c, s.cbm.blocks.get? i = some (CBlock.text c) →
      ∃ c2, s'.cbm.blocks.get? i = some (CBlock.text c2))
    (hcur : s'.currentTextBlockId = s.currentTextBlockId ∨
      s'.currentTextBlockId = none)
    (hdone : s'.streamCompleted = false)
    (hstarts : startIndices es = [])
    (hstops : ∀ i, stopCount es i = 0)
    (hmsg : msgStopCount es = 0) :
    SInv s' (out ++ es) := by
  refine ⟨?_, ?_, ?_, ?_, ?_, ?_, ?_, ?_, ?_, ?_, ?_, ?_, hdone⟩
  · rw [hmd, hbll]
    exact hinv.idx
  · rw [hmd]
    exact hinv.keys
  · rw [hmd]
    exact hinv.ids
  · rw [hmd]
    exact hinv.nodup
  · rw [hmd]
    exact hinv.allstart
  · rw [startIndices_append, hstarts, List.append_nil, hbll]
    exact hinv.starts
  · intro p hp
    rw [stopCount_append, hstops, Nat.add_zero]
    rw [hmd] at hp
    exact hinv.stops p hp
  · intro i hik
    rw [stopCount_append, hstops, Nat.add_zero]
    rw [hbll] at hik
    exact hinv.hi i hik
  · rw [msgStopCount_append, hmsg, Nat.add_zero]
    exact hinv.nostop
  · intro id hid m hget
    rw [hmd] at hget
    rcases hcur with hcur | hcur
    · rw [hcur] at hid
      exact hinv.cur id hid m hget
    · rw [hcur] at hid
      cases hid
  · intro id hid
    rcases hcur with hcur | hcur
    · rw [hcur] at hid
      exact hinv.curkey id hid
    · rw [hcur] at hid
      cases hid
  · intro p hp hpid
    rw [hmd] at hp
    obtain ⟨c, hc⟩ := hinv.btype p hp hpid
    exact hbtext _ _ hc

/-- Transition that rewrites one metadata entry without touching its id,
index or completion flag (argument buffering), emitting no start/stop. -/
theorem SInv_update {s s' : SState} {out es : List DownEvent}
    (hinv : SInv s out) (id : String) (f : BMeta → BMeta)
    (hfid : ∀ b, (f b).id = b.id)
    (hfidx : ∀ b, (f b).index = b.index)
    (hfcomp : ∀ b, (f b).completed = b.completed)
    (hfstart : ∀ b, b.started = true → (f b).started = true)
    (hmd : s'.cbm.metadata = updEntry id f s.cbm.metadata)
    (hbl : s'.cbm.blocks = s.cbm.blocks)
    (hcur : s'.currentTextBlockId = s.currentTextBlockId)
    (hdone : s'.streamCompleted = false)
    (hstarts : startIndices es = [])
    (hstops : ∀ i, stopCount es i = 0)
    (hmsg : msgStopCount es = 0) :
    SInv s' (out ++ es) := by
  refine ⟨?_, ?_, ?_, ?_, ?_, ?_, ?_, ?_, ?_, ?_, ?_, ?_, hdone⟩
  · rw [hmd, hbl, map_updEntry _ _ _ _ (fun k b => hfidx b)]
    exact hinv.idx
  · rw [hmd]
    intro p hp
    obtain ⟨q, hq, rfl⟩ := mem_updEntry hp
    by_cases h : q.1 = id
    · simp only [h, if_pos]
      rw [hfid, ← h]
      exact hinv.keys q hq
    · simp only [h, ite_false]
      exact hinv.keys q hq
  · rw [hmd]
    intro p hp
    obtain ⟨q, hq, rfl⟩ := mem_updEntry hp
    by_cases h : q.1 = id
    · simp only [h, if_pos, hfid, hfidx]
      exact hinv.ids q hq
    · simp only [h, ite_false]
      exact hinv.ids q hq
  · rw [hmd, map_updEntry (fun p => p.1) id f s.cbm.metadata
      (fun k b => rfl)]
    exact hinv.nodup
  · rw [hmd]
    exact allStartedMd_updEntry hinv.allstart hfstart
  · rw [startIndices_append, hstarts, List.append_nil, hbl]
    exact hinv.starts
  · intro p hp
    rw [stopCount_append, hstops, Nat.add_zero]
    rw [hmd] at hp
    obtain ⟨q, hq, rfl⟩ := mem_updEntry hp
    by_cases h : q.1 = id
    · simp only [h, if_pos, hfidx, hfcomp]
      exact hinv.stops q hq
    · simp only [h, ite_false]
      exact hinv.stops q hq
  · intro i hik
    rw [stopCount_append, hstops, Nat.add_zero]
    rw [hbl] at hik
    exact hinv.hi i hik
  · rw [msgStopCount_append, hmsg, Nat.add_zero]
    exact hinv.nostop
  · intro cid hid m hget
    rw [hmd, jsMapGet_updEntry] at hget
    rw [hcur] at hid
    cases hget0 : jsMapGet s.cbm.metadata cid with
    | none =>
      rw [hget0] at hget
      cases hget
    | some m0 =>
      rw [hget0] at hget
      simp only [Option.map_some'] at hget
      injection hget with hget
      obtain ⟨hc0, hid0⟩ := hinv.cur cid hid m0 hget0
      subst hget
      by_cases h : cid = id
      · rw [if_pos h, hfcomp, hfid, hfidx]
        exact ⟨hc0, hid0⟩
      · rw [if_neg h]
        exact ⟨hc0, hid0⟩
  · intro cid hid
    rw [hcur] at hid
    exact hinv.curkey cid hid
  · intro p hp hpid
    rw [hbl]
    rw [hmd] at hp
    obtain ⟨q, hq, rfl⟩ := mem_updEntry hp
    by_cases h : q.1 = id
    · simp only [h, if_pos, hfid, hfidx] at hpid ⊢
      exact hinv.btype q hq hpid
    · simp only [h, ite_false] at hpid ⊢
      exact hinv.btype q hq hpid

theorem not_mem_keys_of_jsMapGet_none {α : Type} {md : List (String × α)}
    {k : String} (h : jsMapGet md k = none) :
    k ∉ md.map (fun p => p.1) := by
  induction md with
  | nil => simp
  | cons p rest ih =>
    obtain ⟨k', v'⟩ := p
    simp only [jsMapGet] at h
    split at h
    · cases h
    · rename_i hk
      simp only [List.map_cons, List.mem_cons]
      rintro (rfl | hmem)
      · exact hk rfl
      · exact ih h hmem

theorem jsMapGet_append_single {α : Type} (md : List (String × α))
    (key cid : String) (v : α) :
    jsMapGet (md ++ [(key, v)]) cid =
      match jsMapGet md cid with
      | some m => some m
      | none => if cid = key then some v else none := by
  induction md with
  | nil =>
    simp only [List.nil_append, jsMapGet]
    split
    · rename_i hk
      rw [if_pos hk.symm]
    · rename_i hk
      rw [if_neg (fun h => hk h.symm)]
  | cons p rest ih =>
    obtain ⟨k', v'⟩ := p
    simp only [List.cons_append, jsMapGet]
    split
    · rfl
    · exact ih

theorem updEntry_append_fresh {md : List (String × BMeta)} {key : String}
    (f : BMeta → BMeta) (v : BMeta) (h : jsMapGet md key = none) :
    updEntry key f (md ++ [(key, v)]) = md ++ [(key, f v)] := by
  have hnot := not_mem_keys_of_jsMapGet_none h
  simp only [updEntry, List.map_append]
  congr 1
  · -- entries of md keep their value
    conv_rhs => rw [show md = md.map id from (List.map_id md).symm]
    apply List.map_congr_left
    intro p hp
    have : p.1 ≠ key := by
      intro hk
      exact hnot (hk ▸ List.mem_map_of_mem _ hp)
    simp [this]
  · simp

theorem stopCount_single (j i : Nat) :
    stopCount [DownEvent.contentBlockStop j] i = if j = i then 1 else 0 := by
  simp only [stopCount, List.countP_cons, List.countP_nil]
  by_cases h : j = i
  · simp [h]
  · simp [h]

theorem startIndices_single_stop (j : Nat) :
    startIndices [DownEvent.contentBlockStop j] = [] := rfl

theorem msgStop_single_stop (j : Nat) :
    msgStopCount [DownEvent.contentBlockStop j] = 0 := rfl

/-- Completing one uncompleted entry and emitting its stop (after optional
flag-free events `ds`). -/
theorem SInv_complete {s s' : SState} {out ds : List DownEvent}
    (hinv : SInv s out) (key : String) (m0 : BMeta)
    (hmem : (key, m0) ∈ s.cbm.metadata)
    (hc0 : m0.completed = false)
    (hmd : s'.cbm.metadata =
      updEntry key (fun b => { b with completed := true }) s.cbm.metadata)
    (hbll : s'.cbm.blocks.length = s.cbm.blocks.length)
    (hbtext : ∀ i c, s.cbm.blocks.get? i = some (CBlock.text c) →
      ∃ c2, s'.cbm.blocks.get? i = some (CBlock.text c2))
    (hcur : s'.currentTextBlockId = none ∨
      (s'.currentTextBlockId = s.currentTextBlockId ∧
        ∃ tid tname, s.cbm.blocks.get? m0.index =
          some (CBlock.toolUse tid tname)))
    (hdone : s'.streamCompleted = false)
    (hds : startIndices ds = [] ∧ (∀ i, stopCount ds i = 0) ∧
      msgStopCount ds = 0) :
    SInv s' (out ++ (ds ++ [.contentBlockStop m0.index])) := by
  obtain ⟨hds1, hds2, hds3⟩ := hds
  have hkey : key = m0.id := hinv.keys _ hmem
  refine ⟨?_, ?_, ?_, ?_, ?_, ?_, ?_, ?_, ?_, ?_, ?_, ?_, hdone⟩
  · rw [hmd, hbll, map_updEntry (fun p => p.2.index) key
      (fun b => { b with completed := true }) s.cbm.metadata
      (fun k b => rfl)]
    exact hinv.idx
  · rw [hmd]
    intro p hp
    obtain ⟨q, hq, rfl⟩ := mem_updEntry hp
    by_cases h : q.1 = key
    · simp only [h, if_pos]
      rw [show (∀ b : BMeta, ({ b with completed := true } : BMeta).id = b.id)
        from fun b => rfl, ← h]
      exact hinv.keys q hq
    · simp only [h, ite_false]
      exact hinv.keys q hq
  · rw [hmd]
    intro p hp
    obtain ⟨q, hq, rfl⟩ := mem_updEntry hp
    by_cases h : q.1 = key
    · simp only [h, if_pos]
      exact hinv.ids q hq
    · simp only [h, ite_false]
      exact hinv.ids q hq
  · rw [hmd, map_updEntry (fun p => p.1) key
      (fun b => { b with completed := true }) s.cbm.metadata
      (fun k b => rfl)]
    exact hinv.nodup
  · rw [hmd]
    exact allStartedMd_updEntry hinv.allstart (fun b h => h)
  · rw [startIndices_append, startIndices_append, hds1,
      startIndices_single_stop, hbll]
    simp only [List.append_nil]
    exact hinv.starts
  · intro p hp
    rw [stopCount_append, stopCount_append, hds2, stopCount_single]
    rw [hmd] at hp
    obtain ⟨q, hq, rfl⟩ := mem_updEntry hp
    by_cases h : q.1 = key
    · have hqe : q = (key, m0) := key_inj hinv hq hmem h
      subst hqe
      simp only [if_pos rfl]
      have := hinv.stops _ hq
      rw [hc0] at this
      simp only [if_false] at this
      simp [this]
    · have hne : q.2.index ≠ m0.index := by
        intro he
        have := index_inj hinv hq hmem he
        exact h (by rw [this])
      simp only [h, ite_false]
      rw [if_neg (fun he => hne he.symm)]
      have := hinv.stops q hq
      omega
  · intro i hik
    rw [stopCount_append, stopCount_append, hds2, stopCount_single]
    rw [hbll] at hik
    have hlt : m0.index < s.cbm.blocks.length := index_lt hinv hmem
    rw [if_neg (by omega)]
    have := hinv.hi i hik
    omega
  · rw [msgStopCount_append, msgStopCount_append, hds3, msgStop_single_stop]
    simp [hinv.nostop]
  · intro cid hid m hget
    rcases hcur with hcur | ⟨hcur, tid, tname, htool⟩
    · rw [hcur] at hid
      cases hid
    · rw [hcur] at hid
      rw [hmd, jsMapGet_updEntry] at hget
      cases hget0 : jsMapGet s.cbm.metadata cid with
      | none =>
        rw [hget0] at hget
        cases hget
      | some mold =>
        rw [hget0] at hget
        simp only [Option.map_some'] at hget
        injection hget with hget
        obtain ⟨hcold, hidold⟩ := hinv.cur cid hid mold hget0
        have hcidne : cid ≠ key := by
          intro hckey
          subst hckey
          have hmold : (cid, mold) ∈ s.cbm.metadata := jsMapGet_mem hget0
          have : (cid, mold) = (cid, m0) := key_inj hinv hmold hmem rfl
          have hmm : mold = m0 := by injection this
          obtain ⟨c, hc⟩ := hinv.btype _ hmold hidold
          rw [hmm] at hc
          rw [hc] at htool
          cases htool
        rw [if_neg hcidne] at hget
        subst hget
        exact ⟨hcold, hidold⟩
  · intro cid hid
    rcases hcur with hcur | ⟨hcur, -⟩
    · rw [hcur] at hid
      cases hid
    · rw [hcur] at hid
      exact hinv.curkey cid hid
  · intro p hp hpid
    rw [hmd] at hp
    obtain ⟨q, hq, rfl⟩ := mem_updEntry hp
    by_cases h : q.1 = key
    · simp only [h, if_pos] at hpid ⊢
      obtain ⟨c, hc⟩ := hinv.btype q hq hpid
      exact hbtext _ _ hc
    · simp only [h, ite_false] at hpid ⊢
      obtain ⟨c, hc⟩ := hinv.btype q hq hpid
      exact hbtext _ _ hc

/-- Appending a fresh block with its started metadata entry, emitting its
`content_block_start` (followed by optional flag-free events `ds`). -/
theorem SInv_addBlock {s s' : SState} {out ds : List DownEvent}
    (hinv : SInv s out) (key : String) (meta1 : BMeta)
    (bl' : List CBlock) (ev : DownEvent)
    (hkey : jsMapGet s.cbm.metadata key = none)
    (hm1id : meta1.id = key) (hm1idx : meta1.index = s.cbm.blocks.length)
    (hm1st : meta1.started = true) (hm1c : meta1.completed = false)
    (hids : key = textKey s.cbm.blocks.length ∨ ∀ n, key ≠ textKey n)
    (hmd : s'.cbm.metadata = s.cbm.metadata ++ [(key, meta1)])
    (hbl : s'.cbm.blocks = bl')
    (hbll : bl'.length = s.cbm.blocks.length + 1)
    (hblold : ∀ i, i < s.cbm.blocks.length →
      bl'.get? i = s.cbm.blocks.get? i)
    (hblnew : key = textKey s.cbm.blocks.length →
      ∃ c, bl'.get? s.cbm.blocks.length = some (CBlock.text c))
    (hcur : (s'.currentTextBlockId = some key ∧
        key = textKey s.cbm.blocks.length) ∨
      (s'.currentTextBlockId = s.currentTextBlockId ∧ ∀ n, key ≠ textKey n))
    (hdone : s'.streamCompleted = false)
    (hev : ev = .contentBlockStartText s.cbm.blocks.length ∨
      ∃ tn tw, ev = .contentBlockStartTool s.cbm.blocks.length key tn tw)
    (hds : startIndices ds = [] ∧ (∀ i, stopCount ds i = 0) ∧
      msgStopCount ds = 0) :
    SInv s' (out ++ (ev :: ds)) := by
  obtain ⟨hds1, hds2, hds3⟩ := hds
  have hevstart : startIndices [ev] = [s.cbm.blocks.length] := by
    rcases hev with rfl | ⟨tn, tw, rfl⟩ <;> rfl
  have hevstop : ∀ i, stopCount [ev] i = 0 := by
    rcases hev with rfl | ⟨tn, tw, rfl⟩ <;> intro i <;> rfl
  have hevmsg : msgStopCount [ev] = 0 := by
    rcases hev with rfl | ⟨tn, tw, rfl⟩ <;> rfl
  have hsplit : out ++ (ev :: ds) = (out ++ [ev]) ++ ds := by simp
  refine ⟨?_, ?_, ?_, ?_, ?_, ?_, ?_, ?_, ?_, ?_, ?_, ?_, hdone⟩
  · rw [hmd, hbl, List.map_append, hinv.idx, hbll]
    simp [hm1idx, List.range_succ]
  · rw [hmd]
    intro p hp
    rcases List.mem_append.1 hp with hp | hp
    · exact hinv.keys p hp
    · simp only [List.mem_singleton] at hp
      subst hp
      exact hm1id.symm
  · rw [hmd]
    intro p hp
    rcases List.mem_append.1 hp with hp | hp
    · exact hinv.ids p hp
    · simp only [List.mem_singleton] at hp
      subst hp
      rcases hids with hids | hids
      · left
        rw [hm1id, hm1idx]
        exact hids
      · right
        rw [hm1id]
        exact hids
  · rw [hmd, List.map_append]
    simp only [List.map_cons, List.map_nil]
    rw [List.nodup_append]
    refine ⟨hinv.nodup, List.nodup_singleton _, ?_⟩
    intro a ha hb
    simp only [List.mem_singleton] at hb
    subst hb
    exact not_mem_keys_of_jsMapGet_none hkey ha
  · rw [hmd]
    intro p hp
    rcases List.mem_append.1 hp with hp | hp
    · exact hinv.allstart p hp
    · simp only [List.mem_singleton] at hp
      subst hp
      exact hm1st
  · rw [hsplit, startIndices_append, startIndices_append, hds1, hevstart,
      List.append_nil, hinv.starts, hbl, hbll, List.range_succ]
  · intro p hp
    rw [hsplit, stopCount_append, stopCount_append, hds2, hevstop]
    simp only [Nat.add_zero]
    rw [hmd] at hp
    rcases List.mem_append.1 hp with hp | hp
    · exact hinv.stops p hp
    · simp only [List.mem_singleton] at hp
      subst hp
      simp only [hm1c, hm1idx, if_false]
      exact hinv.hi _ (Nat.le_refl _)
  · intro i hik
    rw [hsplit, stopCount_append, stopCount_append, hds2, hevstop]
    simp only [Nat.add_zero]
    rw [hbl, hbll] at hik
    exact hinv.hi i (by omega)
  · rw [hsplit, msgStopCount_append, msgStopCount_append, hds3, hevmsg]
    simp [hinv.nostop]
  · intro cid hid m hget
    rw [hmd, jsMapGet_append_single] at hget
    rcases hcur with ⟨hcur, hkeytext⟩ | ⟨hcur, hkeytool⟩
    · rw [hcur] at hid
      injection hid with hid
      subst hid
      cases hget0 : jsMapGet s.cbm.metadata key with
      | some mold =>
        rw [hget0] at hkey
        cases hkey
      | none =>
        rw [hget0] at hget
        simp only [if_pos rfl] at hget
        injection hget with hget
        subst hget
        refine ⟨hm1c, ?_⟩
        rw [hm1id, hm1idx]
        exact hkeytext
    · rw [hcur] at hid
      obtain ⟨n, hn⟩ := hinv.curkey cid hid
      have hcidne : cid ≠ key := by
        intro he
        subst he
        exact hkeytool n hn
      cases hget0 : jsMapGet s.cbm.metadata cid with
      | some mold =>
        rw [hget0] at hget
        injection hget with hget
        subst hget
        exact hinv.cur cid hid mold hget0
      | none =>
        rw [hget0] at hget
        rw [if_neg hcidne] at hget
        cases hget
  · intro cid hid
    rcases hcur with ⟨hcur, hkeytext⟩ | ⟨hcur, hkeytool⟩
    · rw [hcur] at hid
      injection hid with hid
      subst hid
      exact ⟨s.cbm.blocks.length, hkeytext⟩
    · rw [hcur] at hid
      exact hinv.curkey cid hid
  · intro p hp hpid
    rw [hbl]
    rw [hmd] at hp
    rcases List.mem_append.1 hp with hp | hp
    · have hlt := index_lt hinv hp
      rw [hblold _ hlt]
      exact hinv.btype p hp hpid
    · simp only [List.mem_singleton] at hp
      subst hp
      rw [hm1id, hm1idx] at hpid
      rw [hm1idx]
      exact hblnew hpid

theorem startIndices_stops_map (l : List (CBlock × BMeta)) :
    startIndices (l.map fun p => DownEvent.contentBlockStop p.2.index) =
      [] := by
  induction l with
  | nil => rfl
  | cons p rest ih => simpa [startIndices] using ih

theorem msgStop_stops_map (l : List (CBlock × BMeta)) :
    msgStopCount (l.map fun p => DownEvent.contentBlockStop p.2.index) =
      0 := by
  induction l with
  | nil => rfl
  | cons p rest ih => simpa [msgStopCount, List.countP_cons] using ih

theorem stopCount_cons (e : DownEvent) (l : List DownEvent) (i : Nat) :
    stopCount (e :: l) i = stopCount l i +
      (if (match e with
        | DownEvent.contentBlockStop j => j == i
        | _ => false) = true then 1 else 0) := by
  simp [stopCount, List.countP_cons]

theorem uncompleted_stops_count (B : List CBlock)
    (l : List (String × BMeta)) (i : Nat)
    (hlt : ∀ p ∈ l, p.2.index < B.length) :
    stopCount ((l.filterMap fun p =>
        if p.2.completed then none
        else match B.get? p.2.index with
          | some block => some (block, p.2)
          | none => none).map fun p => DownEvent.contentBlockStop p.2.index)
      i = l.countP fun p => !p.2.completed && p.2.index == i := by
  induction l with
  | nil => rfl
  | cons p rest ih =>
    have hlt' : ∀ q ∈ rest, q.2.index < B.length :=
      fun q hq => hlt q (List.mem_cons_of_mem _ hq)
    have ihr := ih hlt'
    by_cases hc : p.2.completed = true
    · simp only [List.filterMap_cons, hc, if_true, List.countP_cons,
        Bool.not_true, Bool.false_and, Bool.false_eq_true, if_false,
        Nat.add_zero]
      exact ihr
    · have hcf : p.2.completed = false := by
        revert hc
        cases p.2.completed <;> simp
      obtain ⟨block, hblk⟩ : ∃ block, B.get? p.2.index = some block := by
        have := hlt p (List.mem_cons_self _ _)
        rcases hb : B.get? p.2.index with _ | block
        · rw [List.get?_eq_none] at hb
          omega
        · exact ⟨block, rfl⟩
      simp only [List.filterMap_cons, hcf, Bool.false_eq_true, if_false,
        hblk, List.map_cons, List.countP_cons, Bool.not_false, Bool.true_and]
      rw [stopCount_cons, ihr]

theorem countP_index_single {md : List (String × BMeta)} {q : String × BMeta}
    (hq : q ∈ md) (hnodup : md.Nodup)
    (huniq : ∀ p ∈ md, p.2.index = q.2.index → p = q) :
    (md.countP fun p => !p.2.completed && p.2.index == q.2.index) =
      if q.2.completed then 0 else 1 := by
  induction md with
  | nil => cases hq
  | cons p rest ih =>
    rw [List.countP_cons]
    rcases List.mem_cons.1 hq with rfl | hq'
    · have hrest0 : rest.countP
          (fun p => !p.2.completed && p.2.index == q.2.index) = 0 := by
        rw [List.countP_eq_zero]
        intro x hx
        intro hpred
        rw [Bool.and_eq_true, beq_iff_eq] at hpred
        have := huniq x (List.mem_cons_of_mem _ hx) hpred.2
        subst this
        exact (List.nodup_cons.1 hnodup).1 hx
      rw [hrest0]
      by_cases hc : q.2.completed
      · simp [hc]
      · simp [hc]
    · have hpne : p ≠ q := by
        intro he
        subst he
        exact (List.nodup_cons.1 hnodup).1 hq'
      have hpred : (!p.2.completed && p.2.index == q.2.index) = false := by
        rw [Bool.and_eq_false_iff]
        by_cases hidx : p.2.index = q.2.index
        · exact absurd (huniq p (List.mem_cons_self _ _) hidx) hpne
        · right
          simp [hidx]
      rw [hpred]
      simp only [Bool.false_eq_true, if_false, Nat.add_zero]
      exact ih hq' (List.nodup_cons.1 hnodup).2
        (fun x hx => huniq x (List.mem_cons_of_mem _ hx))

/-- The `response.completed` transition latches the session and closes the
books: from any invariant state the full output is balanced. -/
theorem SInv_completed {s : SState} {out : List DownEvent} (hinv : SInv s out)
    (status : String) (reason : Option String) :
    (s.handleEvent (.responseCompleted status reason)).1.streamCompleted =
      true ∧
    sessionBalanced
      (out ++ (s.handleEvent (.responseCompleted status reason)).2) := by
  have hne := hinv.notdone
  constructor
  · simp only [SState.handleEvent, hne, Bool.false_eq_true, if_false,
      completedSweep]
  · simp only [SState.handleEvent, hne, Bool.false_eq_true, if_false,
      completedSweep]
    have hstops0 := startIndices_stops_map s.cbm.getUncompletedBlocks
    have hmsg0 := msgStop_stops_map s.cbm.getUncompletedBlocks
    have hlt : ∀ p ∈ s.cbm.metadata, p.2.index < s.cbm.blocks.length :=
      fun p hp => index_lt hinv hp
    have hcount := fun i => uncompleted_stops_count s.cbm.blocks
      s.cbm.metadata i hlt
    refine ⟨?_, ?_, ?_, ?_⟩
    · rw [show ∀ (a b c : List DownEvent), a ++ (b ++ c) = (a ++ b) ++ c from
        fun a b c => (List.append_assoc a b c).symm]
      rw [startIndices_append, startIndices_append, hstops0]
      simp only [List.append_nil]
      rw [show startIndices [DownEvent.messageDelta
          (if status = "incomplete" ∧ reason = some "max_output_tokens" then
            ClaudeStopReason.maxTokens
          else if (List.foldl (fun acc p => acc.markCompleted p.2.id) s.cbm
              s.cbm.getUncompletedBlocks).hasActiveTools = true then
            ClaudeStopReason.toolUse
          else ClaudeStopReason.endTurn) s.usageInput s.usageOutput,
          DownEvent.messageStop] = [] from rfl]
      simp only [List.append_nil]
      rw [hinv.starts, List.length_range]
    · intro i hi
      rw [show ∀ (a b c : List DownEvent), a ++ (b ++ c) = (a ++ b) ++ c from
        fun a b c => (List.append_assoc a b c).symm] at hi ⊢
      rw [startIndices_append, startIndices_append, hstops0] at hi
      simp only [List.append_nil] at hi
      rw [show startIndices [DownEvent.messageDelta
          (if status = "incomplete" ∧ reason = some "max_output_tokens" then
            ClaudeStopReason.maxTokens
          else if (List.foldl (fun acc p => acc.markCompleted p.2.id) s.cbm
              s.cbm.getUncompletedBlocks).hasActiveTools = true then
            ClaudeStopReason.toolUse
          else ClaudeStopReason.endTurn) s.usageInput s.usageOutput,
          DownEvent.messageStop] = [] from rfl] at hi
      simp only [List.append_nil] at hi
      rw [hinv.starts] at hi
      have hiL : i < s.cbm.blocks.length := List.mem_range.1 hi
      have himem : i ∈ s.cbm.metadata.map (fun p => p.2.index) := by
        rw [hinv.idx]
        exact List.mem_range.2 hiL
      obtain ⟨q, hq, hqi⟩ := List.mem_map.1 himem
      rw [stopCount_append, stopCount_append]
      have hlast : stopCount [DownEvent.messageDelta
          (if status = "incomplete" ∧ reason = some "max_output_tokens" then
            ClaudeStopReason.maxTokens
          else if (List.foldl (fun acc p => acc.markCompleted p.2.id) s.cbm
              s.cbm.getUncompletedBlocks).hasActiveTools = true then
            ClaudeStopReason.toolUse
          else ClaudeStopReason.endTurn) s.usageInput s.usageOutput,
          DownEvent.messageStop] i = 0 := rfl
      rw [hlast]
      have hsw : stopCount (s.cbm.getUncompletedBlocks.map
          fun p => DownEvent.contentBlockStop p.2.index) i =
          s.cbm.metadata.countP fun p => !p.2.completed && p.2.index == i :=
        hcount i
      rw [hsw]
      have hnodup : s.cbm.metadata.Nodup := hinv.nodup.of_map
      have huniq : ∀ p ∈ s.cbm.metadata, p.2.index = q.2.index → p = q :=
        fun p hp he => index_inj hinv hp hq he
      have hcs := countP_index_single hq hnodup huniq
      rw [hqi] at hcs
      rw [hcs]
      have := hinv.stops q hq
      rw [hqi] at this
      rw [this]
      by_cases hc : q.2.completed
      · simp [hc]
      · simp [hc]
    · rw [show ∀ (a b c : List DownEvent), a ++ (b ++ c) = (a ++ b) ++ c from
        fun a b c => (List.append_assoc a b c).symm]
      rw [msgStopCount_append, msgStopCount_append, hmsg0, hinv.nostop]
      rfl
    · rw [show ∀ (a b c : List DownEvent), a ++ (b ++ c) = (a ++ b) ++ c from
        fun a b c => (List.append_assoc a b c).symm]
      rw [show [DownEvent.messageDelta
          (if status = "incomplete" ∧ reason = some "max_output_tokens" then
            ClaudeStopReason.maxTokens
          else if (List.foldl (fun acc p => acc.markCompleted p.2.id) s.cbm
              s.cbm.getUncompletedBlocks).hasActiveTools = true then
            ClaudeStopReason.toolUse
          else ClaudeStopReason.endTurn) s.usageInput s.usageOutput,
          DownEvent.messageStop] = [DownEvent.messageDelta
          (if status = "incomplete" ∧ reason = some "max_output_tokens" then
            ClaudeStopReason.maxTokens
          else if (List.foldl (fun acc p => acc.markCompleted p.2.id) s.cbm
              s.cbm.getUncompletedBlocks).hasActiveTools = true then
            ClaudeStopReason.toolUse
          else ClaudeStopReason.endTurn) s.usageInput s.usageOutput] ++
          [DownEvent.messageStop] from rfl]
      rw [show ∀ (a b c : List DownEvent), a ++ (b ++ c) = (a ++ b) ++ c from
        fun a b c => (List.append_assoc a b c).symm]
      exact List.getLast?_concat _

theorem getBlock_spec {m : CBM} {id : String} {blk : CBlock} {md0 : BMeta}
    (h : m.getBlock id = some (blk, md0)) :
    jsMapGet m.metadata id = some md0 ∧
      m.blocks.get? md0.index = some blk := by
  unfold CBM.getBlock at h
  cases hget : jsMapGet m.metadata id with
  | none =>
    rw [hget] at h
    cases h
  | some md1 =>
    rw [hget] at h
    dsimp only at h
    cases hblk : m.blocks.get? md1.index with
    | none =>
      rw [hblk] at h
      cases h
    | some blk1 =>
      rw [hblk] at h
      dsimp only at h
      injection h with h
      injection h with h1 h2
      subst h2
      subst h1
      exact ⟨rfl, hblk⟩

theorem getToolBlock_spec {m : CBM} {id : String} {blk : CBlock} {md0 : BMeta}
    (h : m.getToolBlock id = some (blk, md0)) :
    jsMapGet m.metadata id = some md0 ∧
      ∃ tid tname, m.blocks.get? md0.index =
        some (CBlock.toolUse tid tname) ∧ blk = CBlock.toolUse tid tname := by
  unfold CBM.getToolBlock at h
  cases hgb : m.getBlock id with
  | none =>
    rw [hgb] at h
    cases h
  | some p =>
    rw [hgb] at h
    obtain ⟨blk1, md1⟩ := p
    rcases blk1 with c | ⟨tid, tname⟩
    · cases h
    · injection h with h
      injection h with h1 h2
      subst h2
      subst h1
      obtain ⟨hget, hblk⟩ := getBlock_spec hgb
      exact ⟨hget, tid, tname, hblk, rfl⟩

theorem getCurrentTextBlock_spec {m : CBM} {blk : CBlock} {md0 : BMeta}
    (h : m.getCurrentTextBlock = some (blk, md0)) :
    ∃ p ∈ m.metadata, p.2 = md0 ∧ md0.completed = false := by
  unfold CBM.getCurrentTextBlock at h
  obtain ⟨p, hp, hfp⟩ := List.exists_of_findSome?_eq_some h
  rw [List.mem_reverse] at hp
  refine ⟨p, hp, ?_⟩
  by_cases hc : p.2.completed
  · rw [if_pos hc] at hfp
    cases hfp
  · rw [if_neg hc] at hfp
    rcases hblk : m.blocks.get? p.2.index with _ | blk1
    · rw [hblk] at hfp
      cases hfp
    · rw [hblk] at hfp
      rcases blk1 with c | t
      · injection hfp with hfp
        injection hfp with h1 h2
        subst h2
        constructor
        · rfl
        · revert hc
          cases p.2.completed <;> simp
      · cases hfp

theorem updateTextContent_blocks_length (m : CBM) (id t : String) :
    (m.updateTextContent id t).blocks.length = m.blocks.length := by
  unfold CBM.updateTextContent
  split
  · rfl
  · split
    · simp
    · rfl

theorem updateTextContent_blocks_text (m : CBM) (id t : String) :
    ∀ i c, m.blocks.get? i = some (CBlock.text c) →
      ∃ c2, (m.updateTextContent id t).blocks.get? i =
        some (CBlock.text c2) := by
  intro i c hc
  unfold CBM.updateTextContent
  split
  · exact ⟨c, hc⟩
  · rename_i md1 hget
    split
    · rename_i c0 hc0
      by_cases hi : i = md1.index
      · subst hi
        refine ⟨c0 ++ t, ?_⟩
        rw [List.get?_set_eq]
        rw [hc]
        rfl
      · rw [List.get?_set_ne _ _ (fun h => hi h.symm)]
        exact ⟨c, hc⟩
    · exact ⟨c, hc⟩

theorem SInv_emit_nil {s s' : SState} {out : List DownEvent}
    (hinv : SInv s out)
    (hmd : s'.cbm.metadata = s.cbm.metadata)
    (hbll : s'.cbm.blocks.length = s.cbm.blocks.length)
    (hbtext : ∀ i c, s.cbm.blocks.get? i = some (CBlock.text c) →
      ∃ c2, s'.cbm.blocks.get? i = some (CBlock.text c2))
    (hcur : s'.currentTextBlockId = s.currentTextBlockId ∨
      s'.currentTextBlockId = none)
    (hdone : s'.streamCompleted = false) :
    SInv s' out := by
  have h : SInv s' (out ++ []) :=
    SInv_emit hinv hmd hbll hbtext hcur hdone rfl (fun i => rfl) rfl
  simpa using h

theorem handleEvent_SInv {s : SState} {out : List DownEvent} {e : UpEvent}
    (he : evOk e) (hinv : SInv s out) :
    SInv (s.handleEvent e).1 (out ++ (s.handleEvent e).2) ∨
    ((s.handleEvent e).1.streamCompleted = true ∧
      sessionBalanced (out ++ (s.handleEvent e).2)) := by
  have hdone := hinv.notdone
  cases e with
  | responseCreated rid =>
    left
    simp only [SState.handleEvent, hdone, Bool.false_eq_true, if_false,
      CBM.addTextBlock, CBM.markStarted]
    split
    all_goals
      refine SInv_addBlock hinv (textKey s.cbm.blocks.length)
        ⟨textKey s.cbm.blocks.length, s.cbm.blocks.length, true, false, "",
          none⟩
        (s.cbm.blocks ++ [CBlock.text ""])
        (DownEvent.contentBlockStartText s.cbm.blocks.length)
        (fresh_textKey hinv) rfl rfl rfl rfl (Or.inl rfl) ?_ rfl (by simp)
        (fun i hi => List.get?_append hi)
        (fun _ => ⟨"", List.get?_concat_length _ _⟩)
        (Or.inl ⟨rfl, rfl⟩) (by first | exact hdone | rfl) (Or.inl rfl) ⟨rfl, fun i => rfl, rfl⟩
    all_goals
      rw [show (jsMapSet s.cbm.metadata (textKey s.cbm.blocks.length)
          ⟨textKey s.cbm.blocks.length, s.cbm.blocks.length, false, false,
            "", none⟩ : List (String × BMeta)) = s.cbm.metadata ++
          [(textKey s.cbm.blocks.length, ⟨textKey s.cbm.blocks.length,
            s.cbm.blocks.length, false, false, "", none⟩)] from
        jsMapSet_append _ (fresh_textKey hinv),
        updEntry_append_fresh _ _ (fresh_textKey hinv)]
  | outputTextDelta delta =>
    left
    simp only [SState.handleEvent, hdone, Bool.false_eq_true, if_false]
    rcases hres : (match s.currentTextBlockId with
      | some id => s.cbm.getBlock id
      | none => s.cbm.getCurrentTextBlock) with _ | ⟨b, md0⟩ <;>
      simp only [hres]
    · exact SInv_emit hinv rfl rfl (fun i c hc => ⟨c, hc⟩) (Or.inl rfl)
        (by first | exact hdone | rfl) rfl (fun i => rfl) rfl
    · exact SInv_emit hinv (updateTextContent_metadata _ _ _)
        (updateTextContent_blocks_length _ _ _)
        (updateTextContent_blocks_text _ _ _) (Or.inl rfl) (by first | exact hdone | rfl) rfl
        (fun i => rfl) rfl
  | outputTextDone =>
    left
    simp only [SState.handleEvent, hdone, Bool.false_eq_true, if_false,
      CBM.markCompleted]
    rcases hres : (match s.currentTextBlockId with
      | some id => s.cbm.getBlock id
      | none => s.cbm.getCurrentTextBlock) with _ | ⟨b, md0⟩ <;>
      simp only [hres]
    · exact SInv_emit hinv rfl rfl (fun i c hc => ⟨c, hc⟩) (Or.inr rfl)
        (by first | exact hdone | rfl) rfl (fun i => rfl) rfl
    · have hspec : (md0.id, md0) ∈ s.cbm.metadata ∧
          md0.completed = false := by
        rcases hcur0 : s.currentTextBlockId with _ | cid
        · rw [hcur0] at hres
          obtain ⟨p, hp, hpe, hcomp⟩ := getCurrentTextBlock_spec hres
          have hk := hinv.keys p hp
          refine ⟨?_, hcomp⟩
          have hpq : p = (md0.id, md0) := by
            obtain ⟨p1, p2⟩ := p
            simp only at hpe hk
            subst hpe
            rw [hk]
          rw [← hpq]
          exact hp
        · rw [hcur0] at hres
          obtain ⟨hget, hblk⟩ := getBlock_spec hres
          obtain ⟨hcomp, hid⟩ := hinv.cur cid hcur0 md0 hget
          have hmem := jsMapGet_mem hget
          have hkeq : cid = md0.id := hinv.keys _ hmem
          exact ⟨hkeq ▸ hmem, hcomp⟩
      show SInv _ (out ++ ([] ++ [.contentBlockStop md0.index]))
      exact SInv_complete hinv md0.id md0 hspec.1 hspec.2 rfl rfl
        (fun i c hc => ⟨c, hc⟩) (Or.inl rfl) (by first | exact hdone | rfl) ⟨rfl, fun i => rfl, rfl⟩
  | outputItemAddedFunctionCall itemId name callId =>
    left
    cases itemId with
    | none =>
      simp only [SState.handleEvent, hdone, Bool.false_eq_true, if_false]
      exact SInv_emit hinv rfl rfl (fun i c hc => ⟨c, hc⟩) (Or.inl rfl)
        (by first | exact hdone | rfl) rfl (fun i => rfl) rfl
    | some id =>
      have hok : ∀ n, id ≠ textKey n := he
      simp only [SState.handleEvent, hdone, Bool.false_eq_true, if_false,
        CBM.addToolBlock]
      rcases hget : jsMapGet s.cbm.metadata id with _ | md0 <;>
        simp only [hget]
      · simp only [CBM.markStarted]
        split
        · refine SInv_addBlock hinv id
            ⟨id, s.cbm.blocks.length, true, false, "", some callId⟩
            (s.cbm.blocks ++ [CBlock.toolUse id name])
            (DownEvent.contentBlockStartTool s.cbm.blocks.length id name
              false)
            hget rfl rfl rfl rfl (Or.inr hok) ?_ rfl (by simp)
            (fun i hi => List.get?_append hi)
            (fun h => absurd h (hok _))
            (Or.inr ⟨rfl, hok⟩) (by first | exact hdone | rfl) (Or.inr ⟨name, false, rfl⟩)
            ⟨rfl, fun i => rfl, rfl⟩
          rw [show (jsMapSet s.cbm.metadata id
              ⟨id, s.cbm.blocks.length, false, false, "", some callId⟩ :
              List (String × BMeta)) = s.cbm.metadata ++
              [(id, ⟨id, s.cbm.blocks.length, false, false, "",
                some callId⟩)] from jsMapSet_append _ hget,
            updEntry_append_fresh _ _ hget]
        · rename_i hfalse
          simp at hfalse
      · have hstarted : md0.started = true := hinv.allstart _ (jsMapGet_mem hget)
        simp only [hstarted, Bool.not_true, Bool.false_eq_true, if_false]
        exact SInv_emit hinv rfl rfl (fun i c hc => ⟨c, hc⟩) (Or.inl rfl)
          (by first | exact hdone | rfl) rfl (fun i => rfl) rfl
  | functionCallArgumentsDelta itemId delta =>
    left
    simp only [SState.handleEvent, hdone, Bool.false_eq_true, if_false]
    rcases hres : s.cbm.getToolBlock itemId with _ | ⟨b, md0⟩ <;>
      simp only [hres]
    · exact SInv_emit hinv rfl rfl (fun i c hc => ⟨c, hc⟩) (Or.inl rfl)
        (by first | exact hdone | rfl) rfl (fun i => rfl) rfl
    · split
      · simp only [CBM.appendArgs]
        exact SInv_update hinv md0.id
          (fun b => { b with argsBuffer := b.argsBuffer ++ delta })
          (fun b => rfl) (fun b => rfl)
          (fun b => rfl) (fun b h => h) rfl rfl rfl (by first | exact hdone | rfl) rfl
          (fun i => rfl) rfl
      · exact SInv_emit hinv rfl rfl (fun i c hc => ⟨c, hc⟩) (Or.inl rfl)
          (by first | exact hdone | rfl) rfl (fun i => rfl) rfl
  | functionCallArgumentsDone itemId =>
    left
    simp only [SState.handleEvent, hdone, Bool.false_eq_true, if_false]
    exact SInv_emit hinv rfl rfl (fun i c hc => ⟨c, hc⟩) (Or.inl rfl)
      (by first | exact hdone | rfl) rfl (fun i => rfl) rfl
  | outputItemDoneFunctionCall itemId =>
    left
    cases itemId with
    | none =>
      simp only [SState.handleEvent, hdone, Bool.false_eq_true, if_false]
      exact SInv_emit hinv rfl rfl (fun i c hc => ⟨c, hc⟩) (Or.inl rfl)
        (by first | exact hdone | rfl) rfl (fun i => rfl) rfl
    | some id =>
      simp only [SState.handleEvent, hdone, Bool.false_eq_true, if_false,
        CBM.markCompleted]
      rcases hres : s.cbm.getToolBlock id with _ | ⟨b, md0⟩ <;>
        simp only [hres]
      · exact SInv_emit hinv rfl rfl (fun i c hc => ⟨c, hc⟩) (Or.inl rfl)
          (by first | exact hdone | rfl) rfl (fun i => rfl) rfl
      · obtain ⟨hget, tid, tname, hblk, hbe⟩ := getToolBlock_spec hres
        split
        · rename_i hcmp
          rw [Bool.not_eq_true'] at hcmp
          have hmem := jsMapGet_mem hget
          have hkeq : id = md0.id := hinv.keys _ hmem
          show SInv _ (out ++ ([] ++ [.contentBlockStop md0.index]))
          exact SInv_complete hinv md0.id md0 (hkeq ▸ hmem) hcmp rfl rfl
            (fun i c hc => ⟨c, hc⟩) (Or.inr ⟨rfl, tid, tname, hblk⟩) (by first | exact hdone | rfl)
            ⟨rfl, fun i => rfl, rfl⟩
        · exact SInv_emit hinv rfl rfl (fun i c hc => ⟨c, hc⟩) (Or.inl rfl)
            (by first | exact hdone | rfl) rfl (fun i => rfl) rfl
  | outputItemAddedOther =>
    left
    simp only [SState.handleEvent, hdone, Bool.false_eq_true, if_false]
    exact SInv_emit hinv rfl rfl (fun i c hc => ⟨c, hc⟩) (Or.inl rfl)
      (by first | exact hdone | rfl) rfl (fun i => rfl) rfl
  | outputItemDoneOther =>
    left
    simp only [SState.handleEvent, hdone, Bool.false_eq_true, if_false]
    exact SInv_emit hinv rfl rfl (fun i c hc => ⟨c, hc⟩) (Or.inl rfl)
      (by first | exact hdone | rfl) rfl (fun i => rfl) rfl
  | contentPartAdded itemId part =>
    left
    cases part with
    | outputTextPart t =>
      simp only [SState.handleEvent, hdone, Bool.false_eq_true, if_false,
        CBM.addTextBlock, CBM.markStarted]
      split
      all_goals
        have hmid : SInv (SState.mk s.usageInput s.usageOutput
            (CBM.mk (s.cbm.blocks ++ [CBlock.text ""])
              (s.cbm.metadata ++ [(textKey s.cbm.blocks.length,
                ⟨textKey s.cbm.blocks.length, s.cbm.blocks.length, true,
                  false, "", none⟩)]))
            s.messageId s.messageStarted s.responseId false
            (some (textKey s.cbm.blocks.length)) s.callIdMapping)
            (out ++ (DownEvent.contentBlockStartText s.cbm.blocks.length ::
              [DownEvent.contentBlockDeltaText s.cbm.blocks.length t])) := by
          refine SInv_addBlock hinv (textKey s.cbm.blocks.length)
            ⟨textKey s.cbm.blocks.length, s.cbm.blocks.length, true, false,
              "", none⟩
            (s.cbm.blocks ++ [CBlock.text ""])
            (DownEvent.contentBlockStartText s.cbm.blocks.length)
            (fresh_textKey hinv) rfl rfl rfl rfl (Or.inl rfl) rfl rfl
            (by simp) (fun i hi => List.get?_append hi)
            (fun _ => ⟨"", List.get?_concat_length _ _⟩)
            (Or.inl ⟨rfl, rfl⟩) rfl (Or.inl rfl) ⟨rfl, fun i => rfl, rfl⟩
        refine SInv_emit_nil hmid ?_ ?_ ?_ (Or.inl ?_) ?_
        · rw [updateTextContent_metadata]
          exact (congrArg
            (updEntry (textKey s.cbm.blocks.length)
              (fun b => { b with started := true }))
            (jsMapSet_append
              (⟨textKey s.cbm.blocks.length, s.cbm.blocks.length, false,
                false, "", none⟩ : BMeta) (fresh_textKey hinv))).trans
            (updEntry_append_fresh _ _ (fresh_textKey hinv))
        · rw [updateTextContent_blocks_length]
          try simp
        · intro i c hc
          exact updateTextContent_blocks_text _ _ _ i c hc
        all_goals first | rfl | exact hdone
    | otherPart =>
      simp only [SState.handleEvent, hdone, Bool.false_eq_true, if_false,
        CBM.addTextBlock, CBM.markStarted]
      split
      all_goals
        refine SInv_addBlock hinv (textKey s.cbm.blocks.length)
          ⟨textKey s.cbm.blocks.length, s.cbm.blocks.length, true, false,
            "", none⟩
          (s.cbm.blocks ++ [CBlock.text ""])
          (DownEvent.contentBlockStartText s.cbm.blocks.length)
          (fresh_textKey hinv) rfl rfl rfl rfl (Or.inl rfl) ?_ rfl (by simp)
          (fun i hi => List.get?_append hi)
          (fun _ => ⟨"", List.get?_concat_length _ _⟩)
          (Or.inl ⟨rfl, rfl⟩) (by first | exact hdone | rfl) (Or.inl rfl) ⟨rfl, fun i => rfl, rfl⟩
      all_goals
        rw [show (jsMapSet s.cbm.metadata (textKey s.cbm.blocks.length)
            ⟨textKey s.cbm.blocks.length, s.cbm.blocks.length, false, false,
              "", none⟩ : List (String × BMeta)) = s.cbm.metadata ++
            [(textKey s.cbm.blocks.length, ⟨textKey s.cbm.blocks.length,
              s.cbm.blocks.length, false, false, "", none⟩)] from
          jsMapSet_append _ (fresh_textKey hinv),
          updEntry_append_fresh _ _ (fresh_textKey hinv)]
  | contentPartDone part =>
    left
    simp only [SState.handleEvent, hdone, Bool.false_eq_true, if_false,
      CBM.markCompleted]
    rcases hres : (match s.currentTextBlockId with
      | some id => s.cbm.getBlock id
      | none => s.cbm.getCurrentTextBlock) with _ | ⟨b, md0⟩ <;>
      simp only [hres]
    · cases part
      all_goals
        exact SInv_emit hinv rfl rfl (fun i c hc => ⟨c, hc⟩) (Or.inr rfl)
          (by first | exact hdone | rfl) rfl (fun i => rfl) rfl
    · have hspec : (md0.id, md0) ∈ s.cbm.metadata ∧
          md0.completed = false := by
        rcases hcur0 : s.currentTextBlockId with _ | cid
        · rw [hcur0] at hres
          obtain ⟨p, hp, hpe, hcomp⟩ := getCurrentTextBlock_spec hres
          have hk := hinv.keys p hp
          refine ⟨?_, hcomp⟩
          have hpq : p = (md0.id, md0) := by
            obtain ⟨p1, p2⟩ := p
            simp only at hpe hk
            subst hpe
            rw [hk]
          rw [← hpq]
          exact hp
        · rw [hcur0] at hres
          obtain ⟨hget, hblk⟩ := getBlock_spec hres
          obtain ⟨hcomp, hid⟩ := hinv.cur cid hcur0 md0 hget
          have hmem := jsMapGet_mem hget
          have hkeq : cid = md0.id := hinv.keys _ hmem
          exact ⟨hkeq ▸ hmem, hcomp⟩
      cases part with
      | outputTextPart t =>
        have hmdeq : ((s.cbm.updateTextContent md0.id t).markCompleted
            md0.id).metadata = updEntry md0.id
            (fun b => { b with completed := true }) s.cbm.metadata := by
          simp only [CBM.markCompleted, updateTextContent_metadata]
        show SInv _ (out ++ ([.contentBlockDeltaText md0.index t] ++
          [.contentBlockStop md0.index]))
        refine SInv_complete hinv md0.id md0 hspec.1 hspec.2 ?_ ?_ ?_
          (Or.inl rfl) (by first | exact hdone | rfl) ⟨rfl, fun i => rfl, rfl⟩
        · exact hmdeq
        · simp only [CBM.markCompleted]
          exact updateTextContent_blocks_length _ _ _
        · intro i c hc
          simp only [CBM.markCompleted]
          exact updateTextContent_blocks_text _ _ _ i c hc
      | otherPart =>
        show SInv _ (out ++ ([] ++ [.contentBlockStop md0.index]))
        exact SInv_complete hinv md0.id md0 hspec.1 hspec.2 rfl rfl
          (fun i c hc => ⟨c, hc⟩) (Or.inl rfl) (by first | exact hdone | rfl)
          ⟨rfl, fun i => rfl, rfl⟩
  | responseCompleted status reason =>
    right
    exact SInv_completed hinv status reason
  | responseFailed =>
    left
    simp only [SState.handleEvent, hdone, Bool.false_eq_true, if_false]
    exact SInv_emit hinv rfl rfl (fun i c hc => ⟨c, hc⟩) (Or.inl rfl)
      (by first | exact hdone | rfl) rfl (fun i => rfl) rfl
  | responseIncomplete =>
    left
    simp only [SState.handleEvent, hdone, Bool.false_eq_true, if_false]
    exact SInv_emit hinv rfl rfl (fun i c hc => ⟨c, hc⟩) (Or.inl rfl)
      (by first | exact hdone | rfl) rfl (fun i => rfl) rfl
  | errorEvent =>
    left
    simp only [SState.handleEvent, hdone, Bool.false_eq_true, if_false]
    exact SInv_emit hinv rfl rfl (fun i c hc => ⟨c, hc⟩) (Or.inl rfl)
      (by first | exact hdone | rfl) rfl (fun i => rfl) rfl
  | responseInProgress =>
    left
    simp only [SState.handleEvent, hdone, Bool.false_eq_true, if_false]
    exact SInv_emit hinv rfl rfl (fun i c hc => ⟨c, hc⟩) (Or.inl rfl)
      (by first | exact hdone | rfl) rfl (fun i => rfl) rfl
  | webSearchInProgress itemId =>
    left
    have hok : ∀ n, itemId ≠ textKey n := he
    simp only [SState.handleEvent, hdone, Bool.false_eq_true, if_false,
      CBM.addToolBlock]
    rcases hget : jsMapGet s.cbm.metadata itemId with _ | md0 <;>
      simp only [hget]
    · simp only [CBM.markStarted]
      split
      · refine SInv_addBlock hinv itemId
          ⟨itemId, s.cbm.blocks.length, true, false, "", none⟩
          (s.cbm.blocks ++ [CBlock.toolUse itemId "web_search"])
          (DownEvent.contentBlockStartTool s.cbm.blocks.length itemId
            "web_search" true)
          hget rfl rfl rfl rfl (Or.inr hok) ?_ rfl (by simp)
          (fun i hi => List.get?_append hi)
          (fun h => absurd h (hok _))
          (Or.inr ⟨rfl, hok⟩) (by first | exact hdone | rfl) (Or.inr ⟨"web_search", true, rfl⟩)
          ⟨rfl, fun i => rfl, rfl⟩
        rw [show (jsMapSet s.cbm.metadata itemId
            ⟨itemId, s.cbm.blocks.length, false, false, "", none⟩ :
            List (String × BMeta)) = s.cbm.metadata ++
            [(itemId, ⟨itemId, s.cbm.blocks.length, false, false, "",
              none⟩)] from jsMapSet_append _ hget,
          updEntry_append_fresh _ _ hget]
      · rename_i hfalse
        simp at hfalse
    · have hstarted : md0.started = true := hinv.allstart _ (jsMapGet_mem hget)
      simp only [hstarted, Bool.not_true, Bool.false_eq_true, if_false]
      exact SInv_emit hinv rfl rfl (fun i c hc => ⟨c, hc⟩) (Or.inl rfl)
        (by first | exact hdone | rfl) rfl (fun i => rfl) rfl
  | webSearchSearching itemId sequenceNumber =>
    left
    simp only [SState.handleEvent, hdone, Bool.false_eq_true, if_false]
    rcases hres : s.cbm.getToolBlock itemId with _ | ⟨b, md0⟩ <;>
      simp only [hres]
    · exact SInv_emit hinv rfl rfl (fun i c hc => ⟨c, hc⟩) (Or.inl rfl)
        (by first | exact hdone | rfl) rfl (fun i => rfl) rfl
    · split
      · simp only [CBM.appendArgs]
        exact SInv_update hinv md0.id
          (fun b => { b with argsBuffer := b.argsBuffer ++
            ("\x7b\"status\":\"searching\",\"sequence\":" ++
              natToString sequenceNumber ++ "\x7d") })
          (fun b => rfl) (fun b => rfl)
          (fun b => rfl) (fun b h => h) rfl rfl rfl (by first | exact hdone | rfl) rfl
          (fun i => rfl) rfl
      · exact SInv_emit hinv rfl rfl (fun i c hc => ⟨c, hc⟩) (Or.inl rfl)
          (by first | exact hdone | rfl) rfl (fun i => rfl) rfl
  | webSearchCompleted itemId =>
    left
    simp only [SState.handleEvent, hdone, Bool.false_eq_true, if_false,
      CBM.markCompleted]
    rcases hres : s.cbm.getToolBlock itemId with _ | ⟨b, md0⟩ <;>
      simp only [hres]
    · exact SInv_emit hinv rfl rfl (fun i c hc => ⟨c, hc⟩) (Or.inl rfl)
        (by first | exact hdone | rfl) rfl (fun i => rfl) rfl
    · obtain ⟨hget, tid, tname, hblk, hbe⟩ := getToolBlock_spec hres
      split
      · rename_i hcmp
        rw [Bool.not_eq_true'] at hcmp
        have hmem := jsMapGet_mem hget
        have hkeq : itemId = md0.id := hinv.keys _ hmem
        show SInv _ (out ++ ([] ++ [.contentBlockStop md0.index]))
        exact SInv_complete hinv md0.id md0 (hkeq ▸ hmem) hcmp rfl rfl
          (fun i c hc => ⟨c, hc⟩) (Or.inr ⟨rfl, tid, tname, hblk⟩) (by first | exact hdone | rfl)
          ⟨rfl, fun i => rfl, rfl⟩
      · exact SInv_emit hinv rfl rfl (fun i c hc => ⟨c, hc⟩) (Or.inl rfl)
          (by first | exact hdone | rfl) rfl (fun i => rfl) rfl
  | unknownEvent =>
    left
    simp only [SState.handleEvent, hdone, Bool.false_eq_true, if_false]
    exact SInv_emit hinv rfl rfl (fun i c hc => ⟨c, hc⟩) (Or.inl rfl)
      (by first | exact hdone | rfl) rfl (fun i => rfl) rfl

theorem processEvents_SInv (evs : List UpEvent) (s : SState)
    (out : List DownEvent) (h : ∀ e ∈ evs, evOk e)
    (hinv : SInv s out ∨ (s.streamCompleted = true ∧ sessionBalanced out)) :
    SInv (processEvents s evs).1 (out ++ (processEvents s evs).2) ∨
      ((processEvents s evs).1.streamCompleted = true ∧
        sessionBalanced (out ++ (processEvents s evs).2)) := by
  induction evs generalizing s out with
  | nil =>
    simpa [processEvents] using hinv
  | cons e rest ih =>
    have hsplit : processEvents s (e :: rest) =
        ((processEvents (s.handleEvent e).1 rest).1,
          (s.handleEvent e).2 ++
            (processEvents (s.handleEvent e).1 rest).2) := rfl
    rw [hsplit]
    have hstep : SInv (s.handleEvent e).1 (out ++ (s.handleEvent e).2) ∨
        ((s.handleEvent e).1.streamCompleted = true ∧
          sessionBalanced (out ++ (s.handleEvent e).2)) := by
      rcases hinv with hinv | ⟨hlatch, hbal⟩
      · exact handleEvent_SInv (h e (List.mem_cons_self _ _)) hinv
      · right
        have hlat : s.handleEvent e = (s, []) := by
          simp [SState.handleEvent, hlatch]
        rw [hlat]
        simpa using ⟨hlatch, hbal⟩
    have hres := ih (s.handleEvent e).1 (out ++ (s.handleEvent e).2)
      (fun e2 he2 => h e2 (List.mem_cons_of_mem _ he2)) hstep
    simpa [List.append_assoc] using hres

theorem processEvents_append (s : SState) (l1 l2 : List UpEvent) :
    processEvents s (l1 ++ l2) =
      ((processEvents (processEvents s l1).1 l2).1,
        (processEvents s l1).2 ++
          (processEvents (processEvents s l1).1 l2).2) := by
  induction l1 generalizing s with
  | nil => simp [processEvents]
  | cons e rest ih =>
    simp only [List.cons_append]
    have h1 : processEvents s (e :: (rest ++ l2)) =
        ((processEvents (s.handleEvent e).1 (rest ++ l2)).1,
          (s.handleEvent e).2 ++
            (processEvents (s.handleEvent e).1 (rest ++ l2)).2) := rfl
    have h2 : processEvents s (e :: rest) =
        ((processEvents (s.handleEvent e).1 rest).1,
          (s.handleEvent e).2 ++
            (processEvents (s.handleEvent e).1 rest).2) := rfl
    rw [h1, h2, ih]
    simp [List.append_assoc]

/-- C3 counterexample: an upstream tool item id colliding with the synthetic
text key `text_1` overwrites the text block's metadata entry in the JS `Map`,
orphaning block 0: the session emits `content_block_start(0)` with no
matching `content_block_stop(0)`. -/
theorem c3_counterexample :
    ¬ sessionBalanced (processEvents initialState
      [.outputItemAddedFunctionCall (some "text_1") "f" "c1",
       .responseCreated "r1",
       .responseCompleted "completed" none]).2 := by decide

/-- C3 (amended): for every streaming session whose upstream tool item ids
never collide with a synthetic `text_<n>` key and that ends with
`response.completed`, the emitted downstream sequence is balanced: start
indices are dense `0, 1, 2, ...` in opening order, each started index is
stopped exactly once, and the unique `message_stop` comes last (after every
stop).  A tool item id of the form `text_<n>` breaks the accounting, as the
counterexample shows. -/
theorem c3_amended (evs : List UpEvent) (status : String)
    (reason : Option String) (h : ∀ e ∈ evs, evOk e) :
    sessionBalanced (processEvents initialState
      (evs ++ [.responseCompleted status reason])).2 := by
  have hok : ∀ e ∈ evs ++ [UpEvent.responseCompleted status reason],
      evOk e := by
    intro e he
    rcases List.mem_append.1 he with he | he
    · exact h e he
    · simp only [List.mem_singleton] at he
      subst he
      trivial
  have hmain := processEvents_SInv
    (evs ++ [.responseCompleted status reason]) initialState [] hok
    (Or.inl SInv_initial)
  have hfin : (processEvents initialState
      (evs ++ [.responseCompleted status reason])).1.streamCompleted =
      true := by
    rw [processEvents_append]
    show ((processEvents initialState evs).1.handleEvent
      (.responseCompleted status reason)).1.streamCompleted = true
    by_cases hd : (processEvents initialState evs).1.streamCompleted
    · simp [SState.handleEvent, hd]
    · rw [Bool.not_eq_true] at hd
      simp [SState.handleEvent, hd, completedSweep]
  rcases hmain with hinv | ⟨-, hbal⟩
  · rw [hinv.notdone] at hfin
    cases hfin
  · simpa using hbal

/-- C3 witness: the amended theorem applied to a session with one text
block and one tool block whose id `f1` is not a text key. -/
theorem c3_amended_witness :
    (∀ e ∈ ([UpEvent.responseCreated "r1",
        UpEvent.outputItemAddedFunctionCall (some "f1") "calc" "c1",
        UpEvent.outputItemDoneFunctionCall (some "f1")] : List UpEvent),
      evOk e) ∧
    sessionBalanced (processEvents initialState
      ([UpEvent.responseCreated "r1",
        UpEvent.outputItemAddedFunctionCall (some "f1") "calc" "c1",
        UpEvent.outputItemDoneFunctionCall (some "f1")] ++
        [.responseCompleted "completed" none])).2 := by
  have hok : ∀ e ∈ ([UpEvent.responseCreated "r1",
      UpEvent.outputItemAddedFunctionCall (some "f1") "calc" "c1",
      UpEvent.outputItemDoneFunctionCall (some "f1")] : List UpEvent),
      evOk e := by
    intro e he
    rcases List.mem_cons.1 he with rfl | he
    · trivial
    rcases List.mem_cons.1 he with rfl | he
    · exact shortId_ne_textKey (by decide)
    rcases List.mem_cons.1 he with rfl | he
    · trivial
    cases he
  exact ⟨hok, c3_amended _ "completed" none hok⟩

end Spec2Proof
